import Mathlib

set_option autoImplicit false

/-! # Shallow embedding of the workflows-plugin orchestration core

Strings are modelled as lists of characters (`Str`), numbers as `Nat`
(with `Int` where the JavaScript code can produce negative values), and
the system clock is passed explicitly as a `now` argument wherever the
source calls `new Date().toISOString()`. -/

/-- Character strings are modelled as lists of characters. -/
abbrev Str := List Char

/-- The decimal digit character for `d` (expects `d < 10`). -/
def digitChar (d : Nat) : Char := Char.ofNat (48 + d)

/-- Decimal representation, with explicit fuel so that the definition is
structural and reduces inside the kernel. -/
def decReprAux : Nat → Nat → Str
  | 0, _ => []
  | fuel + 1, n =>
    if n < 10 then [digitChar n]
    else decReprAux fuel (n / 10) ++ [digitChar (n % 10)]

/-- Decimal representation of a natural number (JS template `${n}`). -/
def decRepr (n : Nat) : Str := decReprAux (n + 1) n

example : decRepr 42 = ['4', '2'] := by decide

/-! ## Data model

Shapes of `SignalRecord`, `PlanInfo` and `WorkflowContext` as used by the
workflow machine (the `main.workflow` module imported by
`workflow-runner.ts`), the runner and the progress writer.
`currentPlanIndex` is an `Int` because `Array.prototype.findIndex` can
produce `-1` during resume. -/

structure SignalRecord where
  signal : Str
  timestamp : Str
deriving DecidableEq

structure PlanInfo where
  path : Str
  issueNumber : Option Nat
  completed : Bool
deriving DecidableEq

structure WorkflowContext where
  researchFile : Str
  worktreePath : Option Str
  branch : Option Str
  plans : List PlanInfo
  currentPlanIndex : Int
  prNumber : Option Nat
  prUrl : Option Str
  ciAttempts : Nat
  commentAttempts : Nat
  error : Option Str
  startedAt : Str
  lastUpdate : Str
  signals : List SignalRecord
deriving DecidableEq

inductive WorkflowPhase
  | idle | setup | planning | implementing | submitting
  | ci_resolution | ci_fixing | comment_resolution | comment_resolving
  | completed | failed
deriving DecidableEq

/-- Events of the workflow machine.  Payload fields mirror the keys the
machine and the runner actually read from `event` / `event.data`; every
one of them is optional in the source (`event.data?.x ?? null`). -/
inductive WorkflowEvent
  | START (researchFile : Option Str)
  | SETUP_COMPLETE (worktreePath : Option Str) (branch : Option Str)
  | PLANNING_COMPLETE (plansCount : Option Nat)
  | PLAN_COMPLETE (planNumber : Option Nat)
  | IMPLEMENTATION_COMPLETE
  | PR_CREATED (prNumber : Option Nat) (prUrl : Option Str)
  | CI_PASSED
  | CI_FAILED (failureReason : Option Str)
  | CI_FIX_PUSHED
  | COMMENTS_RESOLVED
  | COMMENTS_PENDING (count : Option Nat)
  | COMMENT_FIX_PUSHED
  | WORKFLOW_COMPLETE
  | FAIL (error : Option Str)
deriving DecidableEq

/-- `event.type` of an event, as the string the source uses. -/
def WorkflowEvent.typeName : WorkflowEvent → Str
  | .START _ => "START".data
  | .SETUP_COMPLETE _ _ => "SETUP_COMPLETE".data
  | .PLANNING_COMPLETE _ => "PLANNING_COMPLETE".data
  | .PLAN_COMPLETE _ => "PLAN_COMPLETE".data
  | .IMPLEMENTATION_COMPLETE => "IMPLEMENTATION_COMPLETE".data
  | .PR_CREATED _ _ => "PR_CREATED".data
  | .CI_PASSED => "CI_PASSED".data
  | .CI_FAILED _ => "CI_FAILED".data
  | .CI_FIX_PUSHED => "CI_FIX_PUSHED".data
  | .COMMENTS_RESOLVED => "COMMENTS_RESOLVED".data
  | .COMMENTS_PENDING _ => "COMMENTS_PENDING".data
  | .COMMENT_FIX_PUSHED => "COMMENT_FIX_PUSHED".data
  | .WORKFLOW_COMPLETE => "WORKFLOW_COMPLETE".data
  | .FAIL _ => "FAIL".data

/-! ## The workflow machine

Embedding of the XState machine exported as `workflowMachine` by the
`main.workflow` module that `workflow-runner.ts` imports (states
`idle … ci_resolution/ci_fixing … comment_resolution/comment_resolving`,
`MAX_CI_ATTEMPTS = 5`, `MAX_COMMENT_ATTEMPTS = 10`).  XState delivers an
event to the current state's `on` table; an event with no entry there is
ignored, which `step` renders as `none` (a rejected transition).  A
successful transition returns the target state and the context produced
by its `assign` actions, with `now` standing for
`new Date().toISOString()`. -/

def MAX_CI_ATTEMPTS : Nat := 5
def MAX_COMMENT_ATTEMPTS : Nat := 10

def initialWorkflowContext (now : Str) : WorkflowContext where
  researchFile := []
  worktreePath := none
  branch := none
  plans := []
  currentPlanIndex := 0
  prNumber := none
  prUrl := none
  ciAttempts := 0
  commentAttempts := 0
  error := none
  startedAt := now
  lastUpdate := now
  signals := []

/-- `addSignal` of the machine module: append the event type to the
signal history, except for the internal `START` event. -/
def addSignal (ctx : WorkflowContext) (signal : Str) (now : Str) : List SignalRecord :=
  if signal = "START".data then ctx.signals
  else ctx.signals ++ [⟨signal, now⟩]

/-- Plans generated by the `PLANNING_COMPLETE` action:
`Array.from({length: count}, (_, i) => ({path: plans/workflow-(i+1).md, …}))`. -/
def genPlans (count : Nat) : List PlanInfo :=
  (List.range count).map fun i =>
    ⟨"plans/workflow-".data ++ decRepr (i + 1) ++ ".md".data, none, false⟩

/-- The `PLAN_COMPLETE` action on `plans`: mark the entry at
`currentPlanIndex` completed, leave the rest unchanged. -/
def markCurrent (plans : List PlanInfo) (idx : Int) : List PlanInfo :=
  plans.mapIdx fun i p => if (i : Int) = idx then { p with completed := true } else p

/-- One step of the workflow machine: `step now phase ctx event` is
`some (target, ctx')` when the state handles the event (guards included)
and `none` when XState ignores it. -/
def step (now : Str) : WorkflowPhase → WorkflowContext → WorkflowEvent →
    Option (WorkflowPhase × WorkflowContext)
  | .idle, ctx, .START rf =>
    some (.setup, { ctx with
      researchFile := rf.getD []
      startedAt := now
      lastUpdate := now
      signals := [] })
  | .idle, _, _ => none
  | .setup, ctx, .SETUP_COMPLETE w b =>
    some (.planning, { ctx with
      worktreePath := w
      branch := b
      signals := addSignal ctx "SETUP_COMPLETE".data now
      lastUpdate := now })
  | .setup, ctx, .FAIL e =>
    some (.failed, { ctx with
      error := some (e.getD "Setup failed".data)
      signals := addSignal ctx "FAIL".data now })
  | .setup, _, _ => none
  | .planning, ctx, .PLANNING_COMPLETE c =>
    some (.implementing, { ctx with
      plans := genPlans (c.getD 0)
      signals := addSignal ctx "PLANNING_COMPLETE".data now
      lastUpdate := now })
  | .planning, ctx, .FAIL e =>
    some (.failed, { ctx with
      error := some (e.getD "Planning failed".data)
      signals := addSignal ctx "FAIL".data now })
  | .planning, _, _ => none
  | .implementing, ctx, .PLAN_COMPLETE _ =>
    some (.implementing, { ctx with
      plans := markCurrent ctx.plans ctx.currentPlanIndex
      currentPlanIndex := ctx.currentPlanIndex + 1
      signals := addSignal ctx "PLAN_COMPLETE".data now
      lastUpdate := now })
  | .implementing, ctx, .IMPLEMENTATION_COMPLETE =>
    some (.submitting, { ctx with
      signals := addSignal ctx "IMPLEMENTATION_COMPLETE".data now
      lastUpdate := now })
  | .implementing, ctx, .FAIL e =>
    some (.failed, { ctx with
      error := some (e.getD "Implementation failed".data)
      signals := addSignal ctx "FAIL".data now })
  | .implementing, _, _ => none
  | .submitting, ctx, .PR_CREATED n u =>
    some (.ci_resolution, { ctx with
      prNumber := n
      prUrl := u
      signals := addSignal ctx "PR_CREATED".data now
      lastUpdate := now })
  | .submitting, ctx, .FAIL e =>
    some (.failed, { ctx with
      error := some (e.getD "PR submission failed".data)
      signals := addSignal ctx "FAIL".data now })
  | .submitting, _, _ => none
  | .ci_resolution, ctx, .CI_PASSED =>
    some (.comment_resolution, { ctx with
      signals := addSignal ctx "CI_PASSED".data now
      lastUpdate := now })
  | .ci_resolution, ctx, .CI_FAILED _ =>
    if ctx.ciAttempts < MAX_CI_ATTEMPTS then
      some (.ci_fixing, { ctx with
        ciAttempts := ctx.ciAttempts + 1
        signals := addSignal ctx "CI_FAILED".data now
        lastUpdate := now })
    else
      some (.failed, { ctx with
        error := some "CI failed after 5 attempts".data
        signals := addSignal ctx "CI_FAILED".data now })
  | .ci_resolution, ctx, .FAIL e =>
    some (.failed, { ctx with
      error := some (e.getD "CI resolution failed".data)
      signals := addSignal ctx "FAIL".data now })
  | .ci_resolution, _, _ => none
  | .ci_fixing, ctx, .CI_FIX_PUSHED =>
    some (.ci_resolution, { ctx with
      signals := addSignal ctx "CI_FIX_PUSHED".data now
      lastUpdate := now })
  | .ci_fixing, ctx, .FAIL e =>
    some (.failed, { ctx with
      error := some (e.getD "CI fix failed".data)
      signals := addSignal ctx "FAIL".data now })
  | .ci_fixing, _, _ => none
  | .comment_resolution, ctx, .COMMENTS_RESOLVED =>
    -- transition actions, then the entry action of the final `completed`
    -- state (which appends the WORKFLOW_COMPLETE signal)
    let ctx1 : WorkflowContext := { ctx with
      signals := addSignal ctx "COMMENTS_RESOLVED".data now
      lastUpdate := now }
    some (.completed, { ctx1 with
      signals := addSignal ctx1 "WORKFLOW_COMPLETE".data now
      lastUpdate := now })
  | .comment_resolution, ctx, .COMMENTS_PENDING _ =>
    if ctx.commentAttempts < MAX_COMMENT_ATTEMPTS then
      some (.comment_resolving, { ctx with
        commentAttempts := ctx.commentAttempts + 1
        signals := addSignal ctx "COMMENTS_PENDING".data now
        lastUpdate := now })
    else
      some (.failed, { ctx with
        error := some "Comments unresolved after 10 attempts".data
        signals := addSignal ctx "COMMENTS_PENDING".data now })
  | .comment_resolution, ctx, .FAIL e =>
    some (.failed, { ctx with
      error := some (e.getD "Comment resolution failed".data)
      signals := addSignal ctx "FAIL".data now })
  | .comment_resolution, _, _ => none
  | .comment_resolving, ctx, .COMMENT_FIX_PUSHED =>
    some (.comment_resolution, { ctx with
      signals := addSignal ctx "COMMENT_FIX_PUSHED".data now
      lastUpdate := now })
  | .comment_resolving, ctx, .FAIL e =>
    some (.failed, { ctx with
      error := some (e.getD "Comment fix failed".data)
      signals := addSignal ctx "FAIL".data now })
  | .comment_resolving, _, _ => none
  | .completed, _, _ => none
  | .failed, _, _ => none

/-- `isTerminal` of the machine module. -/
def isTerminal (ph : WorkflowPhase) : Bool :=
  ph == .completed || ph == .failed

/-- `isSuccess` of the machine module. -/
def isSuccess (ph : WorkflowPhase) : Bool :=
  ph == .completed

/-! ## `src/core/workflow-state.ts`

A second, self-contained pure state module with its own six-phase state
type and guarded transition functions.  The TS functions carry narrowed
parameter types but begin with runtime phase checks, so they are embedded
over the full state union.  `now` again stands for
`new Date().toISOString()`. -/

namespace CoreState

inductive Phase
  | setup | planning | implementing | verifying | completed | failed
deriving DecidableEq

def Phase.str : Phase → Str
  | .setup => "setup".data
  | .planning => "planning".data
  | .implementing => "implementing".data
  | .verifying => "verifying".data
  | .completed => "completed".data
  | .failed => "failed".data

structure WorkflowConfig where
  researchFile : Str
  worktreePath : Str
  branch : Str
  maxCIAttempts : Nat
deriving DecidableEq

/-- The `WorkflowState` union, one constructor per interface. -/
inductive WState
  | setupS (config : Option WorkflowConfig) (startedAt : Str)
  | planningS (config : WorkflowConfig) (startedAt : Str) (planFiles : List Str)
  | implementingS (config : WorkflowConfig) (startedAt : Str) (planFiles : List Str)
      (currentPlanIndex : Nat) (completedPlans : List Str)
  | verifyingS (config : WorkflowConfig) (startedAt : Str) (planFiles : List Str)
      (completedPlans : List Str) (prNumber : Nat) (ciRunId : Nat) (ciAttempts : Nat)
  | completedS (config : WorkflowConfig) (startedAt : Str) (completedAt : Str)
      (planFiles : List Str) (completedPlans : List Str) (prNumber : Nat) (prUrl : Str)
  | failedS (config : Option WorkflowConfig) (startedAt : Str) (failedAt : Str)
      (error : Str) (previousPhase : Phase)
deriving DecidableEq

def phaseOf : WState → Phase
  | .setupS .. => .setup
  | .planningS .. => .planning
  | .implementingS .. => .implementing
  | .verifyingS .. => .verifying
  | .completedS .. => .completed
  | .failedS .. => .failed

def startedAtOf : WState → Str
  | .setupS _ s => s
  | .planningS _ s _ => s
  | .implementingS _ s _ _ _ => s
  | .verifyingS _ s _ _ _ _ _ => s
  | .completedS _ s _ _ _ _ _ => s
  | .failedS _ s _ _ _ => s

/-- `state.config` (nullable only in the setup and failed states). -/
def configOf : WState → Option WorkflowConfig
  | .setupS c _ => c
  | .planningS c _ _ => some c
  | .implementingS c _ _ _ _ => some c
  | .verifyingS c _ _ _ _ _ _ => some c
  | .completedS c _ _ _ _ _ _ => some c
  | .failedS c _ _ _ _ => c

inductive TransitionResult
  | success (state : WState)
  | failure (error : Str)
deriving DecidableEq

/-- The `success` field of a `TransitionResult`. -/
def TransitionResult.ok : TransitionResult → Bool
  | .success _ => true
  | .failure _ => false

def transitionToPlanning (state : WState) (config : WorkflowConfig)
    (planFiles : List Str) : TransitionResult :=
  if phaseOf state ≠ .setup then
    .failure ("Cannot transition to planning from ".data ++ (phaseOf state).str)
  else if planFiles = [] then
    .failure "Cannot transition to planning without plan files".data
  else
    .success (.planningS config (startedAtOf state) planFiles)

def transitionToImplementing (state : WState) : TransitionResult :=
  match state with
  | .planningS c s pf => .success (.implementingS c s pf 0 [])
  | st => .failure ("Cannot transition to implementing from ".data ++ (phaseOf st).str)

def completeCurrentPlan (state : WState) : TransitionResult :=
  match state with
  | .implementingS c s pf idx comp =>
    match pf.get? idx with
    | none => .failure "No current plan to complete".data
    | some cur =>
      if cur = [] then .failure "No current plan to complete".data
      else .success (.implementingS c s pf (idx + 1) (comp ++ [cur]))
  | st => .failure ("Cannot complete plan in phase ".data ++ (phaseOf st).str)

def transitionToVerifying (state : WState) (prNumber ciRunId : Nat) : TransitionResult :=
  match state with
  | .implementingS c s pf _ comp =>
    if comp.length ≠ pf.length then
      .failure "Cannot verify until all plans are completed".data
    else
      .success (.verifyingS c s pf comp prNumber ciRunId 1)
  | st => .failure ("Cannot transition to verifying from ".data ++ (phaseOf st).str)

def incrementCIAttempt (state : WState) (newCIRunId : Nat) (now : Str) : TransitionResult :=
  match state with
  | .verifyingS c s pf comp pr _ att =>
    if att + 1 > c.maxCIAttempts then
      .success (.failedS (some c) s now
        ("Exceeded maximum CI attempts (".data ++ decRepr c.maxCIAttempts ++ ")".data)
        .verifying)
    else
      .success (.verifyingS c s pf comp pr newCIRunId (att + 1))
  | st => .failure ("Cannot increment CI attempt in phase ".data ++ (phaseOf st).str)

def transitionToCompleted (state : WState) (prUrl : Str) (now : Str) : TransitionResult :=
  match state with
  | .verifyingS c s pf comp pr _ _ => .success (.completedS c s now pf comp pr prUrl)
  | st => .failure ("Cannot transition to completed from ".data ++ (phaseOf st).str)

/-- `transitionToFailed` — note: no phase check at all. -/
def transitionToFailed (state : WState) (error : Str) (now : Str) : TransitionResult :=
  .success (.failedS (configOf state) (startedAtOf state) now error (phaseOf state))

def isTerminalState (state : WState) : Bool :=
  phaseOf state == .completed || phaseOf state == .failed

end CoreState

/-! ## Claim theorems about the state machines -/

/-- Terminal states of the workflow machine reject every event. -/
theorem step_terminal_none (now : Str) (ctx : WorkflowContext) (e : WorkflowEvent) :
    step now .completed ctx e = none ∧ step now .failed ctx e = none := by
  cases e <;> exact ⟨rfl, rfl⟩

/-- A sample configuration and completed state used by concrete checks. -/
def sampleConfig : CoreState.WorkflowConfig :=
  ⟨"research/test.md".data, "/wt".data, "feat/x".data, 3⟩

def sampleCompleted : CoreState.WState :=
  .completedS sampleConfig "t0".data "t1".data ["p1.md".data] ["p1.md".data] 7 "u".data

/-- C2 counterexample: in `ci_resolution` with `ciAttempts` already at 4, a
`CI_FAILED` event still enters `ci_fixing` — it does not transition to
`failed` as the claim asserts. -/
theorem ci_failed_at_four_enters_ci_fixing :
    (step "t".data .ci_resolution
        { initialWorkflowContext "t".data with ciAttempts := 4 }
        (.CI_FAILED none)).map Prod.fst = some .ci_fixing
    ∧ WorkflowPhase.ci_fixing ≠ WorkflowPhase.failed := by
  constructor
  · rfl
  · decide

/-- C2 (amended): in the CI-verification phase `ci_resolution`, `CI_FAILED`
transitions to `ci_fixing` exactly when `ciAttempts < 5` (incrementing the
counter) and to `failed` otherwise; the transition to `failed` therefore
happens once `ciAttempts` has reached 5, not 4. -/
theorem ci_failed_transition_guard (now : Str) (ctx : WorkflowContext) (r : Option Str) :
    (step now .ci_resolution ctx (.CI_FAILED r)).map Prod.fst =
      some (if ctx.ciAttempts < 5 then WorkflowPhase.ci_fixing else .failed)
    ∧ (step now .ci_resolution ctx (.CI_FAILED r)).map (fun pc => pc.2.ciAttempts) =
      some (if ctx.ciAttempts < 5 then ctx.ciAttempts + 1 else ctx.ciAttempts) := by
  by_cases h : ctx.ciAttempts < 5 <;>
    simp [step, MAX_CI_ATTEMPTS, h]

/-- C3 counterexample: the initial `idle` phase has no `FAIL` handler, so a
`FAIL` event there is ignored (no transition to `failed`, no error
recorded), contradicting the claim's "including the initial idle phase". -/
theorem fail_event_ignored_in_idle :
    step "t".data .idle (initialWorkflowContext "t".data) (.FAIL (some "boom".data)) = none := by
  rfl

/-- C3 (amended): from every non-terminal phase except `idle`, a `FAIL`
event transitions the machine to `failed` with the event's error recorded
in the context. -/
theorem fail_reaches_failed_from_non_idle (now e : Str) (ctx : WorkflowContext)
    (ph : WorkflowPhase)
    (h : ph ∈ [WorkflowPhase.setup, .planning, .implementing, .submitting,
      .ci_resolution, .ci_fixing, .comment_resolution, .comment_resolving]) :
    (step now ph ctx (.FAIL (some e))).map Prod.fst = some .failed
    ∧ (step now ph ctx (.FAIL (some e))).map (fun pc => pc.2.error) = some (some e) := by
  fin_cases h <;> simp [step]

theorem fail_reaches_failed_from_non_idle_witness :
    (step "t".data .setup (initialWorkflowContext "t".data)
        (.FAIL (some "boom".data))).map Prod.fst = some .failed :=
  (fail_reaches_failed_from_non_idle "t".data "boom".data
    (initialWorkflowContext "t".data) .setup (by decide)).1

/-- C4: every `PLAN_COMPLETE` in `implementing` re-enters `implementing`
with the plan index advanced, and `submitting` is reachable from
`implementing` only via an explicit `IMPLEMENTATION_COMPLETE` event —
never automatically upon the final `PLAN_COMPLETE`. -/
theorem plan_complete_reenters_submitting_only_explicit (now : Str)
    (ctx : WorkflowContext) (n : Option Nat) (e : WorkflowEvent) :
    (step now .implementing ctx (.PLAN_COMPLETE n)).map Prod.fst = some .implementing
    ∧ (step now .implementing ctx (.PLAN_COMPLETE n)).map
        (fun pc => pc.2.currentPlanIndex) = some (ctx.currentPlanIndex + 1)
    ∧ ((step now .implementing ctx e).map Prod.fst = some .submitting ↔
        e = .IMPLEMENTATION_COMPLETE) := by
  refine ⟨by simp [step], by simp [step], ?_⟩
  cases e <;> simp [step]

/-- C7 counterexample: `transitionToFailed` has no phase guard, so it
produces a successful transition out of a `completed` state. -/
theorem transition_to_failed_escapes_completed :
    CoreState.transitionToFailed sampleCompleted "late".data "t2".data =
      .success (.failedS (some sampleConfig) "t0".data "t2".data "late".data .completed)
    ∧ CoreState.phaseOf sampleCompleted = .completed := by
  exact ⟨rfl, rfl⟩

/-- C7 (amended): the workflow machine's `completed`/`failed` states reject
every event, and every phase-guarded transition function of
`workflow-state.ts` fails on a terminal state — but `transitionToFailed`
succeeds from every state, terminal states included. -/
theorem terminal_phases_amended (now e : Str) (ctx : WorkflowContext)
    (ev : WorkflowEvent) (s : CoreState.WState) (cfg : CoreState.WorkflowConfig)
    (pf : List Str) (pn cr : Nat) (u : Str)
    (h : CoreState.isTerminalState s = true) :
    step now .completed ctx ev = none
    ∧ step now .failed ctx ev = none
    ∧ (CoreState.transitionToPlanning s cfg pf).ok = false
    ∧ (CoreState.transitionToImplementing s).ok = false
    ∧ (CoreState.completeCurrentPlan s).ok = false
    ∧ (CoreState.transitionToVerifying s pn cr).ok = false
    ∧ (CoreState.incrementCIAttempt s cr now).ok = false
    ∧ (CoreState.transitionToCompleted s u now).ok = false
    ∧ (CoreState.transitionToFailed s e now).ok = true := by
  refine ⟨(step_terminal_none now ctx ev).1, (step_terminal_none now ctx ev).2, ?_⟩
  cases s <;>
    simp_all [CoreState.isTerminalState, CoreState.phaseOf,
      CoreState.transitionToPlanning, CoreState.transitionToImplementing,
      CoreState.completeCurrentPlan, CoreState.transitionToVerifying,
      CoreState.incrementCIAttempt, CoreState.transitionToCompleted,
      CoreState.transitionToFailed, CoreState.TransitionResult.ok]

/-! ## Stuck detector (`detectStuck` / `hashError`)

`hashError` is an MD5 digest; the detector consumes it only through
equality of digests, so the embedding abstracts it as a parameter
`hash : Str → Str` and every statement is proved for all hash
functions. -/

structure StuckDetectorState where
  lastErrorHash : Option Str
  stuckCount : Nat
deriving DecidableEq

structure StuckDetectionResult where
  isStuck : Bool
  nextState : StuckDetectorState
deriving DecidableEq

def createStuckDetectorState : StuckDetectorState := ⟨none, 0⟩

/-- `detectStuck(state, currentError, threshold = 3)`. -/
def detectStuck (hash : Str → Str) (state : StuckDetectorState)
    (currentError : Str) (threshold : Nat) : StuckDetectionResult :=
  let currentHash := hash currentError
  if some currentHash = state.lastErrorHash then
    let newCount := state.stuckCount + 1
    ⟨decide (threshold ≤ newCount), ⟨some currentHash, newCount⟩⟩
  else
    ⟨false, ⟨some currentHash, 1⟩⟩

/-- Iterated application of `detectStuck`, threading `nextState`. -/
def detectRun (hash : Str → Str) (th : Nat) (s : StuckDetectorState) :
    List Str → StuckDetectorState
  | [] => s
  | e :: es => detectRun hash th (detectStuck hash s e th).nextState es

/-- Length of the maximal suffix of `l` whose members hash to `h` — the
claim's "same error hash observed … consecutive times". -/
def trailingSameHash (hash : Str → Str) (h : Str) (l : List Str) : Nat :=
  (l.reverse.takeWhile fun x => hash x = h).length

theorem detectRun_append (hash : Str → Str) (th : Nat) (s : StuckDetectorState)
    (l1 l2 : List Str) :
    detectRun hash th s (l1 ++ l2) = detectRun hash th (detectRun hash th s l1) l2 := by
  induction l1 generalizing s with
  | nil => rfl
  | cons e es ih => simp [detectRun, ih]

theorem trailingSameHash_concat (hash : Str → Str) (h : Str) (l : List Str) (a : Str) :
    trailingSameHash hash h (l ++ [a]) =
      if hash a = h then (l.reverse.takeWhile fun x => hash x = h).length + 1 else 0 := by
  simp only [trailingSameHash, List.reverse_append, List.reverse_singleton,
    List.singleton_append, List.takeWhile]
  by_cases hc : hash a = h <;> simp [hc]

theorem trailingSameHash_singleton (hash : Str → Str) (a : Str) :
    trailingSameHash hash (hash a) [a] = 1 := by
  simp [trailingSameHash, List.takeWhile]

/-- The trailing run dies at a final element with a different hash. -/
theorem trailingSameHash_concat_ne (hash : Str → Str) (l : List Str) (b a : Str)
    (hc : hash a ≠ hash b) :
    trailingSameHash hash (hash a) (l ++ [b] ++ [a]) = 1 := by
  rw [show l ++ [b] ++ [a] = (l ++ [b]) ++ [a] by simp, trailingSameHash_concat,
    if_pos rfl]
  have hb : ¬(hash b = hash a) := fun h => hc h.symm
  simp [List.reverse_append, List.takeWhile_cons, hb]

/-- The trailing run grows by one at a final element with the same hash. -/
theorem trailingSameHash_concat_eq (hash : Str → Str) (l : List Str) (b a : Str)
    (hc : hash a = hash b) :
    trailingSameHash hash (hash b) (l ++ [b] ++ [a]) =
      trailingSameHash hash (hash b) (l ++ [b]) + 1 := by
  rw [show l ++ [b] ++ [a] = (l ++ [b]) ++ [a] by simp, trailingSameHash_concat,
    if_pos hc]
  rfl

/-- State of the detector after a nonempty observation sequence: the last
hash is stored and `stuckCount` is the trailing run length. -/
theorem detectRun_state (hash : Str → Str) (th : Nat) (l : List Str) :
    ∀ a, detectRun hash th createStuckDetectorState (l ++ [a]) =
      ⟨some (hash a), trailingSameHash hash (hash a) (l ++ [a])⟩ := by
  induction l using List.reverseRecOn with
  | nil =>
    intro a
    simp [detectRun, detectStuck, createStuckDetectorState,
      trailingSameHash_singleton]
  | append_singleton l' b ih =>
    intro a
    rw [show l' ++ [b] ++ [a] = (l' ++ [b]) ++ [a] by simp, detectRun_append, ih b]
    by_cases hc : hash a = hash b
    · have h2 := trailingSameHash_concat_eq hash l' b a hc
      rw [show (l' ++ [b]) ++ [a] = l' ++ [b] ++ [a] by simp, hc, h2]
      simp [detectRun, detectStuck, hc]
    · have hne : some (hash a) ≠ some (hash b) := by simpa using hc
      have h3 := trailingSameHash_concat_ne hash l' b a hc
      rw [show (l' ++ [b]) ++ [a] = l' ++ [b] ++ [a] by simp, h3]
      simp [detectRun, detectStuck, hne]

/-- C8 counterexample (threshold 1): the very first observation of an error
has then been seen `threshold = 1` consecutive times, yet `detectStuck`
reports `isStuck = false` — the reset branch always reports `false`. -/
theorem detect_stuck_threshold_one_counterexample :
    (detectStuck id createStuckDetectorState "a".data 1).isStuck = false
    ∧ 1 ≤ trailingSameHash id (id "a".data) ([] ++ ["a".data]) := by
  constructor
  · rfl
  · decide

/-- C8 (amended): for every hash function and every `threshold ≥ 2`, after
any observation sequence from the initial state the detector reports
`isStuck = true` exactly when the same hash has been observed at least
`threshold` consecutive times; and an error whose hash differs from the
stored one always resets the counter to 1 with `isStuck = false`. -/
theorem detect_stuck_iff (hash : Str → Str) (th : Nat) (l : List Str) (e : Str)
    (s : StuckDetectorState) (hth : 2 ≤ th) (hs : s.lastErrorHash ≠ some (hash e)) :
    ((detectStuck hash (detectRun hash th createStuckDetectorState l) e th).isStuck = true
      ↔ th ≤ trailingSameHash hash (hash e) (l ++ [e]))
    ∧ detectStuck hash s e th = ⟨false, ⟨some (hash e), 1⟩⟩ := by
  constructor
  · rcases List.eq_nil_or_concat l with rfl | ⟨l', b, rfl⟩
    · simp only [List.nil_append, detectRun, detectStuck, createStuckDetectorState]
      have h1 : trailingSameHash hash (hash e) [e] = 1 :=
        trailingSameHash_singleton hash e
      simp [h1]
      omega
    · rw [List.concat_eq_append, detectRun_state]
      by_cases hc : hash e = hash b
      · have h2 := trailingSameHash_concat_eq hash l' b e hc
        rw [hc, h2]
        simp [detectStuck, hc]
      · have hne : some (hash e) ≠ some (hash b) := by simpa using hc
        have h3 := trailingSameHash_concat_ne hash l' b e hc
        rw [h3]
        simp [detectStuck, hne]
        omega
  · have : some (hash e) ≠ s.lastErrorHash := fun h => hs h.symm
    simp [detectStuck, this]

theorem detect_stuck_iff_witness :
    (detectStuck id (detectRun id 3 createStuckDetectorState
        ["x".data, "x".data]) "x".data 3).isStuck = true :=
  (detect_stuck_iff id 3 ["x".data, "x".data] "x".data
      createStuckDetectorState (by decide) (by decide)).1.mpr (by decide)

theorem terminal_phases_amended_witness :
    (CoreState.transitionToPlanning sampleCompleted sampleConfig []).ok = false
    ∧ (CoreState.transitionToFailed sampleCompleted "e".data "t".data).ok = true :=
  ⟨(terminal_phases_amended "t".data "e".data (initialWorkflowContext "t".data)
      .CI_PASSED sampleCompleted sampleConfig [] 0 0 "u".data (by decide)).2.2.1,
   (terminal_phases_amended "t".data "e".data (initialWorkflowContext "t".data)
      .CI_PASSED sampleCompleted sampleConfig [] 0 0 "u".data (by decide)).2.2.2.2.2.2.2.2⟩


/-! ## String-matching toolkit

`isPre p s` is literal-prefix matching, `containsSub p s` is substring
search (JS `String.prototype.includes`), and `scanFirst attempt s` is the
leftmost-match loop of a JS regex engine: try `attempt` at every suffix
of `s`, left to right. -/

def isPre : Str → Str → Bool
  | [], _ => true
  | _ :: _, [] => false
  | c :: cs, d :: ds => c == d && isPre cs ds

def containsSub (pat : Str) : Str → Bool
  | [] => isPre pat []
  | c :: cs => isPre pat (c :: cs) || containsSub pat cs

def scanFirst {α : Type} (attempt : Str → Option α) : Str → Option α
  | [] => attempt []
  | c :: cs =>
    match attempt (c :: cs) with
    | some v => some v
    | none => scanFirst attempt cs

/-- The last `m` characters of `s`. -/
def lastN (m : Nat) (s : Str) : Str := s.drop (s.length - m)

theorem isPre_iff (p s : Str) : isPre p s = true ↔ ∃ t, s = p ++ t := by
  induction p generalizing s with
  | nil => simp [isPre]
  | cons c cs ih =>
    cases s with
    | nil => simp [isPre]
    | cons d ds =>
      simp only [isPre, Bool.and_eq_true, beq_iff_eq, ih, List.cons_append,
        List.cons.injEq]
      constructor
      · rintro ⟨rfl, t, rfl⟩; exact ⟨t, rfl, rfl⟩
      · rintro ⟨t, rfl, rfl⟩; exact ⟨rfl, t, rfl⟩

theorem isPre_self_append (p t : Str) : isPre p (p ++ t) = true :=
  (isPre_iff p (p ++ t)).mpr ⟨t, rfl⟩

theorem isPre_refl (p : Str) : isPre p p = true := by
  have := isPre_self_append p []
  simpa using this

theorem isPre_append_long (p x y : Str) (h : p.length ≤ x.length) :
    isPre p (x ++ y) = isPre p x := by
  induction p generalizing x with
  | nil => simp [isPre]
  | cons c cs ih =>
    cases x with
    | nil => simp at h
    | cons d ds =>
      show (c == d && isPre cs (ds ++ y)) = (c == d && isPre cs ds)
      rw [ih ds (by simpa using h)]

theorem containsSub_iff (pat s : Str) :
    containsSub pat s = true ↔ ∃ a b, s = a ++ (pat ++ b) := by
  induction s with
  | nil =>
    simp only [containsSub, isPre_iff]
    constructor
    · rintro ⟨t, ht⟩; exact ⟨[], t, ht⟩
    · rintro ⟨a, b, h⟩
      cases a with
      | nil => exact ⟨b, by simpa using h⟩
      | cons x xs => simp at h
  | cons c cs ih =>
    simp only [containsSub, Bool.or_eq_true, isPre_iff, ih]
    constructor
    · rintro (⟨t, ht⟩ | ⟨a, b, h⟩)
      · exact ⟨[], t, by simpa using ht⟩
      · exact ⟨c :: a, b, by simp [h]⟩
    · rintro ⟨a, b, h⟩
      cases a with
      | nil => exact .inl ⟨b, by simpa using h⟩
      | cons x xs =>
        simp only [List.cons_append, List.cons.injEq] at h
        exact .inr ⟨xs, b, h.2⟩

theorem containsSub_self_append (pat t : Str) :
    containsSub pat (pat ++ t) = true :=
  (containsSub_iff _ _).mpr ⟨[], t, rfl⟩

theorem containsSub_mono (p q s : Str) (hpq : isPre p q = true)
    (h : containsSub q s = true) : containsSub p s = true := by
  rcases (containsSub_iff q s).mp h with ⟨a, b, rfl⟩
  rcases (isPre_iff p q).mp hpq with ⟨t, rfl⟩
  exact (containsSub_iff _ _).mpr ⟨a, t ++ b, by simp⟩

theorem containsSub_false_of_not_mem (c : Char) (cs s : Str) (h : c ∉ s) :
    containsSub (c :: cs) s = false := by
  induction s with
  | nil => rfl
  | cons d ds ih =>
    simp only [containsSub, isPre, Bool.or_eq_false_iff, Bool.and_eq_false_iff]
    refine ⟨.inl ?_, ih (fun hm => h (List.mem_cons_of_mem d hm))⟩
    have : c ≠ d := fun hc => h (hc ▸ List.mem_cons_self c ds)
    simpa using this

/-- Membership in a deeper drop implies membership in a shallower one. -/
theorem mem_drop_mono (c : Char) (x y : Nat) (a : Str) (hxy : y ≤ x)
    (h : c ∈ a.drop x) : c ∈ a.drop y := by
  have : a.drop x = (a.drop y).drop (x - y) := by
    rw [List.drop_drop]
    congr 1
    omega
  rw [this] at h
  exact List.mem_of_mem_drop h

theorem mem_lastN_append (c : Char) (m : Nat) (a v : Str)
    (h : c ∈ lastN m (a ++ v)) : c ∈ lastN m a ∨ c ∈ v := by
  unfold lastN at *
  by_cases hm : m ≤ v.length
  · right
    rw [List.length_append, show a.length + v.length - m = a.length + (v.length - m) by omega,
      List.drop_append] at h
    exact List.mem_of_mem_drop h
  · have h1 : (a ++ v).drop (a.length + v.length - m) =
        a.drop (a.length + v.length - m) ++ v := by
      rw [List.length_append] at *
      exact List.drop_append_of_le_length (by omega)
    rw [List.length_append] at h
    rw [h1] at h
    rcases List.mem_append.mp h with h2 | h2
    · exact .inl (mem_drop_mono c _ _ a (by omega) h2)
    · exact .inr h2

/-- Characters of a short suffix land in `lastN`. -/
theorem mem_lastN_of_suffix (m : Nat) (a w : Str) (hm : w.length ≤ m)
    (c : Char) (hc : c ∈ w) : c ∈ lastN m (a ++ w) := by
  unfold lastN
  rw [List.length_append]
  have h1 : (a ++ w).drop (a.length + w.length - m) =
      a.drop (a.length + w.length - m) ++ w :=
    List.drop_append_of_le_length (by omega)
  rw [h1]
  exact List.mem_append.mpr (.inr hc)

theorem lastN_append_of_le (m : Nat) (a v : Str) (h : m ≤ v.length) :
    lastN m (a ++ v) = lastN m v := by
  unfold lastN
  rw [List.length_append, show a.length + v.length - m = a.length + (v.length - m) by omega,
    List.drop_append]

/-- Master composition lemma: a pattern whose head character is absent
from the last `pr.length` characters of `x` cannot span the boundary of
`x ++ y`. -/
theorem containsSub_append_false (p0 : Char) (pr x y : Str)
    (hx : containsSub (p0 :: pr) x = false)
    (hy : containsSub (p0 :: pr) y = false)
    (hspan : p0 ∉ lastN pr.length x) :
    containsSub (p0 :: pr) (x ++ y) = false := by
  rw [Bool.eq_false_iff] at hx hy
  by_contra hcon
  rw [Bool.not_eq_false, containsSub_iff] at hcon
  obtain ⟨a, b, hab⟩ := hcon
  rcases (List.append_eq_append_iff).mp hab with ⟨w, hw1, hw2⟩ | ⟨w, hw1, hw2⟩
  · -- a = x ++ w, y = w ++ (pat ++ b): occurrence wholly inside y
    exact hy ((containsSub_iff _ _).mpr ⟨w, b, hw2⟩)
  · -- x = a ++ w, pat ++ b = w ++ y
    rcases (List.append_eq_append_iff).mp hw2.symm with ⟨u, hu1, hu2⟩ | ⟨u, hu1, hu2⟩
    · -- pat = w ++ u and y = u ++ b
      cases w with
      | nil =>
        -- y starts with the whole pattern
        refine hy ((containsSub_iff _ _).mpr ⟨[], b, ?_⟩)
        simp only [List.nil_append] at hu1
        simp [hu2, ← hu1]
      | cons w0 w' =>
        cases u with
        | nil =>
          -- x ends with the whole pattern
          refine hx ((containsSub_iff _ _).mpr ⟨a, [], ?_⟩)
          simp only [List.append_nil] at hu1
          simp [hw1, ← hu1]
        | cons u0 u' =>
          -- genuine span: p0 sits in the last pr.length characters of x
          have hw0 : w0 = p0 := by
            have h' := congrArg (fun l => l.head?) hu1
            simp only [List.cons_append, List.head?_cons, Option.some.injEq] at h'
            exact h'.symm
          have hlen : (w0 :: w').length ≤ pr.length := by
            have h' := congrArg List.length hu1
            simp only [List.length_cons, List.length_append] at h' ⊢
            omega
          exact hspan (hw1 ▸ mem_lastN_of_suffix pr.length a (w0 :: w') hlen p0
            (hw0 ▸ List.mem_cons_self w0 w'))
    · -- w = pat ++ u: occurrence wholly inside x
      exact hx ((containsSub_iff _ _).mpr ⟨a, u, by simp [hw1, hu1]⟩)

theorem takeWhile_append_of_all (p : Char → Bool) (a b : Str)
    (h : ∀ x ∈ a, p x = true) :
    (a ++ b).takeWhile p = a ++ b.takeWhile p := by
  induction a with
  | nil => simp
  | cons c cs ih =>
    have hc : p c = true := h c (List.mem_cons_self c cs)
    simp only [List.cons_append, List.takeWhile_cons, hc, if_true]
    rw [ih (fun x hx => h x (List.mem_cons_of_mem c hx))]

theorem takeWhile_eq_nil_of_head (p : Char → Bool) (c : Char) (cs : Str)
    (h : p c = false) : (c :: cs).takeWhile p = [] := by
  simp [List.takeWhile_cons, h]

/-- A pattern that cannot overlap a copy of itself at any nonzero shift.
All the tag literals below have this property. -/
def selfOverlapFree (p : Str) : Bool :=
  (List.range p.length).all fun k => decide (k = 0) || !(isPre (p.drop k) p)

theorem selfOverlapFree_spec (p : Str) (h : selfOverlapFree p = true) :
    ∀ k, 0 < k → k < p.length → isPre (p.drop k) p = false := by
  intro k hk1 hk2
  have hmem : k ∈ List.range p.length := List.mem_range.mpr hk2
  have := List.all_eq_true.mp h k hmem
  simp only [Bool.or_eq_true, decide_eq_true_eq, Bool.not_eq_true'] at this
  rcases this with h0 | h1
  · omega
  · exact h1

/-- One regex-alternative attempt: match the literal `openT`, then run
`body` on the remainder. -/
def tagAttempt (openT : Str) (body : Str → Option Str) (s : Str) : Option Str :=
  if isPre openT s = true then body (s.drop openT.length) else none

theorem scanFirst_tagAttempt_none (openT : Str) (body : Str → Option Str) (s : Str)
    (h : containsSub openT s = false) :
    scanFirst (tagAttempt openT body) s = none := by
  induction s with
  | nil =>
    simp only [containsSub] at h
    simp [scanFirst, tagAttempt, h]
  | cons c cs ih =>
    simp only [containsSub, Bool.or_eq_false_iff] at h
    simp [scanFirst, tagAttempt, h.1, ih h.2]

/-- Leftmost-match: if the open literal does not occur in `pre` and cannot
overlap itself, the scan finds exactly the occurrence after `pre`, and
returns what `body` produces there. -/
theorem scanFirst_cons {α : Type} (attempt : Str → Option α) (c : Char) (cs : Str) :
    scanFirst attempt (c :: cs) =
      match attempt (c :: cs) with
      | some v => some v
      | none => scanFirst attempt cs := rfl

theorem scanFirst_tagAttempt_at (openT : Str) (body : Str → Option Str)
    (pre rest : Str) (v : Str)
    (hne : openT ≠ [])
    (hpre : containsSub openT pre = false)
    (hsof : selfOverlapFree openT = true)
    (hbody : body rest = some v) :
    scanFirst (tagAttempt openT body) (pre ++ openT ++ rest) = some v := by
  induction pre with
  | nil =>
    have h1 : [] ++ openT ++ rest = openT ++ rest := by simp
    rw [h1]
    have hatt : tagAttempt openT body (openT ++ rest) = some v := by
      unfold tagAttempt
      rw [isPre_self_append, if_pos rfl, List.drop_left, hbody]
    cases hT : openT with
    | nil => exact absurd hT hne
    | cons o os =>
      rw [hT] at hatt
      have hatt' : tagAttempt (o :: os) body (o :: (os ++ rest)) = some v := by
        rw [← List.cons_append]; exact hatt
      rw [List.cons_append, scanFirst_cons, hatt']
  | cons c pre' ih =>
    simp only [containsSub, Bool.or_eq_false_iff] at hpre
    have hattempt : tagAttempt openT body ((c :: pre') ++ openT ++ rest) = none := by
      unfold tagAttempt
      rw [if_neg]
      intro hcon
      rcases (isPre_iff _ _).mp hcon with ⟨t, ht⟩
      rw [show (c :: pre') ++ openT ++ rest = (c :: pre') ++ (openT ++ rest) by simp] at ht
      rcases (List.append_eq_append_iff).mp ht with ⟨w, hw1, hw2⟩ | ⟨w, hw1, hw2⟩
      · -- openT = (c :: pre') ++ w
        cases hw : w with
        | nil =>
          rw [hw, List.append_nil] at hw1
          have : isPre openT (c :: pre') = true := by
            rw [hw1]; exact isPre_refl _
          rw [this] at hpre
          exact absurd hpre.1 (by simp)
        | cons w0 w' =>
          have hk1 : 0 < (c :: pre').length := by simp
          have hk2 : (c :: pre').length < openT.length := by
            have := congrArg List.length hw1
            simp only [List.length_append, List.length_cons, hw] at this ⊢
            simp [this]
          have hdrop : openT.drop (c :: pre').length = w := by
            rw [hw1]; exact List.drop_left _ _
          have hpw : isPre w (openT ++ rest) = true := by
            rw [hw] at hw2 ⊢
            exact (isPre_iff _ _).mpr ⟨t, hw2⟩
          have hlw : w.length ≤ openT.length := by
            have := congrArg List.length hw1
            simp only [List.length_append] at this
            omega
          rw [isPre_append_long w openT rest hlw] at hpw
          have := selfOverlapFree_spec openT hsof (c :: pre').length hk1 hk2
          rw [hdrop] at this
          rw [this] at hpw
          exact absurd hpw (by simp)
      · -- c :: pre' = openT ++ w
        have : isPre openT (c :: pre') = true := (isPre_iff _ _).mpr ⟨w, hw1⟩
        rw [this] at hpre
        exact absurd hpre.1 (by simp)
    have hshape : (c :: pre') ++ openT ++ rest = c :: (pre' ++ openT ++ rest) := by simp
    rw [hshape] at hattempt ⊢
    rw [scanFirst_cons, hattempt]
    exact ih hpre.2

/-! ## Decimal representation: correctness -/

theorem decReprAux_spec (fuel : Nat) : ∀ n, n < fuel →
    decReprAux fuel n ≠ []
    ∧ (∀ c ∈ decReprAux fuel n, ('0' ≤ c ∧ c ≤ '9'))
    ∧ (decReprAux fuel n).foldl (fun acc c => 10 * acc + (c.toNat - 48)) 0 = n := by
  induction fuel with
  | zero => intro n h; omega
  | succ fuel ih =>
    intro n h
    by_cases h10 : n < 10
    · refine ⟨by simp [decReprAux, h10], ?_, ?_⟩
      · intro c hc
        simp only [decReprAux, if_pos h10, List.mem_singleton] at hc
        subst hc
        interval_cases n <;> exact ⟨by decide, by decide⟩
      · simp only [decReprAux, if_pos h10, List.foldl]
        interval_cases n <;> decide
    · have hdiv : n / 10 < fuel := by omega
      obtain ⟨hne, hdig, hval⟩ := ih (n / 10) hdiv
      refine ⟨by simp [decReprAux, h10], ?_, ?_⟩
      · intro c hc
        simp only [decReprAux, if_neg h10, List.mem_append, List.mem_singleton] at hc
        rcases hc with hc | hc
        · exact hdig c hc
        · subst hc
          have hm : n % 10 < 10 := Nat.mod_lt n (by omega)
          set m := n % 10 with hmdef
          interval_cases m <;> exact ⟨by decide, by decide⟩
      · simp only [decReprAux, if_neg h10, List.foldl_append, hval, List.foldl]
        have hm : n % 10 < 10 := Nat.mod_lt n (by omega)
        have htn : (digitChar (n % 10)).toNat = 48 + n % 10 := by
          set m := n % 10 with hmdef
          interval_cases m <;> decide
        rw [htn]
        omega

/-- JS `parseInt` on a clean digit string (the only shape the sources
feed it after a `\d+` or checked capture). -/
def digitsToNat (ds : Str) : Nat :=
  ds.foldl (fun acc c => 10 * acc + (c.toNat - 48)) 0

theorem decRepr_ne_nil (n : Nat) : decRepr n ≠ [] :=
  (decReprAux_spec (n + 1) n (by omega)).1

theorem decRepr_digits (n : Nat) : ∀ c ∈ decRepr n, ('0' ≤ c ∧ c ≤ '9') :=
  (decReprAux_spec (n + 1) n (by omega)).2.1

theorem digitsToNat_decRepr (n : Nat) : digitsToNat (decRepr n) = n :=
  (decReprAux_spec (n + 1) n (by omega)).2.2

/-! ## Signal parser (`signal-parser.ts`)

`parseSignals` checks, in priority order: the first `<phase>NAME</phase>`
tag (JS `String.match` returns the leftmost regex match only), then
`<plan>PLAN_N_COMPLETE</plan>`, then `<promise>FAILED</promise>` (with an
optional `<error>…</error>`), then `<promise>COMPLETE</promise>`. -/

def PHASE_SIGNALS : List Str :=
  ["SETUP_COMPLETE", "PLANNING_COMPLETE", "IMPLEMENTATION_COMPLETE",
   "PR_CREATED", "CI_PASSED", "CI_FAILED", "CI_FIX_PUSHED",
   "COMMENTS_RESOLVED", "COMMENTS_PENDING", "COMMENT_FIX_PUSHED",
   "WORKFLOW_COMPLETE"].map String.data

/-- `PHASE_SIGNALS.includes(signalName)` fused with `{ type: signalName }`:
`some event` exactly for allow-listed names, `none` otherwise. -/
def phaseEvent (name : Str) : Option WorkflowEvent :=
  if name = "SETUP_COMPLETE".data then some (.SETUP_COMPLETE none none)
  else if name = "PLANNING_COMPLETE".data then some (.PLANNING_COMPLETE none)
  else if name = "IMPLEMENTATION_COMPLETE".data then some .IMPLEMENTATION_COMPLETE
  else if name = "PR_CREATED".data then some (.PR_CREATED none none)
  else if name = "CI_PASSED".data then some .CI_PASSED
  else if name = "CI_FAILED".data then some (.CI_FAILED none)
  else if name = "CI_FIX_PUSHED".data then some .CI_FIX_PUSHED
  else if name = "COMMENTS_RESOLVED".data then some .COMMENTS_RESOLVED
  else if name = "COMMENTS_PENDING".data then some (.COMMENTS_PENDING none)
  else if name = "COMMENT_FIX_PUSHED".data then some .COMMENT_FIX_PUSHED
  else if name = "WORKFLOW_COMPLETE".data then some .WORKFLOW_COMPLETE
  else none

/-- JS `\w` (ASCII word character). -/
def isWordChar (c : Char) : Bool :=
  ('a' ≤ c && c ≤ 'z') || ('A' ≤ c && c ≤ 'Z') || ('0' ≤ c && c ≤ '9') || c == '_'

/-- JS `\d`. -/
def isDigitChar (c : Char) : Bool := '0' ≤ c && c ≤ '9'

/-- Body of `/<phase>(\w+)<\/phase>/` after the open literal: the greedy
`\w+` capture must be nonempty and be followed by the close literal
(shortening the greedy run can never help, because a word character can
never match `<`). -/
def phaseBody (after : Str) : Option Str :=
  let cap := after.takeWhile isWordChar
  if cap = [] then none
  else if isPre "</phase>".data (after.drop cap.length) then some cap
  else none

def findPhaseTag (s : Str) : Option Str :=
  scanFirst (tagAttempt "<phase>".data phaseBody) s

/-- Body of `/<plan>PLAN_(\d+)_COMPLETE<\/plan>/` after `<plan>PLAN_`. -/
def planBody (after : Str) : Option Str :=
  let cap := after.takeWhile isDigitChar
  if cap = [] then none
  else if isPre "_COMPLETE</plan>".data (after.drop cap.length) then some cap
  else none

def findPlanTag (s : Str) : Option Str :=
  scanFirst (tagAttempt "<plan>PLAN_".data planBody) s

/-- Body of `/<error>([^<]+)<\/error>/` after the open literal. -/
def errorBody (after : Str) : Option Str :=
  let cap := after.takeWhile fun c => !(c == '<')
  if cap = [] then none
  else if isPre "</error>".data (after.drop cap.length) then some cap
  else none

def findErrorTag (s : Str) : Option Str :=
  scanFirst (tagAttempt "<error>".data errorBody) s

/-- The plan- and promise-tag half of `parseSignals`: everything the
function tries once no allow-listed phase tag was found. -/
def planPromisePart (output : Str) : Option WorkflowEvent :=
  match findPlanTag output with
  | some ds => some (.PLAN_COMPLETE (some (digitsToNat ds)))
  | none =>
    if containsSub "<promise>FAILED</promise>".data output then
      some (.FAIL (some ((findErrorTag output).getD "Unknown error".data)))
    else if containsSub "<promise>COMPLETE</promise>".data output then
      some .WORKFLOW_COMPLETE
    else none

/-- `parseSignals(output)`: total by construction (the source contract
"must never throw"). -/
def parseSignals (output : Str) : Option WorkflowEvent :=
  match findPhaseTag output with
  | some name =>
    match phaseEvent name with
    | some e => some e
    | none => planPromisePart output
  | none => planPromisePart output

theorem lt_not_mem_decRepr (n : Nat) : '<' ∉ decRepr n := by
  intro hm
  have h9 := (decRepr_digits n '<' hm).2
  exact absurd h9 (by decide)

/-- No `<`-headed pattern occurs inside a decimal numeral. -/
theorem contains_lt_decRepr_false (pr : Str) (n : Nat) :
    containsSub ('<' :: pr) (decRepr n) = false :=
  containsSub_false_of_not_mem '<' pr (decRepr n) (lt_not_mem_decRepr n)

theorem containsSub_false_mono (p q s : Str) (hpq : isPre p q = true)
    (h : containsSub p s = false) : containsSub q s = false := by
  cases hq : containsSub q s with
  | false => rfl
  | true => exact absurd (containsSub_mono p q s hpq hq) (by simp [h])

/-- `<phase>` does not occur in `A ++ decRepr n ++ B` when it occurs in
neither constant part and `<` is absent from the relevant tail of `A`. -/
theorem no_phase_around_decRepr (A B : Str) (n : Nat)
    (hA : containsSub ('<' :: "phase>".data) A = false)
    (hB : containsSub ('<' :: "phase>".data) B = false)
    (hsA : '<' ∉ lastN "phase>".data.length A) :
    containsSub ('<' :: "phase>".data) (A ++ decRepr n ++ B) = false := by
  have hD : containsSub ('<' :: "phase>".data) (decRepr n) = false :=
    contains_lt_decRepr_false _ n
  have hAD : containsSub ('<' :: "phase>".data) (A ++ decRepr n) = false :=
    containsSub_append_false '<' "phase>".data A (decRepr n) hA hD hsA
  have hsAD : '<' ∉ lastN "phase>".data.length (A ++ decRepr n) := by
    intro hm
    rcases mem_lastN_append '<' _ A (decRepr n) hm with h | h
    · exact hsA h
    · exact lt_not_mem_decRepr n h
  exact containsSub_append_false '<' "phase>".data (A ++ decRepr n) B hAD hB hsAD

/-- C9: the parser round-trips every literal signal tag of the protocol,
and yields `none` on text that carries none of the tag markers.
(`parseSignals` is total by construction, so "never throws" holds by
definition.) -/
theorem parse_signals_roundtrip :
    (∀ name, name ∈ PHASE_SIGNALS →
      parseSignals ("<phase>".data ++ name ++ "</phase>".data) = phaseEvent name)
    ∧ (∀ n : Nat, 0 < n →
        parseSignals ("<plan>PLAN_".data ++ decRepr n ++ "_COMPLETE</plan>".data) =
          some (.PLAN_COMPLETE (some n)))
    ∧ parseSignals "<promise>FAILED</promise>".data =
        some (.FAIL (some "Unknown error".data))
    ∧ (∀ msg, msg ≠ [] → (∀ c ∈ msg, c ≠ '<') →
        parseSignals ("<promise>FAILED</promise><error>".data ++ msg ++ "</error>".data) =
          some (.FAIL (some msg)))
    ∧ parseSignals "<promise>COMPLETE</promise>".data = some .WORKFLOW_COMPLETE
    ∧ (∀ t, containsSub "<phase>".data t = false →
        containsSub "<plan>".data t = false →
        containsSub "<promise>".data t = false →
        parseSignals t = none) := by
  refine ⟨?_, ?_, by decide, ?_, by decide, ?_⟩
  · -- phase tags
    intro name h
    fin_cases h <;> decide
  · -- plan tags
    intro n hn
    have hnophase : containsSub "<phase>".data
        ("<plan>PLAN_".data ++ decRepr n ++ "_COMPLETE</plan>".data) = false := by
      show containsSub ('<' :: "phase>".data) _ = false
      exact no_phase_around_decRepr "<plan>PLAN_".data "_COMPLETE</plan>".data n
        (by decide) (by decide) (by decide)
    have hphase : findPhaseTag
        ("<plan>PLAN_".data ++ decRepr n ++ "_COMPLETE</plan>".data) = none :=
      scanFirst_tagAttempt_none _ _ _ hnophase
    have hbody : planBody (decRepr n ++ "_COMPLETE</plan>".data) = some (decRepr n) := by
      unfold planBody
      have hcap : (decRepr n ++ "_COMPLETE</plan>".data).takeWhile isDigitChar =
          decRepr n := by
        rw [takeWhile_append_of_all isDigitChar (decRepr n) _
          (fun x hx => by
            have := decRepr_digits n x hx
            simp [isDigitChar]
            exact ⟨this.1, this.2⟩)]
        rw [takeWhile_eq_nil_of_head isDigitChar '_' _ (by decide), List.append_nil]
      rw [hcap, if_neg (decRepr_ne_nil n), List.drop_left, isPre_refl]
      simp
    have hplan : findPlanTag
        ("<plan>PLAN_".data ++ decRepr n ++ "_COMPLETE</plan>".data) =
          some (decRepr n) := by
      unfold findPlanTag
      rw [show "<plan>PLAN_".data ++ decRepr n ++ "_COMPLETE</plan>".data =
        [] ++ "<plan>PLAN_".data ++ (decRepr n ++ "_COMPLETE</plan>".data) by simp]
      exact scanFirst_tagAttempt_at _ planBody [] _ (decRepr n)
        (by decide) (by decide) (by decide) hbody
    unfold parseSignals
    rw [hphase]
    unfold planPromisePart
    rw [hplan]
    simp [digitsToNat_decRepr]
  · -- promise FAILED with explicit error text
    intro msg hne hmsg
    set F := "<promise>FAILED</promise><error>".data ++ msg ++ "</error>".data with hF
    have hltmsg : '<' ∉ msg := fun hm => hmsg '<' hm rfl
    have hnophase : containsSub "<phase>".data F = false := by
      show containsSub ('<' :: "phase>".data) F = false
      have h1 : containsSub ('<' :: "phase>".data)
          ("<promise>FAILED</promise><error>".data ++ msg) = false :=
        containsSub_append_false '<' "phase>".data _ msg (by decide)
          (containsSub_false_of_not_mem '<' _ msg hltmsg) (by decide)
      have hs1 : '<' ∉ lastN "phase>".data.length
          ("<promise>FAILED</promise><error>".data ++ msg) := by
        intro hm
        rcases mem_lastN_append '<' _ _ msg hm with h | h
        · exact absurd h (by decide)
        · exact hltmsg h
      rw [hF, show "<promise>FAILED</promise><error>".data ++ msg ++ "</error>".data =
        ("<promise>FAILED</promise><error>".data ++ msg) ++ "</error>".data by simp]
      exact containsSub_append_false '<' "phase>".data _ _ h1 (by decide) hs1
    have hnoplan : containsSub "<plan>".data F = false := by
      show containsSub ('<' :: "plan>".data) F = false
      have h1 : containsSub ('<' :: "plan>".data)
          ("<promise>FAILED</promise><error>".data ++ msg) = false :=
        containsSub_append_false '<' "plan>".data _ msg (by decide)
          (containsSub_false_of_not_mem '<' _ msg hltmsg) (by decide)
      have hs1 : '<' ∉ lastN "plan>".data.length
          ("<promise>FAILED</promise><error>".data ++ msg) := by
        intro hm
        rcases mem_lastN_append '<' _ _ msg hm with h | h
        · exact absurd h (by decide)
        · exact hltmsg h
      rw [hF, show "<promise>FAILED</promise><error>".data ++ msg ++ "</error>".data =
        ("<promise>FAILED</promise><error>".data ++ msg) ++ "</error>".data by simp]
      exact containsSub_append_false '<' "plan>".data _ _ h1 (by decide) hs1
    have hphase : findPhaseTag F = none := scanFirst_tagAttempt_none _ _ _ hnophase
    have hplan : findPlanTag F = none :=
      scanFirst_tagAttempt_none _ _ _
        (containsSub_false_mono "<plan>".data "<plan>PLAN_".data F (by decide) hnoplan)
    have hfail : containsSub "<promise>FAILED</promise>".data F = true := by
      rw [hF, show "<promise>FAILED</promise><error>".data ++ msg ++ "</error>".data =
        "<promise>FAILED</promise>".data ++
          ("<error>".data ++ (msg ++ "</error>".data)) by simp]
      exact containsSub_self_append _ _
    have hbody : errorBody (msg ++ "</error>".data) = some msg := by
      unfold errorBody
      have hcap : (msg ++ "</error>".data).takeWhile (fun c => !(c == '<')) = msg := by
        rw [takeWhile_append_of_all _ msg _
          (fun x hx => by simp [hmsg x hx])]
        rw [takeWhile_eq_nil_of_head _ '<' _ (by decide), List.append_nil]
      rw [hcap, if_neg hne, List.drop_left, isPre_refl]
      simp
    have herror : findErrorTag F = some msg := by
      unfold findErrorTag
      rw [hF, show "<promise>FAILED</promise><error>".data ++ msg ++ "</error>".data =
        "<promise>FAILED</promise>".data ++ "<error>".data ++
          (msg ++ "</error>".data) by simp]
      exact scanFirst_tagAttempt_at _ errorBody "<promise>FAILED</promise>".data _
        msg (by decide) (by decide) (by decide) hbody
    unfold parseSignals
    rw [hphase]
    unfold planPromisePart
    rw [hplan, hfail, herror]
    simp
  · -- text with no recognized tag markers
    intro t h1 h2 h3
    have hphase : findPhaseTag t = none := scanFirst_tagAttempt_none _ _ _ h1
    have hplan : findPlanTag t = none :=
      scanFirst_tagAttempt_none _ _ _
        (containsSub_false_mono "<plan>".data "<plan>PLAN_".data t (by decide) h2)
    have hfail : containsSub "<promise>FAILED</promise>".data t = false :=
      containsSub_false_mono "<promise>".data _ t (by decide) h3
    have hcomp : containsSub "<promise>COMPLETE</promise>".data t = false :=
      containsSub_false_mono "<promise>".data _ t (by decide) h3
    unfold parseSignals
    rw [hphase]
    unfold planPromisePart
    rw [hplan, hfail, hcomp]
    simp

theorem parse_signals_roundtrip_witness :
    parseSignals ("<plan>PLAN_".data ++ decRepr 3 ++ "_COMPLETE</plan>".data) =
      some (.PLAN_COMPLETE (some 3)) :=
  parse_signals_roundtrip.2.1 3 (by decide)

/-- C10: `parseSignals` consults only the first `<phase>` tag (the leftmost
`String.match` result, computed by `findPhaseTag`): when that tag's name is
not allow-listed the function falls through to the plan/promise half, which
can only produce plan or promise events — a later, valid `<phase>` tag is
never consulted, as the concrete two-tag input shows. -/
theorem parse_signals_first_phase_tag_only :
    (∀ t name, findPhaseTag t = some name → phaseEvent name = none →
      parseSignals t = planPromisePart t)
    ∧ (∀ t e, planPromisePart t = some e →
        (∃ n, e = .PLAN_COMPLETE (some n)) ∨ (∃ m, e = .FAIL (some m)) ∨
          e = .WORKFLOW_COMPLETE)
    ∧ parseSignals "<phase>BOGUS</phase><phase>CI_PASSED</phase>".data = none := by
  refine ⟨?_, ?_, by decide⟩
  · intro t name h1 h2
    unfold parseSignals
    rw [h1]
    simp [h2]
  · intro t e h
    unfold planPromisePart at h
    split at h
    · injection h with h'
      exact .inl ⟨_, h'.symm⟩
    · split at h
      · injection h with h'
        exact .inr (.inl ⟨_, h'.symm⟩)
      · split at h
        · injection h with h'
          exact .inr (.inr h'.symm)
        · exact absurd h (by simp)

theorem parse_signals_first_phase_tag_only_witness :
    parseSignals "<phase>BOGUS</phase><plan>PLAN_2_COMPLETE</plan>".data =
      planPromisePart "<phase>BOGUS</phase><plan>PLAN_2_COMPLETE</plan>".data :=
  parse_signals_first_phase_tag_only.1 _ "BOGUS".data (by decide) (by decide)

/-! ## Phase mapper (`phase-mapper.ts`) -/

structure PhaseCommand where
  command : Str
  args : List Str
deriving DecidableEq

/-- JS array indexing with a possibly negative index. -/
def jsIndex {α : Type} (l : List α) (i : Int) : Option α :=
  if i < 0 then none else l.get? i.toNat

/-- `context.prNumber ? [String(context.prNumber)] : []` — note that both
`null` and `0` are falsy in JS. -/
def prNumberArgs (context : WorkflowContext) : List Str :=
  match context.prNumber with
  | some n => if n = 0 then [] else [decRepr n]
  | none => []

def mapPhaseToCommand (phase : WorkflowPhase) (context : WorkflowContext) :
    Option PhaseCommand :=
  match phase with
  | .setup => some ⟨"/workflows:phase-setup".data, [context.researchFile]⟩
  | .planning => some ⟨"/workflows:phase-plan".data, [context.researchFile]⟩
  | .implementing =>
    match jsIndex context.plans context.currentPlanIndex with
    | none => none
    | some currentPlan => some ⟨"/workflows:phase-impl".data, [currentPlan.path]⟩
  | .submitting => some ⟨"/workflows:phase-submit".data, []⟩
  | .ci_resolution => some ⟨"/workflows:phase-verify-ci".data, prNumberArgs context⟩
  | .ci_fixing => some ⟨"/workflows:phase-fix-ci".data, prNumberArgs context⟩
  | .comment_resolution =>
    some ⟨"/workflows:phase-resolve-comments".data, prNumberArgs context⟩
  | .comment_resolving =>
    some ⟨"/workflows:phase-resolve-comments".data, prNumberArgs context⟩
  | .idle => none
  | .completed => none
  | .failed => none

def formatCommand (pc : PhaseCommand) : Str :=
  if pc.args = [] then pc.command
  else pc.command ++ " ".data ++ (List.intercalate " ".data pc.args)

/-! ## `extractSignalData` (`signal-parser.ts`)

The auxiliary `key: value` patterns are unanchored regexes
`/key:\s*(.+)/` and `/key:\s*(\d+)/`.  JS `\s` matches newlines, so the
whitespace run after the key may cross line breaks; `.` does not match a
newline, so the capture is a nonempty run of non-newline characters.
Only the ASCII whitespace characters are modelled (the worker protocol
and every string the system itself writes are ASCII). -/

def jsWs (c : Char) : Bool :=
  c == ' ' || c == '\t' || c == '\n' || c == '\r' || c == '\x0b' || c == '\x0c'

/-- JS `String.prototype.trim`. -/
def trimStr (s : Str) : Str :=
  ((s.dropWhile jsWs).reverse.dropWhile jsWs).reverse

/-- `\s*(.+)` after a matched key: skip the greedy whitespace run; if a
character remains the capture runs to the end of its line; otherwise the
greedy run backtracks one character at a time, which can only ever yield
the run's last non-newline character. -/
def restOfLineCapture (after : Str) : Option Str :=
  let ws := after.takeWhile jsWs
  let rest := after.drop ws.length
  if rest ≠ [] then some (rest.takeWhile fun c => !(c == '\n'))
  else
    match ws.reverse.dropWhile (fun c => c == '\n') with
    | [] => none
    | c :: _ => some [c]

/-- `\s*(\d+)` after a matched key (backtracking into the whitespace run
can never produce a digit). -/
def digitsCapture (after : Str) : Option Str :=
  let ws := after.takeWhile jsWs
  let cap := (after.drop ws.length).takeWhile isDigitChar
  if cap = [] then none else some cap

def findTextAfterKey (key : Str) (s : Str) : Option Str :=
  scanFirst (tagAttempt key restOfLineCapture) s

def findDigitsAfterKey (key : Str) (s : Str) : Option Str :=
  scanFirst (tagAttempt key digitsCapture) s

/-- The record `extractSignalData` can return, one field per key it ever
extracts; absent keys stay `none` (the source omits them from the map). -/
structure SignalData where
  worktreePath : Option Str := none
  branch : Option Str := none
  plansCount : Option Nat := none
  prUrl : Option Str := none
  prNumber : Option Nat := none
  failureReason : Option Str := none
deriving DecidableEq

def extractSignalData (output : Str) (signal : Str) : SignalData :=
  if signal = "SETUP_COMPLETE".data then
    { worktreePath := (findTextAfterKey "worktree_path:".data output).map trimStr
      branch := (findTextAfterKey "branch:".data output).map trimStr }
  else if signal = "PLANNING_COMPLETE".data then
    { plansCount := (findDigitsAfterKey "plans_count:".data output).map digitsToNat }
  else if signal = "PR_CREATED".data then
    { prUrl := (findTextAfterKey "pr_url:".data output).map trimStr
      prNumber := (findDigitsAfterKey "pr_number:".data output).map digitsToNat }
  else if signal = "CI_FAILED".data then
    { failureReason := (findTextAfterKey "ci_failure_reason:".data output).map trimStr }
  else {}

/-- JS object spread `{ ...event.data, ...data }`: a key present in the
extracted data overrides the event's, an absent key leaves it. -/
def jsOverride {α : Type} (extracted old : Option α) : Option α :=
  match extracted with
  | some v => some v
  | none => old

/-- `event.data = { ...event.data, ...data }` in the runner, per event. -/
def mergeEventData (e : WorkflowEvent) (d : SignalData) : WorkflowEvent :=
  match e with
  | .SETUP_COMPLETE w b =>
    .SETUP_COMPLETE (jsOverride d.worktreePath w) (jsOverride d.branch b)
  | .PLANNING_COMPLETE c => .PLANNING_COMPLETE (jsOverride d.plansCount c)
  | .PR_CREATED n u => .PR_CREATED (jsOverride d.prNumber n) (jsOverride d.prUrl u)
  | .CI_FAILED r => .CI_FAILED (jsOverride d.failureReason r)
  | other => other

/-! ## The orchestration loop (`workflow-runner.ts`)

The worker (Claude CLI subprocess) is opaque I/O; the model feeds the
loop a `script` of its outcomes, one entry per invocation: `ok content`
for a run that returned text, `err message` for one that threw (spawn
failure, crash or timeout — the `catch` branch).  The loop records, per
iteration, whether the phase had no mapped command (skipped, no worker
call), whether the worker threw, and whether the progress file was
written, plus the list of writes in order. -/

inductive WorkerResult
  | ok (content : Str)
  | err (message : Str)
deriving DecidableEq

structure IterationLog where
  phase : WorkflowPhase
  skippedNoCommand : Bool
  workerThrew : Bool
  wrote : Bool
deriving DecidableEq

structure LoopResult where
  finalPhase : WorkflowPhase
  finalContext : WorkflowContext
  iteration : Nat
  writes : List (WorkflowContext × WorkflowPhase × Nat)
  logs : List IterationLog
deriving DecidableEq

def runLoop (now : Str) (fuel : Nat) (script : List WorkerResult)
    (phase : WorkflowPhase) (ctx : WorkflowContext) (iteration : Nat) : LoopResult :=
  match fuel with
  | 0 => ⟨phase, ctx, iteration, [], []⟩
  | fuel + 1 =>
    if isTerminal phase then ⟨phase, ctx, iteration, [], []⟩
    else
      match mapPhaseToCommand phase ctx with
      | none =>
        -- `No command for phase, skipping`: no worker call, no write
        let r := runLoop now fuel script phase ctx (iteration + 1)
        ⟨r.finalPhase, r.finalContext, r.iteration, r.writes,
          ⟨phase, true, false, false⟩ :: r.logs⟩
      | some _cmd =>
        match script.headD (.err "Unknown error".data) with
        | .ok content =>
          let next :=
            match parseSignals content with
            | some ev =>
              let ev' := if ev.typeName = "FAIL".data then ev
                else mergeEventData ev (extractSignalData content ev.typeName)
              match step now phase ctx ev' with
              | some pc => pc
              | none => (phase, ctx)
            | none => (phase, ctx)
          let r := runLoop now fuel script.tail next.1 next.2 (iteration + 1)
          ⟨r.finalPhase, r.finalContext, r.iteration,
            (next.2, next.1, iteration + 1) :: r.writes,
            ⟨phase, false, false, true⟩ :: r.logs⟩
        | .err message =>
          -- catch branch: synthesize FAIL, but skip the progress write
          let next :=
            match step now phase ctx (.FAIL (some message)) with
            | some pc => pc
            | none => (phase, ctx)
          let r := runLoop now fuel script.tail next.1 next.2 (iteration + 1)
          ⟨r.finalPhase, r.finalContext, r.iteration, r.writes,
            ⟨phase, false, true, false⟩ :: r.logs⟩

structure RunResult where
  success : Bool
  context : WorkflowContext
  finalPhase : WorkflowPhase
  finalIteration : Nat
  writes : List (WorkflowContext × WorkflowPhase × Nat)
  logs : List IterationLog
deriving DecidableEq

/-- `WorkflowRunner.run(researchFile)`: start the actor, send START, loop,
then write the final progress once more. -/
def runModel (now : Str) (maxIterations : Nat) (script : List WorkerResult)
    (researchFile : Str) : RunResult :=
  let ctx0 := initialWorkflowContext now
  let start :=
    match step now .idle ctx0 (.START (some researchFile)) with
    | some pc => pc
    | none => (.idle, ctx0)
  let r := runLoop now maxIterations script start.1 start.2 0
  { success := isSuccess r.finalPhase
    context := r.finalContext
    finalPhase := r.finalPhase
    finalIteration := r.iteration
    writes := r.writes ++ [(r.finalContext, r.finalPhase, r.iteration)]
    logs := r.logs }

/-! ## Resume (`WorkflowRunner.resume`) and the progress-file data shape -/

structure PlansSection where
  total : Option Nat
  completed : Option Nat
  list : List PlanInfo
deriving DecidableEq

structure PRSection where
  number : Option Nat
  url : Option Str
  ciStatus : Option Str
  ciAttempts : Option Nat
deriving DecidableEq

/-- `ProgressFileData` as produced by `ProgressWriter.parse`.  Numeric
fields are `Option Nat` with `none` standing for JS `NaN` (a failed
`parseInt`); `currentPhase` is the lowercased raw string (the TS cast to
`WorkflowPhase` is unchecked); the `timestamp` field (`new Date()` at
parse time) and the constant-zero `comments` block are omitted. -/
structure ProgressFileData where
  researchFile : Str
  worktreePath : Option Str
  branch : Option Str
  currentPhase : Str
  iteration : Option Nat
  startedAt : Str
  lastUpdate : Str
  plans : PlansSection
  pr : PRSection
  signals : List SignalRecord
deriving DecidableEq

/-- `plans.list.findIndex(p => !p.completed)`: `-1` when every plan is
completed. -/
def jsFindIndexNotCompleted (l : List PlanInfo) : Int :=
  match l.findIdx? (fun p => !p.completed) with
  | some i => (i : Int)
  | none => -1

/-- The context `resume()` reconstructs (lines 191–205).  `ciAttempts` is
a `Nat` in the embedding, so the (unreachable for files produced by
`write`) `NaN` case is collapsed with `getD 0`; the reconstructed value is
discarded by `resume` anyway — see `resume_restarts_instead_of_continuing`. -/
def reconstructContext (d : ProgressFileData) : WorkflowContext where
  researchFile := d.researchFile
  worktreePath := d.worktreePath
  branch := d.branch
  plans := d.plans.list
  currentPlanIndex := jsFindIndexNotCompleted d.plans.list
  prNumber := d.pr.number
  prUrl := d.pr.url
  ciAttempts := (d.pr.ciAttempts).getD 0
  commentAttempts := 0
  error := none
  startedAt := d.startedAt
  lastUpdate := d.lastUpdate
  signals := d.signals

/-- `WorkflowRunner.resume()`: read the progress record, throw a
descriptive error when there is none, otherwise reconstruct the context —
and then call `this.run(context.researchFile)`, which starts a fresh
actor from the machine's initial state. -/
def resumeModel (now : Str) (maxIterations : Nat) (script : List WorkerResult)
    (stored : Option ProgressFileData) : Except Str RunResult :=
  match stored with
  | none =>
    .error "No workflow in progress. Start with: /workflows:build <research-file>".data
  | some d => .ok (runModel now maxIterations script (reconstructContext d).researchFile)

/-! ## C1: resume restarts instead of continuing -/

/-- A persisted record mid-run: phase `implementing`, one of two plans
done, a PR open, three CI attempts spent. -/
def sampleProgress : ProgressFileData where
  researchFile := "research/feature.md".data
  worktreePath := some "/wt".data
  branch := some "feat/x".data
  currentPhase := "implementing".data
  iteration := some 7
  startedAt := "2026-01-01T00:00:00.000Z".data
  lastUpdate := "2026-01-01T01:00:00.000Z".data
  plans := ⟨some 2, some 1,
    [⟨"plans/workflow-1.md".data, some 41, true⟩,
     ⟨"plans/workflow-2.md".data, some 42, false⟩]⟩
  pr := ⟨some 123, some "https://github.com/o/r/pull/123".data, some "pending".data, some 3⟩
  signals := [⟨"SETUP_COMPLETE".data, "2026-01-01T00:01:00.000Z".data⟩]

/-- C1 (code evaluated at the failing input): with no stored record,
`resume` fails with the descriptive error — but with a stored record in
phase `implementing` carrying plans, a PR and spent CI attempts, `resume`
hands only the recorded `researchFile` to `run`, which starts a fresh
machine: the run begins in `setup` with empty plans and zeroed counters,
discarding the recorded phase, plans, PR info and attempt counters. -/
theorem resume_restarts_instead_of_continuing :
    (resumeModel "t".data 0 [] none =
      .error "No workflow in progress. Start with: /workflows:build <research-file>".data)
    ∧ (∀ maxIterations script,
        resumeModel "t".data maxIterations script (some sampleProgress) =
          .ok (runModel "t".data maxIterations script
            (reconstructContext sampleProgress).researchFile))
    ∧ (runModel "t".data 0 [] (reconstructContext sampleProgress).researchFile).finalPhase
        = .setup
    ∧ (runModel "t".data 0 [] (reconstructContext sampleProgress).researchFile).context.plans
        = []
    ∧ (runModel "t".data 0 [] (reconstructContext sampleProgress).researchFile).context.ciAttempts
        = 0
    ∧ (runModel "t".data 0 [] (reconstructContext sampleProgress).researchFile).context.prNumber
        = none
    ∧ sampleProgress.currentPhase = "implementing".data
    ∧ sampleProgress.plans.list ≠ []
    ∧ sampleProgress.pr.ciAttempts = some 3
    ∧ sampleProgress.pr.number = some 123 := by
  refine ⟨rfl, fun maxIterations script => rfl, ?_, ?_, ?_, ?_, rfl, ?_, rfl, rfl⟩
  · rfl
  · rfl
  · rfl
  · rfl
  · decide

/-! ## C6: persistence per iteration -/

/-- C6 counterexample: a run whose single worker invocation throws.  The
only loop iteration has `workerThrew = true` and `wrote = false` — the
context is not persisted before the next iteration (the terminal check)
begins; only the post-loop final write lands. -/
theorem worker_failure_iteration_skips_write :
    (runModel "t".data 3 [.err "spawn claude ENOENT".data] "r.md".data).logs =
      [⟨.setup, false, true, false⟩]
    ∧ (runModel "t".data 3 [.err "spawn claude ENOENT".data] "r.md".data).writes.length = 1
    ∧ (runModel "t".data 3 [.err "spawn claude ENOENT".data] "r.md".data).finalPhase = .failed := by
  refine ⟨rfl, rfl, rfl⟩

/-- C6 (amended): the progress file is written in exactly the iterations
whose worker invocation returns without throwing (whether or not a signal
was parsed); iterations that skip because the phase has no mapped command,
and iterations whose invocation throws, do not write before the next
iteration begins — but one final write of the terminal snapshot always
happens after the loop. -/
theorem persistence_amended (now researchFile : Str) (maxIterations : Nat)
    (script : List WorkerResult) :
    (∀ log ∈ (runModel now maxIterations script researchFile).logs,
      log.wrote = (!log.skippedNoCommand && !log.workerThrew))
    ∧ (runModel now maxIterations script researchFile).writes.getLast? =
        some ((runModel now maxIterations script researchFile).context,
          (runModel now maxIterations script researchFile).finalPhase,
          (runModel now maxIterations script researchFile).finalIteration) := by
  constructor
  · have main : ∀ fuel script phase ctx it,
        ∀ log ∈ (runLoop now fuel script phase ctx it).logs,
          log.wrote = (!log.skippedNoCommand && !log.workerThrew) := by
      intro fuel
      induction fuel with
      | zero => intro script phase ctx it log hlog; simp [runLoop] at hlog
      | succ fuel ih =>
        intro script phase ctx it log hlog
        unfold runLoop at hlog
        by_cases ht : isTerminal phase = true
        · simp [ht] at hlog
        · rw [Bool.not_eq_true] at ht
          simp only [ht] at hlog
          rcases hcmd : mapPhaseToCommand phase ctx with _ | cmd <;>
            rw [hcmd] at hlog
          · simp at hlog
            rcases hlog with h | hlog
            · subst h; rfl
            · exact ih script phase ctx (it + 1) log hlog
          · rcases hw : script.headD (.err "Unknown error".data) with content | message <;>
              rw [hw] at hlog <;> simp at hlog
            · rcases hlog with h | hlog
              · subst h; rfl
              · exact ih script.tail _ _ (it + 1) log hlog
            · rcases hlog with h | hlog
              · subst h; rfl
              · exact ih script.tail _ _ (it + 1) log hlog
    intro log hlog
    exact main maxIterations script _ _ 0 log hlog
  · unfold runModel
    simp [List.getLast?_concat]

theorem persistence_amended_witness :
    (runModel "t".data 2 [.ok "x".data] "r".data).writes.getLast? =
      some ((runModel "t".data 2 [.ok "x".data] "r".data).context,
        (runModel "t".data 2 [.ok "x".data] "r".data).finalPhase,
        (runModel "t".data 2 [.ok "x".data] "r".data).finalIteration) :=
  (persistence_amended "t".data "r".data 2 [.ok "x".data]).2

/-! ## Progress writer (`progress-writer.ts`): the write side

The template literal is the join of its lines with newlines (plus a
trailing newline); `writeLines` lists those lines, with the multi-line
plan and signal blocks inlined — `plansList || '(no plans yet)'` falls
back exactly when the plan list is empty (a plan line is never the empty
string), and likewise for signals. -/

def WorkflowPhase.lowerStr : WorkflowPhase → Str
  | .idle => "idle".data
  | .setup => "setup".data
  | .planning => "planning".data
  | .implementing => "implementing".data
  | .submitting => "submitting".data
  | .ci_resolution => "ci_resolution".data
  | .ci_fixing => "ci_fixing".data
  | .comment_resolution => "comment_resolution".data
  | .comment_resolving => "comment_resolving".data
  | .completed => "completed".data
  | .failed => "failed".data

/-- `phase.toUpperCase()` applied to the phase's runtime string. -/
def WorkflowPhase.upperStr : WorkflowPhase → Str
  | .idle => "IDLE".data
  | .setup => "SETUP".data
  | .planning => "PLANNING".data
  | .implementing => "IMPLEMENTING".data
  | .submitting => "SUBMITTING".data
  | .ci_resolution => "CI_RESOLUTION".data
  | .ci_fixing => "CI_FIXING".data
  | .comment_resolution => "COMMENT_RESOLUTION".data
  | .comment_resolving => "COMMENT_RESOLVING".data
  | .completed => "COMPLETED".data
  | .failed => "FAILED".data

/-- `getCiStatus` — note `!context.prNumber` is a truthiness test, so a
PR number of 0 also reads as `'null'`. -/
def getCiStatus (context : WorkflowContext) (phase : WorkflowPhase) : Str :=
  match context.prNumber with
  | none => "null".data
  | some 0 => "null".data
  | some _ =>
    if phase = .completed then "passing".data
    else if phase = .ci_fixing then "failing".data
    else if phase = .ci_resolution then "pending".data
    else "pending".data

def markerStr (completed : Bool) : Str :=
  if completed then "[x]".data else "[ ]".data

/-- `` p.issueNumber ? ` (issue: #${p.issueNumber})` : '' `` — a truthiness
test, so issue number 0 writes no issue suffix. -/
def issueStr (issueNumber : Option Nat) : Str :=
  match issueNumber with
  | some n => if n = 0 then [] else " (issue: #".data ++ decRepr n ++ ")".data
  | none => []

def curStr (completed : Bool) (i : Nat) (currentPlanIndex : Int) : Str :=
  if !completed && (i : Int) == currentPlanIndex then " <- CURRENT".data else []

/-- One plan-checklist line. -/
def planLine (currentPlanIndex : Int) (i : Nat) (p : PlanInfo) : Str :=
  "- ".data ++ markerStr p.completed ++ " ".data ++ p.path ++
    issueStr p.issueNumber ++ curStr p.completed i currentPlanIndex

/-- `plans.map((p, i) => …)` rendered with an explicit running index. -/
def planLinesFrom (currentPlanIndex : Int) : Nat → List PlanInfo → List Str
  | _, [] => []
  | i, p :: ps => planLine currentPlanIndex i p :: planLinesFrom currentPlanIndex (i + 1) ps

def plansBlockLines (ctx : WorkflowContext) : List Str :=
  if ctx.plans = [] then ["(no plans yet)".data]
  else planLinesFrom ctx.currentPlanIndex 0 ctx.plans

/-- One signal-history line. -/
def signalLine (s : SignalRecord) : Str :=
  "- ".data ++ s.timestamp ++ ": ".data ++ s.signal

def signalsBlockLines (ctx : WorkflowContext) : List Str :=
  if ctx.signals = [] then ["(no signals yet)".data]
  else ctx.signals.map signalLine

def joinNl : List Str → Str
  | [] => []
  | [l] => l
  | l :: ls => l ++ '\n' :: joinNl ls

def headLines (ctx : WorkflowContext) (phase : WorkflowPhase)
    (iteration : Nat) (now : Str) : List Str :=
  ["# Workflow Progress".data,
   "# Generated: ".data ++ now,
   "# Research: ".data ++ ctx.researchFile,
   "# Worktree: ".data ++ ctx.worktreePath.getD "not created".data,
   "# Branch: ".data ++ ctx.branch.getD "not created".data,
   [],
   "## Status".data,
   "current_phase: ".data ++ phase.upperStr,
   "iteration: ".data ++ decRepr iteration,
   "started_at: ".data ++ ctx.startedAt,
   "last_update: ".data ++ now,
   [],
   "## Plans".data,
   "total: ".data ++ decRepr ctx.plans.length,
   "completed: ".data ++ decRepr (ctx.plans.filter (fun p => p.completed)).length]

/-- `context.prNumber ?? 'null'` (nullish coalescing: 0 is kept). -/
def numberVal (o : Option Nat) : Str :=
  match o with
  | some n => decRepr n
  | none => "null".data

def prFrontLines (ctx : WorkflowContext) (phase : WorkflowPhase) : List Str :=
  [[],
   "## PR".data,
   "number: ".data ++ numberVal ctx.prNumber,
   "url: ".data ++ ctx.prUrl.getD "null".data,
   "ci_status: ".data ++ getCiStatus ctx phase,
   "ci_attempts: ".data ++ decRepr ctx.ciAttempts,
   [],
   "## Comments".data,
   "total: 0".data,
   "resolved: 0".data,
   "pending: 0".data,
   []]

def prLines (ctx : WorkflowContext) (phase : WorkflowPhase) : List Str :=
  prFrontLines ctx phase ++ ["## Signals".data]

def writeLines (ctx : WorkflowContext) (phase : WorkflowPhase)
    (iteration : Nat) (now : Str) : List Str :=
  headLines ctx phase iteration now ++ plansBlockLines ctx ++
    prLines ctx phase ++ signalsBlockLines ctx ++ [[]]

/-- `ProgressWriter.write`: the file content it writes. -/
def writeProgress (ctx : WorkflowContext) (phase : WorkflowPhase)
    (iteration : Nat) (now : Str) : Str :=
  joinNl (writeLines ctx phase iteration now)

/-! ## Progress writer: the parse side -/

/-- `content.split('\n')`. -/
def splitNl : Str → List Str
  | [] => [[]]
  | c :: cs =>
    let r := splitNl cs
    if c = '\n' then [] :: r
    else (c :: r.headD []) :: r.tail

/-- `extractHeaderValue`: first line starting with `# ` + the given
label, sliced and trimmed. -/
def extractHeaderValue (lines : List Str) (label : Str) : Option Str :=
  match lines with
  | [] => none
  | l :: ls =>
    if isPre ("# ".data ++ label) l then
      some (trimStr (l.drop ("# ".data ++ label).length))
    else extractHeaderValue ls label

/-- First-match line scan: try `attempt` at every `^` position (start of
string and after each newline), advancing one character on failure —
the engine behind an `m`-flagged, un-`g`-flagged regex search. -/
def lineScanFirst {α : Type} (attempt : Str → Option α) : Bool → Str → Option α
  | lineStart, [] => if lineStart then attempt [] else none
  | lineStart, c :: cs =>
    if lineStart then
      match attempt (c :: cs) with
      | some v => some v
      | none => lineScanFirst attempt (c == '\n') cs
    else lineScanFirst attempt (c == '\n') cs

/-- `extractValue(content, key)` — the regex `^key\s*(.+)$` with the `m`
flag; `\s*` may cross newlines (JS `\s` matches `\n`), `(.+)` then runs to
the end of the line it starts on, and `$` is then automatic.  The result
is trimmed by the caller. -/
def keyAttempt (key : Str) (s : Str) : Option Str :=
  if isPre key s then restOfLineCapture (s.drop key.length) else none

def extractValue (content : Str) (key : Str) : Option Str :=
  (lineScanFirst (keyAttempt key) true content).map trimStr

/-- JS `parseInt(s, 10)` restricted to the non-negative shapes this system
ever writes (`none` models `NaN`; a minus sign never occurs in a progress
file written by `write`, so the negative branch is not modelled). -/
def jsParseIntNat (s : Str) : Option Nat :=
  let t := s.dropWhile jsWs
  let t2 := if isPre "+".data t then t.drop 1 else t
  let ds := t2.takeWhile isDigitChar
  if ds = [] then none else some (digitsToNat ds)

def parseNullableInt (value : Option Str) : Option Nat :=
  match value with
  | none => none
  | some s =>
    if s = [] then none
    else if s = "null".data then none
    else jsParseIntNat s

def parseNullableString (value : Option Str) : Option Str :=
  match value with
  | none => none
  | some s =>
    if s = [] then none
    else if s = "null".data then none
    else some s

/-- ASCII `toLowerCase` (all phase names are ASCII). -/
def asciiLower (c : Char) : Char :=
  if 'A' ≤ c && c ≤ 'Z' then Char.ofNat (c.toNat + 32) else c

def jsToLower (s : Str) : Str := s.map asciiLower

/-- `String.prototype.replace(pat, '')`: remove the first occurrence. -/
def removeFirst (pat : Str) : Str → Str
  | [] => []
  | c :: cs =>
    if isPre pat (c :: cs) then (c :: cs).drop pat.length
    else c :: removeFirst pat cs

/-- The part of a plan-line match after `- \[(x| )\] ` and the
one-character lazy capture `pc`: the optional `(?:\s*\(issue: #(\d+)\))?`
group over the remaining input `m4`, and the post-processing of the
captured path. -/
def planIssueScan (pc mk : Char) (m4 : Str) : Option (PlanInfo × Str) :=
  let ws := m4.takeWhile jsWs
  let m5 := m4.drop ws.length
  let issuePart : Option (Nat × Str) :=
    if isPre "(issue: #".data m5 then
      let ds := (m5.drop 9).takeWhile isDigitChar
      if ds ≠ [] ∧ isPre ")".data ((m5.drop 9).drop ds.length) then
        some (digitsToNat ds, (m5.drop 9).drop (ds.length + 1))
      else none
    else none
  let path := trimStr (removeFirst " <- CURRENT".data [pc])
  match issuePart with
  | some (n, rest) => some (⟨path, some n, mk = 'x'⟩, rest)
  | none => some (⟨path, none, mk = 'x'⟩, m4)

/-- One attempt of `/^- \[(x| )\] (.+?)(?:\s*\(issue: #(\d+)\))?/` at a
`^` position.  The lazy `(.+?)` capture is exactly one (non-newline)
character, because the optional group that follows it can always match
empty; the group's `\s*` is greedy and may cross newlines, and
backtracking it cannot help since `(` is not whitespace.  Returns the
parsed plan and the remainder of the input after the match. -/
def planLineAttempt (s : Str) : Option (PlanInfo × Str) :=
  if isPre "- [".data s then
    match s.drop 3 with
    | [] => none
    | mk :: m2 =>
      if (mk = 'x' ∨ mk = ' ') ∧ isPre "] ".data m2 then
        match m2.drop 2 with
        | [] => none
        | pc :: m4 => if pc = '\n' then none else planIssueScan pc mk m4
      else none
  else none

/-- All-matches line scan (a `gm` regex `exec` loop): try `attempt` at
every `^` position, resume after each match.  The fuel is an upper bound
on the number of characters processed (every step consumes at least
one), so `fuel = length + 1` is always enough. -/
def lineScanAll {α : Type} (attempt : Str → Option (α × Str)) :
    Nat → Bool → Str → List α
  | 0, _, _ => []
  | _ + 1, _, [] => []
  | fuel + 1, lineStart, c :: cs =>
    if lineStart then
      match attempt (c :: cs) with
      | some (a, rest) => a :: lineScanAll attempt fuel false rest
      | none => lineScanAll attempt fuel (c == '\n') cs
    else lineScanAll attempt fuel (c == '\n') cs

def parsePlansList (content : Str) : List PlanInfo :=
  lineScanAll planLineAttempt (content.length + 1) true content

/-- Rightmost split of a line for `/^- (.+): (\w+)/`: the greedy `(.+)`
backtracks to the last `": "` that is followed by a word character;
returns (capture 1, capture 2 = the maximal word run). -/
def rightmostSepAux : Str → Option (Str × Str)
  | [] => none
  | c :: cs =>
    match rightmostSepAux cs with
    | some (a, w) => some (c :: a, w)
    | none =>
      if c = ':' then
        match cs with
        | ' ' :: rest =>
          let w := rest.takeWhile isWordChar
          if w = [] then none else some ([], w)
        | _ => none
      else none

/-- One attempt of `/^- (.+): (\w+)/` at a `^` position; `(.+)` cannot
cross the newline, and the match ends after the word run. -/
def signalLineAttempt (s : Str) : Option (SignalRecord × Str) :=
  if isPre "- ".data s then
    let L := (s.drop 2).takeWhile fun c => !(c == '\n')
    match rightmostSepAux L with
    | some (a, w) =>
      if a = [] then none
      else some (⟨w, a⟩, (s.drop 2).drop (a.length + 2 + w.length))
    | none => none
  else none

/-- Leftmost occurrence split (one step of `String.prototype.split`). -/
def splitSub (pat : Str) : Str → Option (Str × Str)
  | [] => if isPre pat [] then some ([], []) else none
  | c :: cs =>
    if isPre pat (c :: cs) then some ([], (c :: cs).drop pat.length)
    else
      match splitSub pat cs with
      | some (a, b) => some (c :: a, b)
      | none => none

/-- `content.split('## Signals')[1]`: the segment between the first and
second occurrence (or everything after the first when it is unique). -/
def sectionAfterSignals (content : Str) : Option Str :=
  match splitSub "## Signals".data content with
  | none => none
  | some (_, rest) =>
    match splitSub "## Signals".data rest with
    | none => some rest
    | some (a, _) => some a

def parseSignalsList (content : Str) : List SignalRecord :=
  match sectionAfterSignals content with
  | none => []
  | some sec => lineScanAll signalLineAttempt (sec.length + 1) true sec

/-- `ProgressWriter.parse` (the `timestamp` field — `new Date()` at parse
time — and the constant-zero comments block are omitted). -/
def parseProgress (content : Str) : ProgressFileData :=
  let lines := splitNl content
  let worktreePath := extractHeaderValue lines "Worktree:".data
  let branch := extractHeaderValue lines "Branch:".data
  { researchFile := (extractHeaderValue lines "Research:".data).getD []
    worktreePath :=
      match worktreePath with
      | some w => if w = "not created".data then none else some w
      | none => none
    branch :=
      match branch with
      | some b => if b = "not created".data then none else some b
      | none => none
    currentPhase := jsToLower ((extractValue content "current_phase:".data).getD "idle".data)
    iteration := jsParseIntNat ((extractValue content "iteration:".data).getD "0".data)
    startedAt := (extractValue content "started_at:".data).getD []
    lastUpdate := (extractValue content "last_update:".data).getD []
    plans :=
      ⟨jsParseIntNat ((extractValue content "total:".data).getD "0".data),
       jsParseIntNat ((extractValue content "completed:".data).getD "0".data),
       parsePlansList content⟩
    pr :=
      ⟨parseNullableInt (extractValue content "number:".data),
       parseNullableString (extractValue content "url:".data),
       parseNullableString (extractValue content "ci_status:".data),
       jsParseIntNat ((extractValue content "ci_attempts:".data).getD "0".data)⟩
    signals := parseSignalsList content }

/-! ## Progress writer: basic line and string lemmas -/

theorem joinNl_cons (l : Str) (ls : List Str) (h : ls ≠ []) :
    joinNl (l :: ls) = l ++ '\n' :: joinNl ls := by
  cases ls with
  | nil => exact absurd rfl h
  | cons a as => rfl

theorem splitNl_no_nl (l : Str) (h : '\n' ∉ l) : splitNl l = [l] := by
  induction l with
  | nil => rfl
  | cons c cs ih =>
    have hc : ¬ c = '\n' := fun hh => h (hh ▸ List.mem_cons_self c cs)
    have ih' := ih fun hm => h (List.mem_cons_of_mem c hm)
    simp [splitNl, hc, ih']

theorem splitNl_append_nl (l : Str) (h : '\n' ∉ l) (r : Str) :
    splitNl (l ++ '\n' :: r) = l :: splitNl r := by
  induction l with
  | nil => simp [splitNl]
  | cons c cs ih =>
    have hc : ¬ c = '\n' := fun hh => h (hh ▸ List.mem_cons_self c cs)
    have ih' := ih fun hm => h (List.mem_cons_of_mem c hm)
    simp only [List.cons_append, splitNl, hc, if_false, List.append_eq, ih',
      List.headD_cons, List.tail_cons]

theorem splitNl_joinNl (ls : List Str) (hne : ls ≠ [])
    (h : ∀ l ∈ ls, '\n' ∉ l) : splitNl (joinNl ls) = ls := by
  induction ls with
  | nil => exact absurd rfl hne
  | cons l ls ih =>
    cases ls with
    | nil => exact splitNl_no_nl l (h l (List.mem_cons_self l []))
    | cons b bs =>
      rw [joinNl_cons l (b :: bs) (by simp),
        splitNl_append_nl l (h l (List.mem_cons_self l (b :: bs)))]
      rw [ih (by simp) fun x hx => h x (List.mem_cons_of_mem l hx)]

theorem isPre_head_ne (c d : Char) (cs ds : Str) (h : ¬ c = d) :
    isPre (c :: cs) (d :: ds) = false := by
  simp [isPre, h]

theorem isPre_nil_right (c : Char) (cs : Str) : isPre (c :: cs) [] = false := rfl

/-- A key with no newline that does not head a line cannot match with the
rest of the document appended. -/
theorem isPre_append_nl_false (key l R : Str) (hkey : '\n' ∉ key)
    (h : isPre key l = false) :
    isPre key (l ++ '\n' :: R) = false := by
  induction key generalizing l with
  | nil => simp [isPre] at h
  | cons k ks ih =>
    cases l with
    | nil =>
      have hk : ¬ k = '\n' := fun hh => hkey (hh ▸ List.mem_cons_self k ks)
      simp only [List.nil_append]
      exact isPre_head_ne k '\n' ks R hk
    | cons c cs =>
      by_cases hkc : k = c
      · subst hkc
        simp only [isPre, beq_self_eq_true, Bool.true_and] at h
        simp only [List.cons_append, isPre, beq_self_eq_true, Bool.true_and]
        exact ih cs (fun hm => hkey (List.mem_cons_of_mem k hm)) h
      · simp only [List.cons_append]
        exact isPre_head_ne k c ks (cs ++ '\n' :: R) hkc

theorem drop_len_append (a b : Str) : (a ++ b).drop a.length = b := by
  induction a with
  | nil => rfl
  | cons c cs ih => simp only [List.cons_append, List.length_cons, List.drop_succ_cons, ih]

theorem dropWhile_idem (p : Char → Bool) (s : Str) :
    (s.dropWhile p).dropWhile p = s.dropWhile p := by
  induction s with
  | nil => rfl
  | cons c cs ih =>
    by_cases hc : p c = true
    · simp [List.dropWhile_cons, hc, ih]
    · simp only [Bool.not_eq_true] at hc
      simp [List.dropWhile_cons, hc]

theorem trimStr_dropWhile (s : Str) : trimStr (s.dropWhile jsWs) = trimStr s := by
  simp [trimStr, dropWhile_idem]

theorem trimStr_cons_ws (c : Char) (s : Str) (hc : jsWs c = true) :
    trimStr (c :: s) = trimStr s := by
  simp [trimStr, List.dropWhile_cons, hc]

theorem length_dropWhile_le (p : Char → Bool) (s : Str) :
    (s.dropWhile p).length ≤ s.length := by
  induction s with
  | nil => exact Nat.le_refl 0
  | cons c cs ih =>
    by_cases hc : p c = true
    · simp only [List.dropWhile_cons, hc, if_true, List.length_cons]
      omega
    · simp only [Bool.not_eq_true] at hc
      simp [List.dropWhile_cons, hc]

theorem trimStr_length_le (s : Str) : (trimStr s).length ≤ s.length := by
  have h1 : (s.dropWhile jsWs).length ≤ s.length := length_dropWhile_le _ _
  have h2 : ((s.dropWhile jsWs).reverse.dropWhile jsWs).length ≤
      (s.dropWhile jsWs).reverse.length := length_dropWhile_le _ _
  simp only [trimStr, List.length_reverse] at *
  omega

theorem head_not_ws_of_trimmed (c : Char) (s : Str)
    (h : trimStr (c :: s) = c :: s) : jsWs c = false := by
  by_contra hc
  rw [Bool.not_eq_false] at hc
  have heq := trimStr_cons_ws c s hc
  rw [h] at heq
  have := congrArg List.length heq
  have hle := trimStr_length_le s
  simp only [List.length_cons] at this
  omega

theorem dropWhile_append_of_exists (p : Char → Bool) (a b : Str)
    (h : ∃ c ∈ a, p c = false) :
    (a ++ b).dropWhile p = a.dropWhile p ++ b := by
  induction a with
  | nil => obtain ⟨c, hc, _⟩ := h; exact absurd hc (List.not_mem_nil c)
  | cons c cs ih =>
    by_cases hc : p c = true
    · have hcs : ∃ d ∈ cs, p d = false := by
        obtain ⟨d, hd, hpd⟩ := h
        rcases List.mem_cons.mp hd with rfl | hd'
        · exact absurd hc (by simp [hpd])
        · exact ⟨d, hd', hpd⟩
      simp [List.dropWhile_cons, hc, ih hcs]
    · simp only [Bool.not_eq_true] at hc
      simp [List.dropWhile_cons, hc]

theorem drop_takeWhile (p : Char → Bool) (s : Str) :
    s.drop (s.takeWhile p).length = s.dropWhile p := by
  induction s with
  | nil => rfl
  | cons c cs ih =>
    by_cases hc : p c = true
    · simp [List.takeWhile_cons, List.dropWhile_cons, hc, ih]
    · simp only [Bool.not_eq_true] at hc
      simp [List.takeWhile_cons, List.dropWhile_cons, hc]

theorem mem_of_mem_dropWhile (p : Char → Bool) (c : Char) (s : Str)
    (h : c ∈ s.dropWhile p) : c ∈ s := by
  induction s with
  | nil => simp at h
  | cons d ds ih =>
    by_cases hd : p d = true
    · simp only [List.dropWhile_cons, hd, if_true] at h
      exact List.mem_cons_of_mem d (ih h)
    · simp only [Bool.not_eq_true] at hd
      simp only [List.dropWhile_cons, hd] at h
      simpa using h

theorem takeWhile_eq_self_of_all (p : Char → Bool) (l : Str)
    (h : ∀ x ∈ l, p x = true) : l.takeWhile p = l := by
  have := takeWhile_append_of_all p l [] h
  simpa using this

theorem jsWs_of_digit (c : Char) (h1 : '0' ≤ c) (h2 : c ≤ '9') :
    jsWs c = false := by
  simp only [jsWs, Bool.or_eq_false_iff, beq_eq_false_iff_ne, ne_eq]
  refine ⟨⟨⟨⟨⟨?_, ?_⟩, ?_⟩, ?_⟩, ?_⟩, ?_⟩ <;> rintro rfl <;> revert h1 h2 <;> decide

theorem decRepr_mem_ne (n : Nat) (c : Char) (hc : ¬ ('0' ≤ c ∧ c ≤ '9')) :
    c ∉ decRepr n := fun hm => hc (decRepr_digits n c hm)

theorem decRepr_ne_null (n : Nat) : decRepr n ≠ "null".data := by
  intro h
  have : 'n' ∈ decRepr n := by rw [h]; decide
  exact decRepr_mem_ne n 'n' (by decide) this

theorem isDigit_of_range (c : Char) (h1 : '0' ≤ c) (h2 : c ≤ '9') :
    isDigitChar c = true := by
  simp [isDigitChar, h1, h2]

theorem jsParseIntNat_decRepr (n : Nat) : jsParseIntNat (decRepr n) = some n := by
  obtain ⟨d, ds, hd⟩ : ∃ d ds, decRepr n = d :: ds := by
    cases h : decRepr n with
    | nil => exact absurd h (decRepr_ne_nil n)
    | cons d ds => exact ⟨d, ds, rfl⟩
  have hdig := decRepr_digits n
  have hdd := hdig d (hd ▸ List.mem_cons_self d ds)
  unfold jsParseIntNat
  rw [hd]
  rw [List.dropWhile_cons]
  rw [jsWs_of_digit d hdd.1 hdd.2]
  simp only [Bool.false_eq_true, if_false]
  have hplus : isPre "+".data (d :: ds) = false := by
    refine isPre_head_ne '+' d [] ds fun hh => ?_
    subst hh
    exact absurd hdd.1 (by decide)
  rw [hplus]
  simp only [Bool.false_eq_true, if_false]
  have hall : (d :: ds).takeWhile isDigitChar = d :: ds := by
    refine takeWhile_eq_self_of_all isDigitChar (d :: ds) fun x hx => ?_
    have := hdig x (hd ▸ hx)
    exact isDigit_of_range x this.1 this.2
  rw [hall]
  have hne : d :: ds ≠ [] := by simp
  rw [if_neg hne, ← hd, digitsToNat_decRepr]

/-! ## Line-scan lemmas -/

theorem lineScanFirst_cons {α : Type} (attempt : Str → Option α) (b : Bool)
    (c : Char) (cs : Str) :
    lineScanFirst attempt b (c :: cs) =
      if b then
        match attempt (c :: cs) with
        | some v => some v
        | none => lineScanFirst attempt (c == '\n') cs
      else lineScanFirst attempt (c == '\n') cs := rfl

theorem lineScanFirst_false_skip {α : Type} (attempt : Str → Option α)
    (t R : Str) (ht : '\n' ∉ t) :
    lineScanFirst attempt false (t ++ '\n' :: R) = lineScanFirst attempt true R := by
  induction t with
  | nil => simp [lineScanFirst_cons]
  | cons c cs ih =>
    have hc : ¬ c = '\n' := fun hh => ht (hh ▸ List.mem_cons_self c cs)
    rw [List.cons_append, lineScanFirst_cons]
    simp only [Bool.false_eq_true, if_false]
    rw [show (c == '\n') = false from beq_eq_false_iff_ne.mpr hc]
    exact ih fun hm => ht (List.mem_cons_of_mem c hm)

theorem lineScanFirst_skip {α : Type} (attempt : Str → Option α)
    (l R : Str) (hl : '\n' ∉ l) (hatt : attempt (l ++ '\n' :: R) = none) :
    lineScanFirst attempt true (l ++ '\n' :: R) = lineScanFirst attempt true R := by
  cases l with
  | nil =>
    simp only [List.nil_append] at hatt ⊢
    rw [lineScanFirst_cons]
    simp [hatt]
  | cons c cs =>
    have hc : ¬ c = '\n' := fun hh => hl (hh ▸ List.mem_cons_self c cs)
    rw [List.cons_append] at hatt ⊢
    rw [lineScanFirst_cons]
    simp only [if_true, hatt]
    rw [show (c == '\n') = false from beq_eq_false_iff_ne.mpr hc]
    exact lineScanFirst_false_skip attempt cs R fun hm => hl (List.mem_cons_of_mem c hm)

theorem lineScanFirst_hit {α : Type} (attempt : Str → Option α)
    (s : Str) (v : α) (h : attempt s = some v) :
    lineScanFirst attempt true s = some v := by
  cases s with
  | nil => simp [lineScanFirst, h]
  | cons c cs => rw [lineScanFirst_cons]; simp [h]

theorem restOfLineCapture_at (q : Char) (qs R : Str) (hq : jsWs q = false)
    (hnl : '\n' ∉ q :: qs) :
    restOfLineCapture ((' ' :: q :: qs) ++ '\n' :: R) = some (q :: qs) := by
  have h1 : ((' ' :: q :: qs) ++ '\n' :: R).takeWhile jsWs = [' '] := by
    simp only [List.cons_append, List.takeWhile_cons, hq]
    simp [show jsWs ' ' = true from by decide]
  have h2 : (q :: qs) ++ '\n' :: R ≠ [] := by simp
  have h3 : ((q :: qs) ++ '\n' :: R).takeWhile (fun c => !(c == '\n')) = q :: qs := by
    rw [takeWhile_append_of_all _ (q :: qs) ('\n' :: R)
      (fun x hx => by
        simp only [Bool.not_eq_true']
        exact beq_eq_false_iff_ne.mpr fun hh => hnl (hh ▸ hx))]
    simp [List.takeWhile_cons]
  simp only [restOfLineCapture, h1, List.length_cons, List.length_nil]
  simp only [List.cons_append, List.drop_succ_cons, List.drop_zero]
  rw [show (q :: (qs ++ '\n' :: R)) = (q :: qs) ++ '\n' :: R from by simp]
  rw [if_pos h2, h3]

theorem keyAttempt_none (key l R : Str) (hkeynl : '\n' ∉ key)
    (h : isPre key l = false) : keyAttempt key (l ++ '\n' :: R) = none := by
  unfold keyAttempt
  rw [isPre_append_nl_false key l R hkeynl h]
  simp

theorem scanKey_at (key : Str) (q : Char) (qs : Str) (L1 L2 : List Str)
    (hkeynl : '\n' ∉ key)
    (h1 : ∀ l ∈ L1, isPre key l = false ∧ '\n' ∉ l)
    (hq : jsWs q = false) (hqnl : '\n' ∉ q :: qs)
    (hL2 : L2 ≠ []) :
    lineScanFirst (keyAttempt key) true
      (joinNl (L1 ++ (key ++ ' ' :: q :: qs) :: L2)) = some (q :: qs) := by
  induction L1 with
  | nil =>
    rw [List.nil_append, joinNl_cons _ L2 hL2]
    apply lineScanFirst_hit
    unfold keyAttempt
    rw [show (key ++ ' ' :: q :: qs) ++ '\n' :: joinNl L2 =
      key ++ ((' ' :: q :: qs) ++ '\n' :: joinNl L2) from by simp]
    rw [isPre_self_append]
    simp only [if_true]
    rw [drop_len_append]
    exact restOfLineCapture_at q qs (joinNl L2) hq hqnl
  | cons l ls ih =>
    have hl := h1 l (List.mem_cons_self l ls)
    rw [List.cons_append, joinNl_cons _ _ (by simp)]
    rw [lineScanFirst_skip _ _ _ hl.2 (keyAttempt_none key l _ hkeynl hl.1)]
    exact ih fun x hx => h1 x (List.mem_cons_of_mem l hx)

theorem extractValue_at (key : Str) (q : Char) (qs : Str) (L1 L2 : List Str)
    (hkeynl : '\n' ∉ key)
    (h1 : ∀ l ∈ L1, isPre key l = false ∧ '\n' ∉ l)
    (hq : jsWs q = false) (hqnl : '\n' ∉ q :: qs)
    (hL2 : L2 ≠ []) :
    extractValue (joinNl (L1 ++ (key ++ ' ' :: q :: qs) :: L2)) key =
      some (trimStr (q :: qs)) := by
  unfold extractValue
  rw [scanKey_at key q qs L1 L2 hkeynl h1 hq hqnl hL2]
  rfl

theorem lineScanAll_cons {α : Type} (attempt : Str → Option (α × Str))
    (fuel : Nat) (b : Bool) (c : Char) (cs : Str) :
    lineScanAll attempt (fuel + 1) b (c :: cs) =
      if b then
        match attempt (c :: cs) with
        | some (a, rest) => a :: lineScanAll attempt fuel false rest
        | none => lineScanAll attempt fuel (c == '\n') cs
      else lineScanAll attempt fuel (c == '\n') cs := rfl

theorem lineScanAll_nil {α : Type} (attempt : Str → Option (α × Str))
    (fuel : Nat) (b : Bool) : lineScanAll attempt fuel b [] = [] := by
  cases fuel <;> rfl

theorem lineScanAll_false_skip {α : Type} (attempt : Str → Option (α × Str))
    (t R : Str) (ht : '\n' ∉ t) (fuel : Nat) :
    lineScanAll attempt (t.length + 1 + fuel) false (t ++ '\n' :: R) =
      lineScanAll attempt fuel true R := by
  induction t with
  | nil =>
    simp only [List.length_nil, List.nil_append]
    rw [show 0 + 1 + fuel = fuel + 1 from by omega, lineScanAll_cons]
    simp
  | cons c cs ih =>
    have hc : ¬ c = '\n' := fun hh => ht (hh ▸ List.mem_cons_self c cs)
    simp only [List.length_cons, List.cons_append]
    rw [show cs.length + 1 + 1 + fuel = (cs.length + 1 + fuel) + 1 from by omega,
      lineScanAll_cons]
    simp only [Bool.false_eq_true, if_false]
    rw [show (c == '\n') = false from beq_eq_false_iff_ne.mpr hc]
    exact ih fun hm => ht (List.mem_cons_of_mem c hm)

theorem lineScanAll_skip {α : Type} (attempt : Str → Option (α × Str))
    (l R : Str) (hl : '\n' ∉ l) (hatt : attempt (l ++ '\n' :: R) = none)
    (fuel : Nat) :
    lineScanAll attempt (l.length + 1 + fuel) true (l ++ '\n' :: R) =
      lineScanAll attempt fuel true R := by
  cases l with
  | nil =>
    simp only [List.nil_append, List.length_nil] at hatt ⊢
    rw [show 0 + 1 + fuel = fuel + 1 from by omega, lineScanAll_cons]
    simp [hatt]
  | cons c cs =>
    have hc : ¬ c = '\n' := fun hh => hl (hh ▸ List.mem_cons_self c cs)
    rw [List.cons_append] at hatt ⊢
    simp only [List.length_cons]
    rw [show cs.length + 1 + 1 + fuel = (cs.length + 1 + fuel) + 1 from by omega,
      lineScanAll_cons]
    simp only [if_true, hatt]
    rw [show (c == '\n') = false from beq_eq_false_iff_ne.mpr hc]
    exact lineScanAll_false_skip attempt cs R
      (fun hm => hl (List.mem_cons_of_mem c hm)) fuel

theorem lineScanAll_hit {α : Type} (attempt : Str → Option (α × Str))
    (l R tR : Str) (a : α)
    (hatt : attempt (l ++ '\n' :: R) = some (a, tR ++ '\n' :: R))
    (ht : '\n' ∉ tR) (fuel : Nat) :
    lineScanAll attempt (tR.length + 2 + fuel) true (l ++ '\n' :: R) =
      a :: lineScanAll attempt fuel true R := by
  have hstep : ∀ (c : Char) (cs : Str), c :: cs = l ++ '\n' :: R →
      lineScanAll attempt (tR.length + 2 + fuel) true (c :: cs) =
        a :: lineScanAll attempt fuel true R := by
    intro c cs hccs
    rw [show tR.length + 2 + fuel = (tR.length + 1 + fuel) + 1 from by omega,
      lineScanAll_cons]
    rw [hccs, hatt]
    simp only [if_true]
    rw [lineScanAll_false_skip attempt tR R ht fuel]
  cases l with
  | nil => exact hstep '\n' R rfl
  | cons c cs => exact hstep c (cs ++ '\n' :: R) rfl

theorem lineScanAll_fuel_congr {α : Type} (attempt : Str → Option (α × Str))
    (hcons : ∀ s p, attempt s = some p → p.2.length < s.length) :
    ∀ f1 f2 (b : Bool) (s : Str), s.length < f1 → s.length < f2 →
      lineScanAll attempt f1 b s = lineScanAll attempt f2 b s := by
  intro f1
  induction f1 using Nat.strong_induction_on with
  | _ f1 ih =>
    intro f2 b s h1 h2
    cases f1 with
    | zero => omega
    | succ f1 =>
      cases s with
      | nil => rw [lineScanAll_nil, lineScanAll_nil]
      | cons c cs =>
        obtain ⟨f2', rfl⟩ : ∃ f2', f2 = f2' + 1 := ⟨f2 - 1, by omega⟩
        rw [lineScanAll_cons, lineScanAll_cons]
        simp only [List.length_cons] at h1 h2
        cases b with
        | false =>
          simp only [Bool.false_eq_true, if_false]
          exact ih f1 (by omega) f2' (c == '\n') cs (by omega) (by omega)
        | true =>
          simp only [if_true]
          cases hatt : attempt (c :: cs) with
          | none => exact ih f1 (by omega) f2' (c == '\n') cs (by omega) (by omega)
          | some p =>
            obtain ⟨a, r⟩ := p
            have hr := hcons (c :: cs) (a, r) hatt
            simp only [List.length_cons] at hr
            exact congrArg (List.cons a) (ih f1 (by omega) f2' false r (by omega) (by omega))

/-! ## Valid contexts for the round-trip claim

`validStr`: ASCII text with no newline, carriage return or `#`, invariant
under `trim` (the file format is line-oriented, values are stored inline
after a key, and `## ` headings delimit sections).  JS `.` also excludes
`\r`, and non-ASCII whitespace would change `\s`/`trim`, hence the two
extra constraints. -/

def validChar (c : Char) : Bool :=
  c.toNat < 128 && !(c == '\n') && !(c == '\r') && !(c == '#')

def validStr (s : Str) : Bool :=
  s.all validChar && trimStr s == s

def validPlan (p : PlanInfo) : Bool :=
  !(p.path == []) && validStr p.path && p.path.all (fun c => !(c == '(')) &&
  !(p.issueNumber == some 0)

def validSignal (r : SignalRecord) : Bool :=
  !(r.signal == []) && r.signal.all isWordChar &&
  !(r.timestamp == []) && validStr r.timestamp &&
  r.timestamp.all (fun c => !(c == '['))

def validCtx (ctx : WorkflowContext) (now : Str) : Bool :=
  validStr ctx.researchFile &&
  (match ctx.worktreePath with
   | some w => validStr w && !(w == "not created".data)
   | none => true) &&
  (match ctx.branch with
   | some b => validStr b && !(b == "not created".data)
   | none => true) &&
  ctx.plans.all validPlan &&
  (match ctx.prUrl with
   | some u => validStr u && !(u == []) && !(u == "null".data)
   | none => true) &&
  validStr ctx.startedAt &&
  ctx.signals.all validSignal &&
  validStr now

/-- What one written plan line parses back to: only the first character
of the path survives the lazy `(.+?)` capture, and the issue suffix is
recovered only when it immediately follows that one character. -/
def truncPlan (p : PlanInfo) : PlanInfo :=
  ⟨p.path.take 1, if p.path.length = 1 then p.issueNumber else none, p.completed⟩

def roundTrip (ctx : WorkflowContext) (phase : WorkflowPhase)
    (iteration : Nat) (now : Str) : ProgressFileData :=
  parseProgress (writeProgress ctx phase iteration now)

theorem validStr_noNl (s : Str) (h : validStr s = true) : '\n' ∉ s := by
  intro hm
  simp only [validStr, Bool.and_eq_true, List.all_eq_true] at h
  exact absurd (h.1 '\n' hm) (by decide)

theorem validStr_noHash (s : Str) (h : validStr s = true) : '#' ∉ s := by
  intro hm
  simp only [validStr, Bool.and_eq_true, List.all_eq_true] at h
  exact absurd (h.1 '#' hm) (by decide)

theorem validStr_trim (s : Str) (h : validStr s = true) : trimStr s = s := by
  simp only [validStr, Bool.and_eq_true, beq_iff_eq] at h
  exact h.2

theorem wordChar_ne_nl (c : Char) (h : isWordChar c = true) : ¬ c = '\n' := by
  rintro rfl
  exact absurd h (by decide)

theorem wordChar_ne_hash (c : Char) (h : isWordChar c = true) : ¬ c = '#' := by
  rintro rfl
  exact absurd h (by decide)

theorem wordChar_ne_colon (c : Char) (h : isWordChar c = true) : ¬ c = ':' := by
  rintro rfl
  exact absurd h (by decide)

/-! ## Helper lemmas on dropWhile and trimming -/

theorem dropWhile_append_all (p : Char → Bool) (a b : Str)
    (h : ∀ c ∈ a, p c = true) :
    (a ++ b).dropWhile p = b.dropWhile p := by
  induction a with
  | nil => rfl
  | cons c cs ih =>
    have hc := h c (List.mem_cons_self c cs)
    simp only [List.cons_append, List.dropWhile_cons, hc, if_true]
    exact ih fun d hd => h d (List.mem_cons_of_mem c hd)

theorem dropWhile_head (p : Char → Bool) (a : Str)
    (h : ∃ c ∈ a, p c = false) :
    ∃ d ds, a.dropWhile p = d :: ds ∧ d ∈ a ∧ p d = false := by
  induction a with
  | nil => obtain ⟨c, hc, _⟩ := h; exact absurd hc (List.not_mem_nil c)
  | cons c cs ih =>
    by_cases hc : p c = true
    · have hcs : ∃ d ∈ cs, p d = false := by
        obtain ⟨d, hd, hpd⟩ := h
        rcases List.mem_cons.mp hd with rfl | hd'
        · exact absurd hc (by simp [hpd])
        · exact ⟨d, hd', hpd⟩
      obtain ⟨d, ds, h1, h2, h3⟩ := ih hcs
      exact ⟨d, ds, by simp [List.dropWhile_cons, hc, h1],
        List.mem_cons_of_mem c h2, h3⟩
    · simp only [Bool.not_eq_true] at hc
      exact ⟨c, cs, by simp [List.dropWhile_cons, hc],
        List.mem_cons_self c cs, hc⟩

theorem exists_not_ws_of_trimmed_tail (pc : Char) (prest : Str)
    (hne : prest ≠ []) (htr : trimStr (pc :: prest) = pc :: prest)
    (hpc : jsWs pc = false) : ∃ c ∈ prest, jsWs c = false := by
  by_contra hall
  push_neg at hall
  have hall' : ∀ c ∈ prest, jsWs c = true := by
    intro c hc
    have := hall c hc
    revert this
    cases jsWs c <;> simp
  have hdrop1 : (pc :: prest).dropWhile jsWs = pc :: prest := by
    simp [List.dropWhile_cons, hpc]
  have hrev : ∀ c ∈ prest.reverse, jsWs c = true := by
    intro c hc
    exact hall' c (List.mem_reverse.mp hc)
  have hsmall : trimStr (pc :: prest) = [pc] := by
    rw [trimStr, hdrop1, List.reverse_cons,
      dropWhile_append_all jsWs prest.reverse [pc] hrev]
    simp [List.dropWhile_cons, hpc]
  rw [htr] at hsmall
  have := congrArg List.length hsmall
  simp only [List.length_cons, List.length_nil] at this
  have : prest.length = 0 := by omega
  exact hne (List.eq_nil_of_length_eq_zero this)

theorem trim_single (c : Char) (hc : jsWs c = false) : trimStr [c] = [c] := by
  simp [trimStr, List.dropWhile_cons, hc]

theorem removeFirst_cur_single (c : Char) :
    removeFirst " <- CURRENT".data [c] = [c] := by
  have h1 : isPre " <- CURRENT".data [c] = false := by
    rw [show " <- CURRENT".data = ' ' :: '<' :: "- CURRENT".data from rfl]
    simp [isPre]
  rw [removeFirst, h1]
  simp [removeFirst]

/-! ## Evaluating a plan-line attempt -/

theorem planIssueScan_nogroup (pc mk : Char) (m4 : Str) (hpc : jsWs pc = false)
    (hng : isPre "(issue: #".data (m4.dropWhile jsWs) = false) :
    planIssueScan pc mk m4 = some (⟨[pc], none, decide (mk = 'x')⟩, m4) := by
  simp only [planIssueScan, drop_takeWhile jsWs m4, hng, Bool.false_eq_true,
    if_false]
  rw [removeFirst_cur_single, trim_single pc hpc]

theorem planIssueScan_group (pc mk : Char) (n : Nat) (C2 : Str)
    (hpc : jsWs pc = false) :
    planIssueScan pc mk (' ' :: ("(issue: #".data ++ decRepr n ++ ')' :: C2)) =
      some (⟨[pc], some n, decide (mk = 'x')⟩, C2) := by
  have hws : (' ' :: ("(issue: #".data ++ decRepr n ++ ')' :: C2)).takeWhile jsWs
      = [' '] := by
    rw [List.takeWhile_cons]
    rw [show jsWs ' ' = true from by decide]
    rw [show "(issue: #".data ++ decRepr n ++ ')' :: C2 =
      '(' :: ("issue: #".data ++ decRepr n ++ ')' :: C2) from by rfl]
    rw [takeWhile_eq_nil_of_head jsWs '(' _ (by decide)]
    simp
  have hdrop1 : (' ' :: ("(issue: #".data ++ decRepr n ++ ')' :: C2)).drop 1 =
      "(issue: #".data ++ (decRepr n ++ ')' :: C2) := by
    simp
  have hpre : isPre "(issue: #".data
      ("(issue: #".data ++ (decRepr n ++ ')' :: C2)) = true :=
    isPre_self_append _ _
  have hdrop9 : ("(issue: #".data ++ (decRepr n ++ ')' :: C2)).drop 9 =
      decRepr n ++ ')' :: C2 := by
    simp
  have hds : (decRepr n ++ ')' :: C2).takeWhile isDigitChar = decRepr n := by
    rw [takeWhile_append_of_all isDigitChar (decRepr n) (')' :: C2)
      (fun x hx => isDigit_of_range x (decRepr_digits n x hx).1
        (decRepr_digits n x hx).2)]
    rw [takeWhile_eq_nil_of_head isDigitChar ')' C2 (by decide)]
    simp
  have hdropds : (decRepr n ++ ')' :: C2).drop (decRepr n).length = ')' :: C2 :=
    drop_len_append _ _
  have hdropds1 : (decRepr n ++ ')' :: C2).drop ((decRepr n).length + 1) = C2 := by
    simp
  simp only [planIssueScan, hws, List.length_cons, List.length_nil, hdrop1,
    hpre, if_true, hdrop9, hds, hdropds, hdropds1]
  rw [show isPre ")".data (')' :: C2) = true from by simp [isPre]]
  simp only [decRepr_ne_nil n, ne_eq, not_false_eq_true, true_and, if_true,
    digitsToNat_decRepr]
  rw [removeFirst_cur_single, trim_single pc hpc]

theorem planLineAttempt_core (mk pc : Char) (rest : Str)
    (hmk : mk = 'x' ∨ mk = ' ') (hpc : ¬ pc = '\n') :
    planLineAttempt ('-' :: ' ' :: '[' :: mk :: ']' :: ' ' :: pc :: rest) =
      planIssueScan pc mk rest := by
  unfold planLineAttempt
  rw [if_pos (show isPre "- [".data
    ('-' :: ' ' :: '[' :: mk :: ']' :: ' ' :: pc :: rest) = true from by
      simp [isPre])]
  show (if (mk = 'x' ∨ mk = ' ') ∧ isPre "] ".data (']' :: ' ' :: pc :: rest) = true
      then (if pc = '\n' then none else planIssueScan pc mk rest)
      else none) = planIssueScan pc mk rest
  rw [if_pos (show (mk = 'x' ∨ mk = ' ') ∧
    isPre "] ".data (']' :: ' ' :: pc :: rest) = true from ⟨hmk, by simp [isPre]⟩)]
  rw [if_neg hpc]

theorem markerStr_shape (b : Bool) :
    ∃ mk, markerStr b = ['[', mk, ']'] ∧ (mk = 'x' ∨ mk = ' ') ∧
      decide (mk = 'x') = b := by
  cases b with
  | true => exact ⟨'x', rfl, Or.inl rfl, by decide⟩
  | false => exact ⟨' ', rfl, Or.inr rfl, by decide⟩

theorem markerStr_length (b : Bool) : (markerStr b).length = 3 := by
  cases b <;> rfl

theorem issueStr_noNl (o : Option Nat) : '\n' ∉ issueStr o := by
  match o with
  | none => simp [issueStr]
  | some n =>
    by_cases hn : n = 0
    · simp [issueStr, hn]
    · simp only [issueStr, if_neg hn]
      intro hm
      rcases List.mem_append.mp hm with hm' | hm'
      · rcases List.mem_append.mp hm' with hm'' | hm''
        · exact absurd hm'' (by decide)
        · exact decRepr_mem_ne n '\n' (by decide) hm''
      · exact absurd hm' (by decide)

theorem curStr_cases (b : Bool) (i : Nat) (k : Int) :
    curStr b i k = " <- CURRENT".data ∨ curStr b i k = [] := by
  unfold curStr
  by_cases h : (!b && (i : Int) == k) = true
  · rw [if_pos h]; exact Or.inl rfl
  · rw [if_neg h]; exact Or.inr rfl

theorem curStr_noNl (b : Bool) (i : Nat) (k : Int) : '\n' ∉ curStr b i k := by
  rcases curStr_cases b i k with h | h <;> rw [h]
  · decide
  · simp

theorem planAttempt_long (mk pc : Char) (prest Z : Str)
    (hmk : mk = 'x' ∨ mk = ' ') (hpc_nl : ¬ pc = '\n') (hpc_ws : jsWs pc = false)
    (hex : ∃ c ∈ prest, jsWs c = false)
    (hpar : ∀ c ∈ prest, ¬ c = '(') :
    planLineAttempt ('-' :: ' ' :: '[' :: mk :: ']' :: ' ' :: pc :: (prest ++ Z)) =
      some (⟨[pc], none, decide (mk = 'x')⟩, prest ++ Z) := by
  rw [planLineAttempt_core mk pc _ hmk hpc_nl]
  apply planIssueScan_nogroup pc mk _ hpc_ws
  obtain ⟨d, ds, hdrop, hdmem, _⟩ := dropWhile_head jsWs prest hex
  rw [dropWhile_append_of_exists jsWs prest Z hex, hdrop]
  rw [show "(issue: #".data = '(' :: "issue: #".data from rfl]
  exact isPre_head_ne '(' d _ _ fun hh => hpar d hdmem hh.symm

theorem planAttempt_issue (mk pc : Char) (n : Nat) (C2 : Str)
    (hmk : mk = 'x' ∨ mk = ' ') (hpc_nl : ¬ pc = '\n') (hpc_ws : jsWs pc = false) :
    planLineAttempt ('-' :: ' ' :: '[' :: mk :: ']' :: ' ' :: pc ::
        (' ' :: ("(issue: #".data ++ decRepr n ++ ')' :: C2))) =
      some (⟨[pc], some n, decide (mk = 'x')⟩, C2) := by
  rw [planLineAttempt_core mk pc _ hmk hpc_nl]
  exact planIssueScan_group pc mk n C2 hpc_ws

theorem planAttempt_plain (mk pc : Char) (m4 : Str)
    (hmk : mk = 'x' ∨ mk = ' ') (hpc_nl : ¬ pc = '\n') (hpc_ws : jsWs pc = false)
    (hng : isPre "(issue: #".data (m4.dropWhile jsWs) = false) :
    planLineAttempt ('-' :: ' ' :: '[' :: mk :: ']' :: ' ' :: pc :: m4) =
      some (⟨[pc], none, decide (mk = 'x')⟩, m4) := by
  rw [planLineAttempt_core mk pc _ hmk hpc_nl]
  exact planIssueScan_nogroup pc mk m4 hpc_ws hng

theorem planLineAttempt_at (cur : Int) (i : Nat) (p : PlanInfo) (R : Str)
    (hv : validPlan p = true)
    (hR : isPre "(issue: #".data (R.dropWhile jsWs) = false) :
    ∃ tR, planLineAttempt (planLine cur i p ++ '\n' :: R) =
        some (truncPlan p, tR ++ '\n' :: R) ∧ '\n' ∉ tR ∧
        tR.length < (planLine cur i p).length := by
  have hv' := hv
  simp only [validPlan, Bool.and_eq_true, Bool.not_eq_true', beq_eq_false_iff_ne,
    ne_eq, List.all_eq_true, Bool.not_eq_eq_eq_not, Bool.not_true] at hv'
  obtain ⟨⟨⟨hne, hvs⟩, hpar⟩, hiz⟩ := hv'
  have hpar' : ∀ c ∈ p.path, ¬ c = '(' := by
    intro c hc
    have := hpar c hc
    intro hh
    rw [hh] at this
    exact absurd this (by decide)
  obtain ⟨pc, prest, hpath⟩ : ∃ pc prest, p.path = pc :: prest := by
    cases hp : p.path with
    | nil => exact absurd hp hne
    | cons a as => exact ⟨a, as, rfl⟩
  have htrim := validStr_trim _ hvs
  have hnl := validStr_noNl _ hvs
  have hpc_ws : jsWs pc = false :=
    head_not_ws_of_trimmed pc prest (by rw [← hpath]; exact htrim)
  have hpc_nl : ¬ pc = '\n' := by
    intro hh
    exact hnl (by rw [hpath, hh]; exact List.mem_cons_self _ _)
  obtain ⟨mk, hmkshape, hmkor, hmkval⟩ := markerStr_shape p.completed
  have htrunc1 : (truncPlan p).path = [pc] := by
    simp [truncPlan, hpath]
  have htrunc3 : (truncPlan p).completed = p.completed := rfl
  have dDash : "- ".data = ['-', ' '] := rfl
  have dSp : " ".data = [' '] := rfl
  cases hprest : prest with
  | cons q qs =>
    -- path of length at least 2: the lazy capture drops the tail, the
    -- issue group cannot fire inside the remaining path text
    have hq : ∃ c ∈ prest, jsWs c = false := by
      rw [hprest] at hpath ⊢
      exact exists_not_ws_of_trimmed_tail pc (q :: qs) (by simp)
        (by rw [← hpath]; exact htrim) hpc_ws
    have hline : planLine cur i p ++ '\n' :: R =
        '-' :: ' ' :: '[' :: mk :: ']' :: ' ' :: pc ::
          (prest ++ (issueStr p.issueNumber ++
            (curStr p.completed i cur ++ '\n' :: R))) := by
      rw [planLine, hmkshape, hpath, dDash, dSp]
      simp [List.append_assoc]
    rw [hline]
    refine ⟨prest ++ issueStr p.issueNumber ++ curStr p.completed i cur, ?_, ?_, ?_⟩
    · rw [planAttempt_long mk pc prest _ hmkor hpc_nl hpc_ws hq
        (fun c hc => hpar' c (by rw [hpath]; exact List.mem_cons_of_mem pc hc))]
      have htrunc2 : (truncPlan p).issueNumber = none := by
        simp only [truncPlan, hpath, hprest, List.length_cons]
        rw [if_neg (by omega)]
      refine congrArg some ?_
      refine Prod.ext ?_ ?_
      · show PlanInfo.mk [pc] none (decide (mk = 'x')) = truncPlan p
        rw [show truncPlan p =
          ⟨(truncPlan p).path, (truncPlan p).issueNumber, (truncPlan p).completed⟩
          from rfl]
        rw [htrunc1, htrunc2, htrunc3, hmkval]
      · show prest ++ (issueStr p.issueNumber ++ (curStr p.completed i cur ++ '\n' :: R)) =
          (prest ++ issueStr p.issueNumber ++ curStr p.completed i cur) ++ '\n' :: R
        simp [List.append_assoc]
    · intro hm
      rcases List.mem_append.mp hm with hm' | hm'
      · rcases List.mem_append.mp hm' with hm'' | hm''
        · exact hnl (by rw [hpath]; exact List.mem_cons_of_mem pc hm'')
        · exact issueStr_noNl p.issueNumber hm''
      · exact curStr_noNl p.completed i cur hm'
    · rw [planLine, hpath]
      simp only [List.length_append, List.length_cons, markerStr_length,
        dDash, dSp, List.length_nil]
      omega
  | nil =>
    have htrunc2 : (truncPlan p).issueNumber = p.issueNumber := by
      simp [truncPlan, hpath, hprest]
    cases hiss : p.issueNumber with
    | some n =>
      have hn : ¬ n = 0 := by
        intro hh
        rw [hh] at hiss
        exact hiz hiss
      have hiStr : issueStr (some n) =
          ' ' :: ("(issue: #".data ++ (decRepr n ++ [')'])) := by
        show (if n = 0 then [] else " (issue: #".data ++ decRepr n ++ ")".data) =
          ' ' :: ("(issue: #".data ++ (decRepr n ++ [')']))
        rw [if_neg hn]
        rw [show " (issue: #".data = ' ' :: "(issue: #".data from rfl,
          show ")".data = [')'] from rfl]
        simp
      have hline : planLine cur i p ++ '\n' :: R =
          '-' :: ' ' :: '[' :: mk :: ']' :: ' ' :: pc ::
            (' ' :: ("(issue: #".data ++ decRepr n ++ ')' ::
              (curStr p.completed i cur ++ '\n' :: R))) := by
        rw [planLine, hmkshape, hpath, hprest, hiss, hiStr, dDash, dSp]
        simp [List.append_assoc]
      rw [hline]
      refine ⟨curStr p.completed i cur, ?_, curStr_noNl p.completed i cur, ?_⟩
      · rw [planAttempt_issue mk pc n _ hmkor hpc_nl hpc_ws]
        refine congrArg some (Prod.ext ?_ rfl)
        show PlanInfo.mk [pc] (some n) (decide (mk = 'x')) = truncPlan p
        rw [show truncPlan p =
          ⟨(truncPlan p).path, (truncPlan p).issueNumber, (truncPlan p).completed⟩
          from rfl]
        rw [htrunc1, htrunc2, htrunc3, hmkval, hiss]
      · rw [planLine, hpath, hprest, hiss, hiStr]
        simp only [List.length_append, List.length_cons, markerStr_length,
          List.length_nil]
        omega
    | none =>
      rcases curStr_cases p.completed i cur with hcur | hcur
      · have hline : planLine cur i p ++ '\n' :: R =
            '-' :: ' ' :: '[' :: mk :: ']' :: ' ' :: pc ::
              (' ' :: '<' :: ("- CURRENT".data ++ '\n' :: R)) := by
          rw [planLine, hmkshape, hpath, hprest, hiss, hcur, dDash, dSp,
            show issueStr none = [] from rfl,
            show " <- CURRENT".data = ' ' :: '<' :: "- CURRENT".data from rfl]
          simp [List.append_assoc]
        rw [hline]
        refine ⟨" <- CURRENT".data, ?_, by decide, ?_⟩
        · have hng : isPre "(issue: #".data
              ((' ' :: '<' :: ("- CURRENT".data ++ '\n' :: R)).dropWhile jsWs)
              = false := by
            show isPre "(issue: #".data ('<' :: ("- CURRENT".data ++ '\n' :: R))
              = false
            rw [show "(issue: #".data = '(' :: "issue: #".data from rfl]
            exact isPre_head_ne '(' '<' _ _ (by decide)
          rw [planAttempt_plain mk pc _ hmkor hpc_nl hpc_ws hng]
          refine congrArg some (Prod.ext ?_ ?_)
          · show PlanInfo.mk [pc] none (decide (mk = 'x')) = truncPlan p
            rw [show truncPlan p =
              ⟨(truncPlan p).path, (truncPlan p).issueNumber, (truncPlan p).completed⟩
              from rfl]
            rw [htrunc1, htrunc2, htrunc3, hmkval, hiss]
          · show ' ' :: '<' :: ("- CURRENT".data ++ '\n' :: R) =
              " <- CURRENT".data ++ '\n' :: R
            rfl
        · rw [planLine, hpath, hprest, hiss, hcur,
            show issueStr none = [] from rfl]
          simp only [List.length_append, List.length_cons, markerStr_length,
            List.length_nil]
          omega
      · have hline : planLine cur i p ++ '\n' :: R =
            '-' :: ' ' :: '[' :: mk :: ']' :: ' ' :: pc :: ('\n' :: R) := by
          rw [planLine, hmkshape, hpath, hprest, hiss, hcur, dDash, dSp,
            show issueStr none = [] from rfl]
          simp [List.append_assoc]
        rw [hline]
        refine ⟨[], ?_, by simp, ?_⟩
        · have hng : isPre "(issue: #".data (('\n' :: R).dropWhile jsWs) = false := by
            show isPre "(issue: #".data (R.dropWhile jsWs) = false
            exact hR
          rw [planAttempt_plain mk pc _ hmkor hpc_nl hpc_ws hng]
          refine congrArg some (Prod.ext ?_ rfl)
          show PlanInfo.mk [pc] none (decide (mk = 'x')) = truncPlan p
          rw [show truncPlan p =
            ⟨(truncPlan p).path, (truncPlan p).issueNumber, (truncPlan p).completed⟩
            from rfl]
          rw [htrunc1, htrunc2, htrunc3, hmkval, hiss]
        · rw [planLine, hpath, hprest, hiss, hcur,
            show issueStr none = [] from rfl]
          simp only [List.length_append, List.length_cons, markerStr_length,
            List.length_nil]
          omega

/-! ## Consumption bounds and normalized scan steps -/

theorem planIssueScan_consumes (pc mk : Char) (m4 : Str) (pr : PlanInfo × Str)
    (h : planIssueScan pc mk m4 = some pr) : pr.2.length ≤ m4.length := by
  simp only [planIssueScan] at h
  split at h
  · rename_i n rest heq
    split at heq
    · split at heq
      · simp only [Option.some.injEq, Prod.mk.injEq] at heq
        injection h with h'
        rw [← h']
        simp only [← heq.2, List.length_drop]
        omega
      · exact absurd heq (by simp)
    · exact absurd heq (by simp)
  · injection h with h'
    rw [← h']

theorem planLineAttempt_consumes :
    ∀ (s : Str) (pr : PlanInfo × Str), planLineAttempt s = some pr →
      pr.2.length < s.length := by
  intro s pr h
  unfold planLineAttempt at h
  split at h
  · rename_i hpre
    split at h
    · exact absurd h (by simp)
    · rename_i mk m2 hm2
      split at h
      · split at h
        · exact absurd h (by simp)
        · rename_i pc m4 hm4
          split at h
          · exact absurd h (by simp)
          · have hc1 := congrArg List.length hm2
            have hc2 := congrArg List.length hm4
            simp only [List.length_drop, List.length_cons] at hc1 hc2
            have := planIssueScan_consumes pc mk m4 pr h
            omega
      · exact absurd h (by simp)
  · exact absurd h (by simp)

theorem signalLineAttempt_consumes :
    ∀ (s : Str) (pr : SignalRecord × Str), signalLineAttempt s = some pr →
      pr.2.length < s.length := by
  intro s pr h
  simp only [signalLineAttempt] at h
  split at h
  · rename_i hpre
    obtain ⟨t, ht⟩ := (isPre_iff _ _).mp hpre
    have hlen : 2 ≤ s.length := by
      rw [ht]
      simp only [List.length_append]
      rw [show ("- ".data).length = 2 from rfl]
      omega
    split at h
    · rename_i a w heq
      split at h
      · exact absurd h (by simp)
      · injection h with h'
        rw [← h']
        simp only [List.length_drop]
        omega
    · exact absurd h (by simp)
  · exact absurd h (by simp)

theorem scanN_skip {α : Type} (attempt : Str → Option (α × Str))
    (l R : Str) (hl : '\n' ∉ l) (hatt : attempt (l ++ '\n' :: R) = none) :
    lineScanAll attempt ((l ++ '\n' :: R).length + 1) true (l ++ '\n' :: R) =
      lineScanAll attempt (R.length + 1) true R := by
  rw [show (l ++ '\n' :: R).length + 1 = l.length + 1 + (R.length + 1) from by
    simp [List.length_append]; omega]
  exact lineScanAll_skip attempt l R hl hatt (R.length + 1)

theorem scanN_hit {α : Type} (attempt : Str → Option (α × Str))
    (hcons : ∀ s pr, attempt s = some pr → pr.2.length < s.length)
    (l R tR : Str) (a : α)
    (hatt : attempt (l ++ '\n' :: R) = some (a, tR ++ '\n' :: R))
    (htnl : '\n' ∉ tR) (hlt : tR.length < l.length) :
    lineScanAll attempt ((l ++ '\n' :: R).length + 1) true (l ++ '\n' :: R) =
      a :: lineScanAll attempt (R.length + 1) true R := by
  rw [show (l ++ '\n' :: R).length + 1 =
      tR.length + 2 + (l.length + R.length - tR.length) from by
    simp [List.length_append]; omega]
  rw [lineScanAll_hit attempt l R tR a hatt htnl _]
  exact congrArg (List.cons a)
    (lineScanAll_fuel_congr attempt hcons _ _ true R (by omega) (by omega))

theorem scanN_skip_lines {α : Type} (attempt : Str → Option (α × Str))
    (L1 tailLines : List Str) (htl : tailLines ≠ [])
    (h1 : ∀ l ∈ L1, '\n' ∉ l ∧ ∀ R, attempt (l ++ '\n' :: R) = none) :
    lineScanAll attempt ((joinNl (L1 ++ tailLines)).length + 1) true
        (joinNl (L1 ++ tailLines)) =
      lineScanAll attempt ((joinNl tailLines).length + 1) true (joinNl tailLines) := by
  induction L1 with
  | nil => rfl
  | cons l ls ih =>
    have hl := h1 l (List.mem_cons_self l ls)
    rw [List.cons_append, joinNl_cons _ _ (by
      intro hc
      rcases List.append_eq_nil.mp hc with ⟨_, h2⟩
      exact htl h2)]
    rw [scanN_skip attempt l _ hl.1 (hl.2 _)]
    exact ih fun x hx => h1 x (List.mem_cons_of_mem l hx)

/-! ## Skip conditions for individual lines -/

theorem planLineAttempt_not_pre (s : Str) (h : isPre "- [".data s = false) :
    planLineAttempt s = none := by
  unfold planLineAttempt
  rw [h]
  simp

theorem planSkip_of_head (l : Str) (c : Char) (rest : Str)
    (hshape : l = c :: rest) (hc : ¬ c = '-') :
    ∀ R, planLineAttempt (l ++ '\n' :: R) = none := by
  subst hshape
  intro R
  apply planLineAttempt_not_pre
  rw [List.cons_append, show "- [".data = '-' :: ' ' :: ['['] from rfl]
  exact isPre_head_ne '-' c _ _ fun hh => hc hh.symm

theorem planSkip_nil : ∀ R, planLineAttempt ([] ++ '\n' :: R) = none := by
  intro R
  apply planLineAttempt_not_pre
  rw [List.nil_append, show "- [".data = '-' :: ' ' :: ['['] from rfl]
  exact isPre_head_ne '-' '\n' _ _ (by decide)

theorem planSkip_sig (l : Str) (tc : Char) (rest : Str)
    (hshape : l = '-' :: ' ' :: tc :: rest) (htc : ¬ tc = '[') :
    ∀ R, planLineAttempt (l ++ '\n' :: R) = none := by
  subst hshape
  intro R
  apply planLineAttempt_not_pre
  have hb : ('[' == tc) = false := beq_eq_false_iff_ne.mpr fun hh => htc hh.symm
  rw [List.cons_append, show "- [".data = ['-', ' ', '['] from rfl]
  simp [isPre, hb]

theorem signalLineAttempt_not_pre (s : Str) (h : isPre "- ".data s = false) :
    signalLineAttempt s = none := by
  unfold signalLineAttempt
  rw [h]
  simp

theorem sigSkip_of_head (l : Str) (c : Char) (rest : Str)
    (hshape : l = c :: rest) (hc : ¬ c = '-') :
    ∀ R, signalLineAttempt (l ++ '\n' :: R) = none := by
  subst hshape
  intro R
  apply signalLineAttempt_not_pre
  rw [List.cons_append, show "- ".data = '-' :: [' '] from rfl]
  exact isPre_head_ne '-' c _ _ fun hh => hc hh.symm

theorem sigSkip_nil : ∀ R, signalLineAttempt ([] ++ '\n' :: R) = none := by
  intro R
  apply signalLineAttempt_not_pre
  rw [List.nil_append, show "- ".data = '-' :: [' '] from rfl]
  exact isPre_head_ne '-' '\n' _ _ (by decide)

/-! ## Shapes of written values -/

theorem upperStr_shape (ph : WorkflowPhase) :
    ∃ q qs, ph.upperStr = q :: qs ∧ jsWs q = false ∧ '\n' ∉ ph.upperStr := by
  cases ph <;> exact ⟨_, _, rfl, by decide, by decide⟩

theorem upperStr_noNl (ph : WorkflowPhase) : '\n' ∉ ph.upperStr := by
  cases ph <;> decide

theorem jsToLower_upperStr (ph : WorkflowPhase) :
    jsToLower ph.upperStr = ph.lowerStr := by
  cases ph <;> decide

theorem getCiStatus_mem (ctx : WorkflowContext) (phase : WorkflowPhase) :
    getCiStatus ctx phase ∈
      ["null".data, "passing".data, "failing".data, "pending".data] := by
  unfold getCiStatus
  rcases hpr : ctx.prNumber with _ | n
  · simp
  · rcases n with _ | n
    · simp
    · by_cases h1 : phase = WorkflowPhase.completed
      · simp [h1]
      · rw [if_neg h1]
        by_cases h2 : phase = WorkflowPhase.ci_fixing
        · simp [h2]
        · rw [if_neg h2]
          by_cases h3 : phase = WorkflowPhase.ci_resolution
          · simp [h3]
          · rw [if_neg h3]
            simp

theorem getCiStatus_noNl (ctx : WorkflowContext) (phase : WorkflowPhase) :
    '\n' ∉ getCiStatus ctx phase := by
  intro hm
  have hmem := getCiStatus_mem ctx phase
  simp only [List.mem_cons] at hmem
  rcases hmem with h | h | h | h | h
  · rw [h] at hm; exact absurd hm (by decide)
  · rw [h] at hm; exact absurd hm (by decide)
  · rw [h] at hm; exact absurd hm (by decide)
  · rw [h] at hm; exact absurd hm (by decide)
  · exact absurd h (List.not_mem_nil _)

theorem getCiStatus_noHash (ctx : WorkflowContext) (phase : WorkflowPhase) :
    '#' ∉ getCiStatus ctx phase := by
  intro hm
  have hmem := getCiStatus_mem ctx phase
  simp only [List.mem_cons] at hmem
  rcases hmem with h | h | h | h | h
  · rw [h] at hm; exact absurd hm (by decide)
  · rw [h] at hm; exact absurd hm (by decide)
  · rw [h] at hm; exact absurd hm (by decide)
  · rw [h] at hm; exact absurd hm (by decide)
  · exact absurd h (List.not_mem_nil _)

theorem noNl_decRepr (n : Nat) : '\n' ∉ decRepr n :=
  decRepr_mem_ne n '\n' (by decide)

theorem noHash_decRepr (n : Nat) : '#' ∉ decRepr n :=
  decRepr_mem_ne n '#' (by decide)

theorem optVal_facts (o : Option Str)
    (hmatch : (match o with
      | some w => validStr w && !(w == "not created".data)
      | none => true) = true) :
    '\n' ∉ o.getD "not created".data ∧ '#' ∉ o.getD "not created".data ∧
      trimStr (o.getD "not created".data) = o.getD "not created".data := by
  rcases o with _ | w
  · exact ⟨by decide, by decide, by decide⟩
  · simp only [Option.getD_some]
    simp only [Bool.and_eq_true] at hmatch
    exact ⟨validStr_noNl w hmatch.1, validStr_noHash w hmatch.1,
      validStr_trim w hmatch.1⟩

theorem isPre_issue_dash (X : Str) :
    isPre "(issue: #".data (('-' :: X).dropWhile jsWs) = false := by
  show isPre "(issue: #".data ('-' :: X) = false
  rw [show "(issue: #".data = '(' :: "issue: #".data from rfl]
  exact isPre_head_ne '(' '-' _ _ (by decide)

/-! ## Scanning the plans block -/

theorem plansScan_planLines (cur : Int) (ps : List PlanInfo) :
    ∀ (i : Nat) (tailLines : List Str),
    (∀ p ∈ ps, validPlan p = true) →
    tailLines ≠ [] →
    isPre "(issue: #".data ((joinNl tailLines).dropWhile jsWs) = false →
    lineScanAll planLineAttempt
      ((joinNl (planLinesFrom cur i ps ++ tailLines)).length + 1) true
      (joinNl (planLinesFrom cur i ps ++ tailLines)) =
    ps.map truncPlan ++
      lineScanAll planLineAttempt ((joinNl tailLines).length + 1) true
        (joinNl tailLines) := by
  induction ps with
  | nil => intro i tl _ _ _; simp [planLinesFrom]
  | cons p ps' ih =>
    intro i tl hv htl hiss
    have hne2 : planLinesFrom cur (i + 1) ps' ++ tl ≠ [] := by
      intro hc
      rcases List.append_eq_nil.mp hc with ⟨_, h2⟩
      exact htl h2
    rw [show planLinesFrom cur i (p :: ps') ++ tl =
      planLine cur i p :: (planLinesFrom cur (i + 1) ps' ++ tl) from rfl]
    rw [joinNl_cons _ _ hne2]
    have hgrp : isPre "(issue: #".data
        ((joinNl (planLinesFrom cur (i + 1) ps' ++ tl)).dropWhile jsWs) = false := by
      cases ps' with
      | nil => simpa [planLinesFrom] using hiss
      | cons p2 ps'' =>
        rw [show planLinesFrom cur (i + 1) (p2 :: ps'') ++ tl =
          planLine cur (i + 1) p2 :: (planLinesFrom cur (i + 2) ps'' ++ tl) from rfl]
        rw [joinNl_cons _ _ (by
          intro hc
          rcases List.append_eq_nil.mp hc with ⟨_, h2⟩
          exact htl h2)]
        have hsh : planLine cur (i + 1) p2 ++
            '\n' :: joinNl (planLinesFrom cur (i + 2) ps'' ++ tl) =
            '-' :: (' ' :: (markerStr p2.completed ++ (" ".data ++ (p2.path ++
              (issueStr p2.issueNumber ++ (curStr p2.completed (i + 1) cur ++
                '\n' :: joinNl (planLinesFrom cur (i + 2) ps'' ++ tl))))))) := by
          rw [planLine, show "- ".data = ['-', ' '] from rfl]
          simp [List.append_assoc]
        rw [hsh]
        exact isPre_issue_dash _
    obtain ⟨tR, hatt, htnl, hlen⟩ :=
      planLineAttempt_at cur i p (joinNl (planLinesFrom cur (i + 1) ps' ++ tl))
        (hv p (List.mem_cons_self p ps')) hgrp
    rw [scanN_hit planLineAttempt planLineAttempt_consumes _ _ tR (truncPlan p)
      hatt htnl hlen]
    rw [ih (i + 1) tl (fun q hq => hv q (List.mem_cons_of_mem p hq)) htl hiss]
    rfl

theorem not_mem_append (c : Char) (a b : Str) (ha : c ∉ a) (hb : c ∉ b) :
    c ∉ a ++ b := by
  intro hm
  rcases List.mem_append.mp hm with h | h
  · exact ha h
  · exact hb h

theorem validCtx_unpack (ctx : WorkflowContext) (now : Str)
    (h : validCtx ctx now = true) :
    validStr ctx.researchFile = true ∧
    (match ctx.worktreePath with
      | some w => validStr w && !(w == "not created".data)
      | none => true) = true ∧
    (match ctx.branch with
      | some b => validStr b && !(b == "not created".data)
      | none => true) = true ∧
    (∀ p ∈ ctx.plans, validPlan p = true) ∧
    (match ctx.prUrl with
      | some u => validStr u && !(u == []) && !(u == "null".data)
      | none => true) = true ∧
    validStr ctx.startedAt = true ∧
    (∀ r ∈ ctx.signals, validSignal r = true) ∧
    validStr now = true := by
  simp only [validCtx, Bool.and_eq_true, List.all_eq_true] at h
  obtain ⟨⟨⟨⟨⟨⟨⟨h1, h2⟩, h3⟩, h4⟩, h5⟩, h6⟩, h7⟩, h8⟩ := h
  exact ⟨h1, h2, h3, h4, h5, h6, h7, h8⟩

theorem forall_mem_append {P : Str → Prop} (A B : List Str)
    (ha : ∀ l ∈ A, P l) (hb : ∀ l ∈ B, P l) : ∀ l ∈ A ++ B, P l := by
  intro l hl
  rcases List.mem_append.mp hl with h | h
  · exact ha l h
  · exact hb l h

/-- The URL line's payload. -/
theorem urlVal_facts (o : Option Str)
    (hmatch : (match o with
      | some u => validStr u && !(u == []) && !(u == "null".data)
      | none => true) = true) :
    '\n' ∉ o.getD "null".data ∧ '#' ∉ o.getD "null".data ∧
      trimStr (o.getD "null".data) = o.getD "null".data ∧
      o.getD "null".data ≠ [] := by
  rcases o with _ | u
  · exact ⟨by decide, by decide, by decide, by decide⟩
  · simp only [Option.getD_some]
    simp only [Bool.and_eq_true, Bool.not_eq_true', beq_eq_false_iff_ne, ne_eq] at hmatch
    exact ⟨validStr_noNl u hmatch.1.1, validStr_noHash u hmatch.1.1,
      validStr_trim u hmatch.1.1, hmatch.1.2⟩

/-- The PR-number line's payload. -/
theorem numVal_facts (o : Option Nat) :
    '\n' ∉ numberVal o ∧ '#' ∉ numberVal o := by
  rcases o with _ | n
  · exact ⟨by decide, by decide⟩
  · exact ⟨noNl_decRepr n, noHash_decRepr n⟩

theorem headLines_planSkip (ctx : WorkflowContext) (phase : WorkflowPhase)
    (it : Nat) (now : Str) (hv : validCtx ctx now = true) :
    ∀ l ∈ headLines ctx phase it now,
      '\n' ∉ l ∧ ∀ R, planLineAttempt (l ++ '\n' :: R) = none := by
  obtain ⟨h1, h2, h3, _, _, h6, _, h8⟩ := validCtx_unpack ctx now hv
  have hwt := optVal_facts ctx.worktreePath h2
  have hbr := optVal_facts ctx.branch h3
  intro l hl
  simp only [headLines, List.mem_cons] at hl
  rcases hl with rfl | rfl | rfl | rfl | rfl | rfl | rfl | rfl | rfl | rfl | rfl
    | rfl | rfl | rfl | rfl | hl
  · exact ⟨by decide, planSkip_of_head _ '#' _ rfl (by decide)⟩
  · exact ⟨not_mem_append _ _ _ (by decide) (validStr_noNl now h8),
      planSkip_of_head _ '#' _ rfl (by decide)⟩
  · exact ⟨not_mem_append _ _ _ (by decide) (validStr_noNl _ h1),
      planSkip_of_head _ '#' _ rfl (by decide)⟩
  · exact ⟨not_mem_append _ _ _ (by decide) hwt.1,
      planSkip_of_head _ '#' _ rfl (by decide)⟩
  · exact ⟨not_mem_append _ _ _ (by decide) hbr.1,
      planSkip_of_head _ '#' _ rfl (by decide)⟩
  · exact ⟨by simp, planSkip_nil⟩
  · exact ⟨by decide, planSkip_of_head _ '#' _ rfl (by decide)⟩
  · exact ⟨not_mem_append _ _ _ (by decide) (upperStr_noNl phase),
      planSkip_of_head _ 'c' _ rfl (by decide)⟩
  · exact ⟨not_mem_append _ _ _ (by decide) (noNl_decRepr it),
      planSkip_of_head _ 'i' _ rfl (by decide)⟩
  · exact ⟨not_mem_append _ _ _ (by decide) (validStr_noNl _ h6),
      planSkip_of_head _ 's' _ rfl (by decide)⟩
  · exact ⟨not_mem_append _ _ _ (by decide) (validStr_noNl now h8),
      planSkip_of_head _ 'l' _ rfl (by decide)⟩
  · exact ⟨by simp, planSkip_nil⟩
  · exact ⟨by decide, planSkip_of_head _ '#' _ rfl (by decide)⟩
  · exact ⟨not_mem_append _ _ _ (by decide) (noNl_decRepr _),
      planSkip_of_head _ 't' _ rfl (by decide)⟩
  · exact ⟨not_mem_append _ _ _ (by decide) (noNl_decRepr _),
      planSkip_of_head _ 'c' _ rfl (by decide)⟩
  · exact absurd hl (List.not_mem_nil l)

theorem prLines_planSkip (ctx : WorkflowContext) (phase : WorkflowPhase)
    (now : Str) (hv : validCtx ctx now = true) :
    ∀ l ∈ prLines ctx phase,
      '\n' ∉ l ∧ ∀ R, planLineAttempt (l ++ '\n' :: R) = none := by
  obtain ⟨_, _, _, _, h5, _, _, _⟩ := validCtx_unpack ctx now hv
  have hurl := urlVal_facts ctx.prUrl h5
  have hnum := numVal_facts ctx.prNumber
  intro l hl
  rw [prLines] at hl
  rcases List.mem_append.mp hl with hl | hl
  swap
  · rw [List.mem_singleton] at hl
    subst hl
    exact ⟨by decide, planSkip_of_head _ '#' _ rfl (by decide)⟩
  simp only [prFrontLines, List.mem_cons] at hl
  rcases hl with rfl | rfl | rfl | rfl | rfl | rfl | rfl | rfl | rfl | rfl | rfl
    | rfl | hl
  · exact ⟨by simp, planSkip_nil⟩
  · exact ⟨by decide, planSkip_of_head _ '#' _ rfl (by decide)⟩
  · exact ⟨not_mem_append _ _ _ (by decide) hnum.1,
      planSkip_of_head _ 'n' _ rfl (by decide)⟩
  · exact ⟨not_mem_append _ _ _ (by decide) hurl.1,
      planSkip_of_head _ 'u' _ rfl (by decide)⟩
  · exact ⟨not_mem_append _ _ _ (by decide) (getCiStatus_noNl ctx phase),
      planSkip_of_head _ 'c' _ rfl (by decide)⟩
  · exact ⟨not_mem_append _ _ _ (by decide) (noNl_decRepr _),
      planSkip_of_head _ 'c' _ rfl (by decide)⟩
  · exact ⟨by simp, planSkip_nil⟩
  · exact ⟨by decide, planSkip_of_head _ '#' _ rfl (by decide)⟩
  · exact ⟨by decide, planSkip_of_head _ 't' _ rfl (by decide)⟩
  · exact ⟨by decide, planSkip_of_head _ 'r' _ rfl (by decide)⟩
  · exact ⟨by decide, planSkip_of_head _ 'p' _ rfl (by decide)⟩
  · exact ⟨by simp, planSkip_nil⟩
  · exact absurd hl (List.not_mem_nil l)

theorem signalLine_noNl (r : SignalRecord) (hr : validSignal r = true) :
    '\n' ∉ signalLine r := by
  simp only [validSignal, Bool.and_eq_true, Bool.not_eq_true',
    beq_eq_false_iff_ne, ne_eq, List.all_eq_true] at hr
  obtain ⟨⟨⟨⟨_, hword⟩, _⟩, hts⟩, _⟩ := hr
  unfold signalLine
  refine not_mem_append _ _ _ (not_mem_append _ _ _ (not_mem_append _ _ _
    (by decide) (validStr_noNl _ hts)) (by decide)) ?_
  intro hm
  exact wordChar_ne_nl _ (hword _ hm) rfl

theorem signalsBlock_planSkip (ctx : WorkflowContext)
    (hsig : ∀ r ∈ ctx.signals, validSignal r = true) :
    ∀ l ∈ signalsBlockLines ctx,
      '\n' ∉ l ∧ ∀ R, planLineAttempt (l ++ '\n' :: R) = none := by
  intro l hl
  unfold signalsBlockLines at hl
  by_cases hs : ctx.signals = []
  · rw [if_pos hs] at hl
    simp only [List.mem_singleton] at hl
    subst hl
    exact ⟨by decide, planSkip_of_head _ '(' _ rfl (by decide)⟩
  · rw [if_neg hs] at hl
    obtain ⟨r, hr, rfl⟩ := List.mem_map.mp hl
    have hvr := hsig r hr
    have hvr' := hvr
    simp only [validSignal, Bool.and_eq_true, Bool.not_eq_true',
      beq_eq_false_iff_ne, ne_eq, List.all_eq_true] at hvr'
    obtain ⟨⟨⟨⟨_, _⟩, htsne⟩, _⟩, hbr⟩ := hvr'
    obtain ⟨tc, ts', hts⟩ : ∃ tc ts', r.timestamp = tc :: ts' := by
      cases hc : r.timestamp with
      | nil => exact absurd hc htsne
      | cons a as => exact ⟨a, as, rfl⟩
    have htcb : ¬ tc = '[' := by
      intro hh
      have := hbr tc (by rw [hts]; exact List.mem_cons_self _ _)
      rw [hh] at this
      exact absurd this (by decide)
    refine ⟨signalLine_noNl r hvr, planSkip_sig _ tc
      ((ts' ++ ": ".data) ++ r.signal) ?_ htcb⟩
    rw [signalLine, hts]
    rfl

/-- What `parsePlansList` recovers from a written progress file: each
plan truncated to the first character of its path. -/
theorem parsePlansList_write (ctx : WorkflowContext) (phase : WorkflowPhase)
    (it : Nat) (now : Str) (hv : validCtx ctx now = true) :
    parsePlansList (writeProgress ctx phase it now) = ctx.plans.map truncPlan := by
  obtain ⟨_, _, _, h4, _, _, h7, _⟩ := validCtx_unpack ctx now hv
  have hhead := headLines_planSkip ctx phase it now hv
  have hpr := prLines_planSkip ctx phase now hv
  have hsigs := signalsBlock_planSkip ctx h7
  have hprsig : ∀ l ∈ prLines ctx phase ++ signalsBlockLines ctx,
      '\n' ∉ l ∧ ∀ R, planLineAttempt (l ++ '\n' :: R) = none :=
    forall_mem_append _ _ hpr hsigs
  unfold parsePlansList writeProgress
  unfold writeLines
  simp only [List.append_assoc]
  rw [scanN_skip_lines planLineAttempt (headLines ctx phase it now)
    (plansBlockLines ctx ++ (prLines ctx phase ++ (signalsBlockLines ctx ++ [[]])))
    (by simp) hhead]
  by_cases hps : ctx.plans = []
  · rw [show plansBlockLines ctx = ["(no plans yet)".data] from by
      rw [plansBlockLines, if_pos hps]]
    rw [show ["(no plans yet)".data] ++
        (prLines ctx phase ++ (signalsBlockLines ctx ++ [[]])) =
      ("(no plans yet)".data :: (prLines ctx phase ++ signalsBlockLines ctx)) ++ [[]]
      from by simp]
    rw [scanN_skip_lines planLineAttempt
      ("(no plans yet)".data :: (prLines ctx phase ++ signalsBlockLines ctx)) [[]]
      (by simp) (by
        intro l hl
        rcases List.mem_cons.mp hl with rfl | hl'
        · exact ⟨by decide, planSkip_of_head _ '(' _ rfl (by decide)⟩
        · exact hprsig l hl')]
    rw [hps]
    rfl
  · rw [show plansBlockLines ctx =
      planLinesFrom ctx.currentPlanIndex 0 ctx.plans from by
      rw [plansBlockLines, if_neg hps]]
    have htail : isPre "(issue: #".data
        ((joinNl (prLines ctx phase ++
          (signalsBlockLines ctx ++ [[]]))).dropWhile jsWs) = false := by
      show isPre "(issue: #".data ('#' :: _) = false
      rw [show "(issue: #".data = '(' :: "issue: #".data from rfl]
      exact isPre_head_ne '(' '#' _ _ (by decide)
    rw [plansScan_planLines ctx.currentPlanIndex ctx.plans 0
      (prLines ctx phase ++ (signalsBlockLines ctx ++ [[]])) h4 (by simp) htail]
    rw [show prLines ctx phase ++ (signalsBlockLines ctx ++ [[]]) =
      (prLines ctx phase ++ signalsBlockLines ctx) ++ [[]] from by simp]
    rw [scanN_skip_lines planLineAttempt
      (prLines ctx phase ++ signalsBlockLines ctx) [[]] (by simp) hprsig]
    rw [show (joinNl [[]] : Str) = [] from rfl, lineScanAll_nil, List.append_nil]

/-! ## The `split('## Signals')` step -/

theorem splitSub_none (pat s : Str) (h : containsSub pat s = false) :
    splitSub pat s = none := by
  induction s with
  | nil =>
    simp only [containsSub] at h
    simp [splitSub, h]
  | cons c cs ih =>
    simp only [containsSub, Bool.or_eq_false_iff] at h
    simp [splitSub, h.1, ih h.2]

theorem isPre_no_early (pat : Str) (c : Char) (pre' rest : Str)
    (hpre : containsSub pat (c :: pre') = false)
    (hsof : selfOverlapFree pat = true) :
    isPre pat ((c :: pre') ++ (pat ++ rest)) = false := by
  simp only [containsSub, Bool.or_eq_false_iff] at hpre
  rw [Bool.eq_false_iff]
  intro hcon
  rcases (isPre_iff _ _).mp hcon with ⟨t, ht⟩
  rcases (List.append_eq_append_iff).mp ht with ⟨w, hw1, hw2⟩ | ⟨w, hw1, hw2⟩
  · cases hw : w with
    | nil =>
      rw [hw, List.append_nil] at hw1
      have : isPre pat (c :: pre') = true := by
        rw [hw1]; exact isPre_refl _
      rw [this] at hpre
      exact absurd hpre.1 (by simp)
    | cons w0 w' =>
      have hk1 : 0 < (c :: pre').length := by simp
      have hk2 : (c :: pre').length < pat.length := by
        have := congrArg List.length hw1
        simp only [List.length_append, List.length_cons, hw] at this ⊢
        simp [this]
      have hdrop : pat.drop (c :: pre').length = w := by
        rw [hw1]; exact List.drop_left _ _
      have hpw : isPre w (pat ++ rest) = true := by
        rw [hw] at hw2 ⊢
        exact (isPre_iff _ _).mpr ⟨t, hw2⟩
      have hlw : w.length ≤ pat.length := by
        have := congrArg List.length hw1
        simp only [List.length_append] at this
        omega
      rw [isPre_append_long w pat rest hlw] at hpw
      have := selfOverlapFree_spec pat hsof (c :: pre').length hk1 hk2
      rw [hdrop] at this
      rw [this] at hpw
      exact absurd hpw (by simp)
  · have : isPre pat (c :: pre') = true := (isPre_iff _ _).mpr ⟨w, hw1⟩
    rw [this] at hpre
    exact absurd hpre.1 (by simp)

theorem splitSub_at (pat pre post : Str) (hne : pat ≠ [])
    (hpre : containsSub pat pre = false)
    (hsof : selfOverlapFree pat = true) :
    splitSub pat (pre ++ (pat ++ post)) = some (pre, post) := by
  induction pre with
  | nil =>
    simp only [List.nil_append]
    cases hT : pat with
    | nil => exact absurd hT hne
    | cons o os =>
      have hp : isPre (o :: os) (o :: (os ++ post)) = true := by
        rw [show o :: (os ++ post) = (o :: os) ++ post from rfl]
        exact isPre_self_append _ _
      rw [show (o :: os) ++ post = o :: (os ++ post) from rfl]
      simp only [splitSub, hp, if_true]
      rw [show (o :: (os ++ post)).drop (o :: os).length =
        (os ++ post).drop os.length from by simp]
      rw [drop_len_append]
  | cons c pre' ih =>
    have hfalse : isPre pat (c :: (pre' ++ (pat ++ post))) = false :=
      isPre_no_early pat c pre' post hpre hsof
    simp only [containsSub, Bool.or_eq_false_iff] at hpre
    rw [show (c :: pre') ++ (pat ++ post) = c :: (pre' ++ (pat ++ post)) from rfl]
    simp only [splitSub, hfalse, Bool.false_eq_true, if_false]
    rw [ih hpre.2]

theorem containsSub_append_false_endNl (p0 : Char) (pr x y : Str)
    (hx : containsSub (p0 :: pr) x = false)
    (hy : containsSub (p0 :: pr) y = false)
    (hnl : '\n' ∉ p0 :: pr)
    (hxnl : ∃ x', x = x' ++ ['\n']) :
    containsSub (p0 :: pr) (x ++ y) = false := by
  rw [Bool.eq_false_iff] at hx hy
  by_contra hcon
  rw [Bool.not_eq_false, containsSub_iff] at hcon
  obtain ⟨a, b, hab⟩ := hcon
  rcases (List.append_eq_append_iff).mp hab with ⟨w, hw1, hw2⟩ | ⟨w, hw1, hw2⟩
  · exact hy ((containsSub_iff _ _).mpr ⟨w, b, hw2⟩)
  · rcases (List.append_eq_append_iff).mp hw2.symm with ⟨u, hu1, hu2⟩ | ⟨u, hu1, hu2⟩
    · cases w with
      | nil =>
        refine hy ((containsSub_iff _ _).mpr ⟨[], b, ?_⟩)
        simp only [List.nil_append] at hu1
        simp [hu2, ← hu1]
      | cons w0 w' =>
        cases u with
        | nil =>
          refine hx ((containsSub_iff _ _).mpr ⟨a, [], ?_⟩)
          simp only [List.append_nil] at hu1
          simp [hw1, ← hu1]
        | cons u0 u' =>
          obtain ⟨x', hx'⟩ := hxnl
          have hmemw : '\n' ∈ w0 :: w' := by
            rcases (List.append_eq_append_iff).mp (hx'.symm.trans hw1)
              with ⟨v, hv1, hv2⟩ | ⟨v, hv1, hv2⟩
            · cases v with
              | nil =>
                simp only [List.nil_append] at hv2
                rw [← hv2]
                exact List.mem_singleton.mpr rfl
              | cons v0 v' =>
                rw [List.cons_append] at hv2
                injection hv2 with h1 h2
                rcases List.append_eq_nil.mp h2.symm with ⟨_, hc⟩
                exact absurd hc (List.cons_ne_nil w0 w')
            · rw [hv2]
              exact List.mem_append.mpr (Or.inr (List.mem_singleton.mpr rfl))
          refine hnl ?_
          rw [hu1]
          exact List.mem_append.mpr (Or.inl hmemw)
    · exact hx ((containsSub_iff _ _).mpr ⟨a, u, by simp [hw1, hu1]⟩)

theorem contains_false_chunks (p0 : Char) (pr : Str) (hnl : '\n' ∉ p0 :: pr)
    (L : List Str) (h : ∀ l ∈ L, containsSub (p0 :: pr) (l ++ ['\n']) = false) :
    containsSub (p0 :: pr) (joinNl L ++ ['\n']) = false := by
  induction L with
  | nil =>
    have hp0 : (p0 == '\n') = false :=
      beq_eq_false_iff_ne.mpr fun hh => hnl (hh ▸ List.mem_cons_self p0 pr)
    show containsSub (p0 :: pr) ['\n'] = false
    simp only [containsSub, isPre, hp0, Bool.false_and]
    rfl
  | cons l ls ih =>
    cases ls with
    | nil => exact h l (List.mem_cons_self l [])
    | cons m ms =>
      rw [joinNl_cons l (m :: ms) (by simp)]
      rw [show (l ++ '\n' :: joinNl (m :: ms)) ++ ['\n'] =
        (l ++ ['\n']) ++ (joinNl (m :: ms) ++ ['\n']) from by simp]
      exact containsSub_append_false_endNl p0 pr _ _
        (h l (List.mem_cons_self l (m :: ms)))
        (ih fun x hx => h x (List.mem_cons_of_mem l hx)) hnl ⟨l, rfl⟩

theorem mem_joinNl (c : Char) (L : List Str) (h : c ∈ joinNl L) :
    c = '\n' ∨ ∃ l ∈ L, c ∈ l := by
  induction L with
  | nil => simp [joinNl] at h
  | cons l ls ih =>
    cases ls with
    | nil => exact Or.inr ⟨l, List.mem_cons_self l [], h⟩
    | cons m ms =>
      rw [joinNl_cons l (m :: ms) (by simp)] at h
      rcases List.mem_append.mp h with h' | h'
      · exact Or.inr ⟨l, List.mem_cons_self l _, h'⟩
      · rcases List.mem_cons.mp h' with rfl | h''
        · exact Or.inl rfl
        · rcases ih h'' with h3 | ⟨x, hx1, hx2⟩
          · exact Or.inl h3
          · exact Or.inr ⟨x, List.mem_cons_of_mem l hx1, hx2⟩

/-! ## No early `## Signals` occurrence in a written file -/

theorem chunk_noHash (l : Str) (h : '#' ∉ l) :
    containsSub "## Signals".data (l ++ ['\n']) = false := by
  rw [show "## Signals".data = '#' :: "# Signals".data from rfl]
  exact containsSub_false_of_not_mem '#' _ _ (not_mem_append _ _ _ h (by decide))

theorem chunk_header (c v : Str)
    (hc : containsSub ('#' :: "# Signals".data) c = false)
    (hspan : '#' ∉ lastN ("# Signals".data).length c) (hv : '#' ∉ v) :
    containsSub "## Signals".data ((c ++ v) ++ ['\n']) = false := by
  rw [show (c ++ v) ++ ['\n'] = c ++ (v ++ ['\n']) from by simp]
  rw [show "## Signals".data = '#' :: "# Signals".data from rfl]
  exact containsSub_append_false '#' _ c _ hc
    (containsSub_false_of_not_mem '#' _ _ (not_mem_append _ _ _ hv (by decide)))
    hspan

theorem markerStr_noHash (b : Bool) : '#' ∉ markerStr b := by
  cases b <;> decide

theorem curStr_noHash (b : Bool) (i : Nat) (k : Int) : '#' ∉ curStr b i k := by
  rcases curStr_cases b i k with h | h <;> rw [h]
  · decide
  · simp

theorem mem_lastN (c : Char) (m : Nat) (s : Str) (h : c ∈ lastN m s) : c ∈ s :=
  List.mem_of_mem_drop h

theorem not_mem_lastN_one (W path : Str) (hne : path ≠ []) (h : '#' ∉ path) :
    '#' ∉ lastN 1 (W ++ path) := by
  intro hm
  rw [lastN_append_of_le 1 W path (by
    have := List.length_pos.mpr hne
    omega)] at hm
  exact h (mem_lastN '#' 1 path hm)

theorem hash_hash_decRepr (n : Nat) :
    containsSub ('#' :: ['#']) ('#' :: decRepr n) = false := by
  obtain ⟨d, ds, hd⟩ : ∃ d ds, decRepr n = d :: ds := by
    cases h : decRepr n with
    | nil => exact absurd h (decRepr_ne_nil n)
    | cons d ds => exact ⟨d, ds, rfl⟩
  have hdne : ('#' == d) = false := by
    refine beq_eq_false_iff_ne.mpr fun hh => ?_
    exact decRepr_mem_ne n '#' (by decide) (hd ▸ (hh ▸ List.mem_cons_self d ds))
  have hiso : isPre ('#' :: ['#']) ('#' :: decRepr n) = false := by
    rw [hd]
    simp [isPre, hdne]
  simp only [containsSub, hiso, Bool.false_or]
  exact containsSub_false_of_not_mem '#' _ _ (noHash_decRepr n)

theorem not_mem_lastN_hashdec (n : Nat) : '#' ∉ lastN 1 ('#' :: decRepr n) := by
  obtain ⟨d, ds, hd⟩ : ∃ d ds, decRepr n = d :: ds := by
    cases h : decRepr n with
    | nil => exact absurd h (decRepr_ne_nil n)
    | cons d ds => exact ⟨d, ds, rfl⟩
  intro hm
  unfold lastN at hm
  rw [hd] at hm
  rw [show ('#' :: d :: ds).length - 1 = ds.length + 1 from by simp] at hm
  rw [List.drop_succ_cons] at hm
  have : '#' ∈ d :: ds := List.mem_of_mem_drop hm
  exact decRepr_mem_ne n '#' (by decide) (hd ▸ this)

theorem planLine_chunk (cur : Int) (i : Nat) (p : PlanInfo)
    (hv : validPlan p = true) :
    containsSub "## Signals".data (planLine cur i p ++ ['\n']) = false := by
  apply containsSub_false_mono "##".data _ _ (by decide)
  have hv' := hv
  simp only [validPlan, Bool.and_eq_true, Bool.not_eq_true',
    beq_eq_false_iff_ne, ne_eq, List.all_eq_true] at hv'
  obtain ⟨⟨⟨hne, hvs⟩, _⟩, hiz⟩ := hv'
  have hpH : '#' ∉ p.path := validStr_noHash _ hvs
  have hAfree : '#' ∉ "- ".data ++ markerStr p.completed ++ " ".data ++ p.path := by
    refine not_mem_append _ _ _ (not_mem_append _ _ _ (not_mem_append _ _ _
      (by decide) (markerStr_noHash p.completed)) (by decide)) hpH
  have hA : containsSub ('#' :: ['#'])
      ("- ".data ++ markerStr p.completed ++ " ".data ++ p.path) = false :=
    containsSub_false_of_not_mem '#' _ _ hAfree
  have hspanA : '#' ∉ lastN 1
      ("- ".data ++ markerStr p.completed ++ " ".data ++ p.path) := by
    rw [show "- ".data ++ markerStr p.completed ++ " ".data ++ p.path =
      ("- ".data ++ markerStr p.completed ++ " ".data) ++ p.path from by
        simp [List.append_assoc]]
    exact not_mem_lastN_one _ _ hne hpH
  have hB : containsSub ('#' :: ['#'])
      (issueStr p.issueNumber ++ (curStr p.completed i cur ++ ['\n'])) = false := by
    have hCfree : '#' ∉ curStr p.completed i cur ++ ['\n'] :=
      not_mem_append _ _ _ (curStr_noHash p.completed i cur) (by decide)
    rcases hiss : p.issueNumber with _ | n
    · rw [show issueStr none = [] from rfl, List.nil_append]
      exact containsSub_false_of_not_mem '#' _ _ hCfree
    · have hn : ¬ n = 0 := by
        intro hh
        rw [hh] at hiss
        exact hiz hiss
      have hshape : issueStr (some n) ++ (curStr p.completed i cur ++ ['\n']) =
          " (issue: ".data ++ (('#' :: decRepr n) ++
            (")".data ++ (curStr p.completed i cur ++ ['\n']))) := by
        rw [show issueStr (some n) =
          " (issue: #".data ++ decRepr n ++ ")".data from by
            show (if n = 0 then [] else _) = _
            rw [if_neg hn]]
        rw [show " (issue: #".data = " (issue: ".data ++ ['#'] from rfl]
        simp [List.append_assoc]
      rw [hshape]
      refine containsSub_append_false '#' ['#'] _ _ (by decide) ?_ (by decide)
      refine containsSub_append_false '#' ['#'] _ _ (hash_hash_decRepr n) ?_
        (not_mem_lastN_hashdec n)
      refine containsSub_false_of_not_mem '#' _ _ ?_
      exact not_mem_append _ _ _ (by decide) hCfree
  rw [show planLine cur i p ++ ['\n'] =
    ("- ".data ++ markerStr p.completed ++ " ".data ++ p.path) ++
      (issueStr p.issueNumber ++ (curStr p.completed i cur ++ ['\n'])) from by
    rw [planLine]
    simp [List.append_assoc]]
  exact containsSub_append_false '#' ['#'] _ _ hA hB hspanA

theorem upperStr_noHash (ph : WorkflowPhase) : '#' ∉ ph.upperStr := by
  cases ph <;> decide

theorem headLines_chunk (ctx : WorkflowContext) (phase : WorkflowPhase)
    (it : Nat) (now : Str) (hv : validCtx ctx now = true) :
    ∀ l ∈ headLines ctx phase it now,
      containsSub "## Signals".data (l ++ ['\n']) = false := by
  obtain ⟨h1, h2, h3, _, _, h6, _, h8⟩ := validCtx_unpack ctx now hv
  have hwt := optVal_facts ctx.worktreePath h2
  have hbr := optVal_facts ctx.branch h3
  intro l hl
  simp only [headLines, List.mem_cons] at hl
  rcases hl with rfl | rfl | rfl | rfl | rfl | rfl | rfl | rfl | rfl | rfl | rfl
    | rfl | rfl | rfl | rfl | hl
  · decide
  · exact chunk_header _ _ (by decide) (by decide) (validStr_noHash now h8)
  · exact chunk_header _ _ (by decide) (by decide) (validStr_noHash _ h1)
  · exact chunk_header _ _ (by decide) (by decide) hwt.2.1
  · exact chunk_header _ _ (by decide) (by decide) hbr.2.1
  · exact chunk_noHash [] (by simp)
  · decide
  · exact chunk_noHash _ (not_mem_append _ _ _ (by decide) (upperStr_noHash phase))
  · exact chunk_noHash _ (not_mem_append _ _ _ (by decide) (noHash_decRepr it))
  · exact chunk_noHash _ (not_mem_append _ _ _ (by decide) (validStr_noHash _ h6))
  · exact chunk_noHash _ (not_mem_append _ _ _ (by decide) (validStr_noHash now h8))
  · exact chunk_noHash [] (by simp)
  · decide
  · exact chunk_noHash _ (not_mem_append _ _ _ (by decide) (noHash_decRepr _))
  · exact chunk_noHash _ (not_mem_append _ _ _ (by decide) (noHash_decRepr _))
  · exact absurd hl (List.not_mem_nil l)

theorem plansBlock_chunk (ctx : WorkflowContext)
    (h4 : ∀ p ∈ ctx.plans, validPlan p = true) :
    ∀ l ∈ plansBlockLines ctx,
      containsSub "## Signals".data (l ++ ['\n']) = false := by
  intro l hl
  unfold plansBlockLines at hl
  by_cases hps : ctx.plans = []
  · rw [if_pos hps] at hl
    simp only [List.mem_singleton] at hl
    subst hl
    decide
  · rw [if_neg hps] at hl
    have : ∀ (i : Nat) (ps : List PlanInfo), (∀ p ∈ ps, validPlan p = true) →
        l ∈ planLinesFrom ctx.currentPlanIndex i ps →
        containsSub "## Signals".data (l ++ ['\n']) = false := by
      intro i ps
      induction ps generalizing i with
      | nil => intro _ hm; exact absurd hm (List.not_mem_nil l)
      | cons p ps' ih =>
        intro hval hm
        rcases List.mem_cons.mp hm with rfl | hm'
        · exact planLine_chunk ctx.currentPlanIndex i p
            (hval p (List.mem_cons_self p ps'))
        · exact ih (i + 1) (fun q hq => hval q (List.mem_cons_of_mem p hq)) hm'
    exact this 0 ctx.plans h4 hl

theorem prFront_chunk (ctx : WorkflowContext) (phase : WorkflowPhase)
    (now : Str) (hv : validCtx ctx now = true) :
    ∀ l ∈ prFrontLines ctx phase,
      containsSub "## Signals".data (l ++ ['\n']) = false := by
  obtain ⟨_, _, _, _, h5, _, _, _⟩ := validCtx_unpack ctx now hv
  have hurl := urlVal_facts ctx.prUrl h5
  have hnum := numVal_facts ctx.prNumber
  intro l hl
  simp only [prFrontLines, List.mem_cons] at hl
  rcases hl with rfl | rfl | rfl | rfl | rfl | rfl | rfl | rfl | rfl | rfl | rfl
    | rfl | hl
  · exact chunk_noHash [] (by simp)
  · decide
  · exact chunk_noHash _ (not_mem_append _ _ _ (by decide) hnum.2)
  · exact chunk_noHash _ (not_mem_append _ _ _ (by decide) hurl.2.1)
  · exact chunk_noHash _ (not_mem_append _ _ _ (by decide) (getCiStatus_noHash ctx phase))
  · exact chunk_noHash _ (not_mem_append _ _ _ (by decide) (noHash_decRepr _))
  · exact chunk_noHash [] (by simp)
  · decide
  · exact chunk_noHash _ (by decide)
  · exact chunk_noHash _ (by decide)
  · exact chunk_noHash _ (by decide)
  · exact chunk_noHash [] (by simp)
  · exact absurd hl (List.not_mem_nil l)

theorem signalLine_noHash (r : SignalRecord) (hr : validSignal r = true) :
    '#' ∉ signalLine r := by
  simp only [validSignal, Bool.and_eq_true, Bool.not_eq_true',
    beq_eq_false_iff_ne, ne_eq, List.all_eq_true] at hr
  obtain ⟨⟨⟨⟨_, hword⟩, _⟩, hts⟩, _⟩ := hr
  unfold signalLine
  refine not_mem_append _ _ _ (not_mem_append _ _ _ (not_mem_append _ _ _
    (by decide) (validStr_noHash _ hts)) (by decide)) ?_
  intro hm
  exact wordChar_ne_hash _ (hword _ hm) rfl

theorem post_noHash (ctx : WorkflowContext)
    (h7 : ∀ r ∈ ctx.signals, validSignal r = true) :
    '#' ∉ joinNl (signalsBlockLines ctx ++ [[]]) := by
  intro hm
  rcases mem_joinNl '#' _ hm with h | ⟨l, hl, hmem⟩
  · exact absurd h (by decide)
  · rcases List.mem_append.mp hl with hl' | hl'
    · unfold signalsBlockLines at hl'
      by_cases hs : ctx.signals = []
      · rw [if_pos hs] at hl'
        simp only [List.mem_singleton] at hl'
        subst hl'
        exact absurd hmem (by decide)
      · rw [if_neg hs] at hl'
        obtain ⟨r, hr, rfl⟩ := List.mem_map.mp hl'
        exact signalLine_noHash r (h7 r hr) hmem
    · rw [List.mem_singleton] at hl'
      subst hl'
      exact absurd hmem (List.not_mem_nil '#')

theorem joinNl_append_cons (L1 : List Str) (x : Str) (R : List Str)
    (h1 : L1 ≠ []) (hR : R ≠ []) :
    joinNl (L1 ++ x :: R) = (joinNl L1 ++ ['\n']) ++ (x ++ '\n' :: joinNl R) := by
  induction L1 with
  | nil => exact absurd rfl h1
  | cons l ls ih =>
    cases ls with
    | nil =>
      rw [show [l] ++ x :: R = l :: x :: R from rfl,
        joinNl_cons l (x :: R) (by simp), joinNl_cons x R hR,
        show joinNl [l] = l from rfl]
      simp
    | cons m ms =>
      rw [show (l :: m :: ms) ++ x :: R = l :: ((m :: ms) ++ x :: R) from rfl,
        joinNl_cons l _ (by simp), ih (by simp),
        joinNl_cons l (m :: ms) (by simp)]
      simp

/-- The written file splits at its unique `## Signals` heading: the
section JS indexes with `[1]` is everything after it. -/
theorem sectionAfterSignals_write (ctx : WorkflowContext) (phase : WorkflowPhase)
    (it : Nat) (now : Str) (hv : validCtx ctx now = true) :
    sectionAfterSignals (writeProgress ctx phase it now) =
      some ('\n' :: joinNl (signalsBlockLines ctx ++ [[]])) := by
  obtain ⟨_, _, _, h4, _, _, h7, _⟩ := validCtx_unpack ctx now hv
  have hchunks : ∀ l ∈ headLines ctx phase it now ++
      (plansBlockLines ctx ++ prFrontLines ctx phase),
      containsSub "## Signals".data (l ++ ['\n']) = false := by
    refine forall_mem_append _ _ (headLines_chunk ctx phase it now hv) ?_
    exact forall_mem_append _ _ (plansBlock_chunk ctx h4)
      (prFront_chunk ctx phase now hv)
  have hL1 : containsSub "## Signals".data
      (joinNl (headLines ctx phase it now ++
        (plansBlockLines ctx ++ prFrontLines ctx phase)) ++ ['\n']) = false := by
    rw [show "## Signals".data = '#' :: "# Signals".data from rfl] at hchunks ⊢
    exact contains_false_chunks '#' "# Signals".data (by decide) _ hchunks
  have hcontent : writeProgress ctx phase it now =
      (joinNl (headLines ctx phase it now ++
        (plansBlockLines ctx ++ prFrontLines ctx phase)) ++ ['\n']) ++
      ("## Signals".data ++ ('\n' :: joinNl (signalsBlockLines ctx ++ [[]]))) := by
    unfold writeProgress writeLines prLines
    rw [show headLines ctx phase it now ++ plansBlockLines ctx ++
        (prFrontLines ctx phase ++ ["## Signals".data]) ++
        signalsBlockLines ctx ++ [[]] =
      (headLines ctx phase it now ++
        (plansBlockLines ctx ++ prFrontLines ctx phase)) ++
        "## Signals".data :: (signalsBlockLines ctx ++ [[]]) from by simp]
    rw [joinNl_append_cons _ _ _ (by simp [headLines]) (by simp)]
  have hpost : containsSub "## Signals".data
      ('\n' :: joinNl (signalsBlockLines ctx ++ [[]])) = false := by
    rw [show "## Signals".data = '#' :: "# Signals".data from rfl]
    refine containsSub_false_of_not_mem '#' _ _ ?_
    intro hm
    rcases List.mem_cons.mp hm with h | h
    · exact absurd h (by decide)
    · exact post_noHash ctx h7 h
  rw [hcontent]
  unfold sectionAfterSignals
  rw [splitSub_at "## Signals".data _ _ (by decide) hL1 (by decide)]
  show (match splitSub "## Signals".data
      ('\n' :: joinNl (signalsBlockLines ctx ++ [[]])) with
    | none => some ('\n' :: joinNl (signalsBlockLines ctx ++ [[]]))
    | some (a, _) => some a) =
    some ('\n' :: joinNl (signalsBlockLines ctx ++ [[]]))
  rw [splitSub_none _ _ hpost]

/-! ## Scanning the signals section -/

theorem rightmostSepAux_no_colon (s : Str) (h : ':' ∉ s) :
    rightmostSepAux s = none := by
  induction s with
  | nil => rfl
  | cons c cs ih =>
    have hc : ¬ c = ':' := fun hh => h (hh ▸ List.mem_cons_self c cs)
    have ih' := ih fun hm => h (List.mem_cons_of_mem c hm)
    simp [rightmostSepAux, ih', hc]

theorem rightmostSepAux_at (ts sig : Str) (hsig : sig ≠ [])
    (hword : ∀ c ∈ sig, isWordChar c = true) :
    rightmostSepAux (ts ++ ':' :: ' ' :: sig) = some (ts, sig) := by
  induction ts with
  | nil =>
    have hsgn : rightmostSepAux sig = none :=
      rightmostSepAux_no_colon sig fun hm => absurd (hword ':' hm) (by decide)
    rw [List.nil_append]
    simp only [rightmostSepAux, hsgn]
    rw [takeWhile_eq_self_of_all isWordChar sig hword]
    simp [hsig]
  | cons c ts' ih =>
    rw [List.cons_append]
    simp only [rightmostSepAux, ih]

theorem signalLineAttempt_at (r : SignalRecord) (R : Str)
    (hv : validSignal r = true) :
    signalLineAttempt (signalLine r ++ '\n' :: R) = some (r, [] ++ '\n' :: R) := by
  have hv' := hv
  simp only [validSignal, Bool.and_eq_true, Bool.not_eq_true',
    beq_eq_false_iff_ne, ne_eq, List.all_eq_true] at hv'
  obtain ⟨⟨⟨⟨hsne, hword⟩, htsne⟩, hts⟩, _⟩ := hv'
  have htsnl : '\n' ∉ r.timestamp := validStr_noNl _ hts
  have hshape : signalLine r ++ '\n' :: R =
      "- ".data ++ ((r.timestamp ++ ':' :: ' ' :: r.signal) ++ '\n' :: R) := by
    rw [signalLine, show ": ".data = [':', ' '] from rfl]
    simp [List.append_assoc]
  rw [hshape]
  unfold signalLineAttempt
  rw [isPre_self_append, if_pos rfl]
  rw [show ("- ".data ++ ((r.timestamp ++ ':' :: ' ' :: r.signal) ++ '\n' :: R)).drop 2
    = (r.timestamp ++ ':' :: ' ' :: r.signal) ++ '\n' :: R from rfl]
  have hL : ((r.timestamp ++ ':' :: ' ' :: r.signal) ++ '\n' :: R).takeWhile
      (fun c => !(c == '\n')) = r.timestamp ++ ':' :: ' ' :: r.signal := by
    rw [takeWhile_append_of_all _ _ _ (by
      intro x hx
      simp only [Bool.not_eq_true']
      refine beq_eq_false_iff_ne.mpr fun hh => ?_
      subst hh
      rcases List.mem_append.mp hx with h | h
      · exact htsnl h
      · rcases List.mem_cons.mp h with h' | h'
        · exact absurd h' (by decide)
        · rcases List.mem_cons.mp h' with h'' | h''
          · exact absurd h'' (by decide)
          · exact wordChar_ne_nl _ (hword _ h'') rfl)]
    rw [takeWhile_eq_nil_of_head _ '\n' R (by decide)]
    simp
  rw [hL]
  simp only [rightmostSepAux_at r.timestamp r.signal hsne hword, htsne, if_false]
  rw [show r.timestamp.length + 2 + r.signal.length =
    (r.timestamp ++ ':' :: ' ' :: r.signal).length from by
    simp [List.length_append]; omega]
  rw [show (r.timestamp ++ ':' :: ' ' :: r.signal) ++ '\n' :: R =
    r.timestamp ++ ':' :: ' ' :: r.signal ++ '\n' :: R from by simp]
  rw [drop_len_append]
  rfl

theorem sigScan_lines (sigs : List SignalRecord)
    (hval : ∀ r ∈ sigs, validSignal r = true) :
    lineScanAll signalLineAttempt
      ((joinNl (sigs.map signalLine ++ [[]])).length + 1) true
      (joinNl (sigs.map signalLine ++ [[]])) = sigs := by
  induction sigs with
  | nil => rfl
  | cons r sigs' ih =>
    have hvr := hval r (List.mem_cons_self r sigs')
    rw [show (r :: sigs').map signalLine ++ [[]] =
      signalLine r :: (sigs'.map signalLine ++ [[]]) from rfl]
    rw [joinNl_cons _ _ (by simp)]
    rw [scanN_hit signalLineAttempt signalLineAttempt_consumes _ _ [] r
      (signalLineAttempt_at r _ hvr) (by simp) (by
        rw [signalLine]
        simp [List.length_append])]
    rw [ih fun q hq => hval q (List.mem_cons_of_mem r hq)]

/-- What `parseSignalsList` recovers from a written progress file: the
full signal history. -/
theorem parseSignalsList_write (ctx : WorkflowContext) (phase : WorkflowPhase)
    (it : Nat) (now : Str) (hv : validCtx ctx now = true) :
    parseSignalsList (writeProgress ctx phase it now) = ctx.signals := by
  obtain ⟨_, _, _, _, _, _, h7, _⟩ := validCtx_unpack ctx now hv
  unfold parseSignalsList
  rw [sectionAfterSignals_write ctx phase it now hv]
  show lineScanAll signalLineAttempt
    (('\n' :: joinNl (signalsBlockLines ctx ++ [[]])).length + 1) true
    ('\n' :: joinNl (signalsBlockLines ctx ++ [[]])) = ctx.signals
  rw [show ('\n' :: joinNl (signalsBlockLines ctx ++ [[]])) =
    [] ++ '\n' :: joinNl (signalsBlockLines ctx ++ [[]]) from rfl]
  rw [scanN_skip signalLineAttempt [] _ (by simp) (sigSkip_nil _)]
  unfold signalsBlockLines
  by_cases hs : ctx.signals = []
  · rw [if_pos hs]
    rw [show joinNl (["(no signals yet)".data] ++ [[]]) =
      "(no signals yet)".data ++ '\n' :: joinNl [[]] from rfl]
    rw [scanN_skip signalLineAttempt _ _ (by decide)
      (sigSkip_of_head _ '(' _ rfl (by decide) _)]
    rw [hs]
    rfl
  · rw [if_neg hs]
    exact sigScan_lines ctx.signals h7

/-! ## Extracting the status and PR values -/

theorem dropWhile_eq_self_of_head (p : Char → Bool) (c : Char) (cs : Str)
    (h : p c = false) : (c :: cs).dropWhile p = c :: cs := by
  simp [List.dropWhile_cons, h]

theorem trimStr_eq_self_of_all (s : Str) (h : ∀ c ∈ s, jsWs c = false) :
    trimStr s = s := by
  cases s with
  | nil => rfl
  | cons c cs =>
    have h1 : (c :: cs).dropWhile jsWs = c :: cs :=
      dropWhile_eq_self_of_head jsWs c cs (h c (List.mem_cons_self c cs))
    obtain ⟨d, ds, hrev⟩ : ∃ d ds, (c :: cs).reverse = d :: ds := by
      cases hr : (c :: cs).reverse with
      | nil => exact absurd (List.reverse_eq_nil_iff.mp hr) (by simp)
      | cons d ds => exact ⟨d, ds, rfl⟩
    have hd : d ∈ c :: cs := by
      rw [← List.mem_reverse, hrev]
      exact List.mem_cons_self d ds
    rw [trimStr, h1, hrev, dropWhile_eq_self_of_head jsWs d ds (h d hd), ← hrev,
      List.reverse_reverse]

theorem upperStr_trim (ph : WorkflowPhase) : trimStr ph.upperStr = ph.upperStr := by
  cases ph <;> decide

theorem trim_decRepr (n : Nat) : trimStr (decRepr n) = decRepr n := by
  refine trimStr_eq_self_of_all _ fun c hc => ?_
  have := decRepr_digits n c hc
  exact jsWs_of_digit c this.1 this.2

theorem isPre_false_of_ne_head (key l : Str) (k0 c : Char)
    (hk : key.head? = some k0) (hl : l.head? = some c) (hne : ¬ k0 = c) :
    isPre key l = false := by
  cases key with
  | nil => exact absurd hk (by simp)
  | cons a as =>
    cases l with
    | nil => exact isPre_nil_right a as
    | cons b bs =>
      simp only [List.head?_cons, Option.some.injEq] at hk hl
      subst hk; subst hl
      exact isPre_head_ne a b as bs hne

theorem planLine_noNl (cur : Int) (i : Nat) (p : PlanInfo)
    (hv : validPlan p = true) : '\n' ∉ planLine cur i p := by
  have hv' := hv
  simp only [validPlan, Bool.and_eq_true] at hv'
  obtain ⟨⟨⟨_, hvs⟩, _⟩, _⟩ := hv'
  rw [planLine]
  exact not_mem_append _ _ _ (not_mem_append _ _ _ (not_mem_append _ _ _
    (not_mem_append _ _ _ (not_mem_append _ _ _ (by decide)
      (by cases p.completed <;> decide)) (by decide)) (validStr_noNl _ hvs))
    (issueStr_noNl p.issueNumber)) (curStr_noNl p.completed i cur)

theorem plansBlock_keyFacts (ctx : WorkflowContext)
    (h4 : ∀ p ∈ ctx.plans, validPlan p = true)
    (key : Str) (k0 : Char) (hk : key.head? = some k0)
    (h0 : ¬ k0 = '-') (h0' : ¬ k0 = '(') :
    ∀ l ∈ plansBlockLines ctx, isPre key l = false ∧ '\n' ∉ l := by
  intro l hl
  unfold plansBlockLines at hl
  by_cases hps : ctx.plans = []
  · rw [if_pos hps] at hl
    simp only [List.mem_singleton] at hl
    subst hl
    exact ⟨isPre_false_of_ne_head _ _ k0 '(' hk rfl h0', by decide⟩
  · rw [if_neg hps] at hl
    have : ∀ (i : Nat) (ps : List PlanInfo), (∀ p ∈ ps, validPlan p = true) →
        l ∈ planLinesFrom ctx.currentPlanIndex i ps →
        isPre key l = false ∧ '\n' ∉ l := by
      intro i ps
      induction ps generalizing i with
      | nil => intro _ hm; exact absurd hm (List.not_mem_nil l)
      | cons p ps' ih =>
        intro hval hm
        rcases List.mem_cons.mp hm with rfl | hm'
        · refine ⟨isPre_false_of_ne_head _ _ k0 '-' hk ?_ h0,
            planLine_noNl _ _ _ (hval p (List.mem_cons_self p ps'))⟩
          rw [planLine]
          rfl
        · exact ih (i + 1) (fun q hq => hval q (List.mem_cons_of_mem p hq)) hm'
    exact this 0 ctx.plans h4 hl

theorem extractValue_currentPhase (ctx : WorkflowContext) (phase : WorkflowPhase)
    (it : Nat) (now : Str) (hv : validCtx ctx now = true) :
    extractValue (writeProgress ctx phase it now) "current_phase:".data =
      some phase.upperStr := by
  obtain ⟨h1, h2, h3, _, _, h6, _, h8⟩ := validCtx_unpack ctx now hv
  have hwt := optVal_facts ctx.worktreePath h2
  have hbr := optVal_facts ctx.branch h3
  obtain ⟨q, qs, hup, hq, hupnl⟩ := upperStr_shape phase
  have hkey : writeProgress ctx phase it now = joinNl (
      ["# Workflow Progress".data,
       "# Generated: ".data ++ now,
       "# Research: ".data ++ ctx.researchFile,
       "# Worktree: ".data ++ ctx.worktreePath.getD "not created".data,
       "# Branch: ".data ++ ctx.branch.getD "not created".data,
       [],
       "## Status".data] ++
      ("current_phase:".data ++ ' ' :: q :: qs) ::
      (["iteration: ".data ++ decRepr it,
        "started_at: ".data ++ ctx.startedAt,
        "last_update: ".data ++ now,
        [],
        "## Plans".data,
        "total: ".data ++ decRepr ctx.plans.length,
        "completed: ".data ++
          decRepr (ctx.plans.filter (fun p => p.completed)).length] ++
        (plansBlockLines ctx ++ (prLines ctx phase ++
          (signalsBlockLines ctx ++ [[]]))))) := by
    unfold writeProgress writeLines headLines
    refine congrArg joinNl ?_
    rw [show "current_phase:".data ++ ' ' :: q :: qs =
      "current_phase: ".data ++ phase.upperStr from by rw [hup]; rfl]
    simp [List.append_assoc]
  rw [hkey]
  rw [extractValue_at "current_phase:".data q qs _ _ (by decide) ?hlines hq
    (hup ▸ hupnl) (by simp)]
  · rw [← hup, upperStr_trim]
  case hlines =>
    intro l hl
    simp only [List.mem_cons] at hl
    rcases hl with rfl | rfl | rfl | rfl | rfl | rfl | rfl | hl
    · exact ⟨isPre_false_of_ne_head _ _ 'c' '#' rfl rfl (by decide), by decide⟩
    · exact ⟨isPre_false_of_ne_head _ _ 'c' '#' rfl rfl (by decide),
        not_mem_append _ _ _ (by decide) (validStr_noNl now h8)⟩
    · exact ⟨isPre_false_of_ne_head _ _ 'c' '#' rfl rfl (by decide),
        not_mem_append _ _ _ (by decide) (validStr_noNl _ h1)⟩
    · exact ⟨isPre_false_of_ne_head _ _ 'c' '#' rfl rfl (by decide),
        not_mem_append _ _ _ (by decide) hwt.1⟩
    · exact ⟨isPre_false_of_ne_head _ _ 'c' '#' rfl rfl (by decide),
        not_mem_append _ _ _ (by decide) hbr.1⟩
    · exact ⟨isPre_nil_right _ _, by simp⟩
    · exact ⟨isPre_false_of_ne_head _ _ 'c' '#' rfl rfl (by decide), by decide⟩
    · exact absurd hl (List.not_mem_nil l)

theorem extractValue_iteration (ctx : WorkflowContext) (phase : WorkflowPhase)
    (it : Nat) (now : Str) (hv : validCtx ctx now = true) :
    extractValue (writeProgress ctx phase it now) "iteration:".data =
      some (decRepr it) := by
  obtain ⟨h1, h2, h3, _, _, h6, _, h8⟩ := validCtx_unpack ctx now hv
  have hwt := optVal_facts ctx.worktreePath h2
  have hbr := optVal_facts ctx.branch h3
  obtain ⟨d, ds, hd⟩ : ∃ d ds, decRepr it = d :: ds := by
    cases h : decRepr it with
    | nil => exact absurd h (decRepr_ne_nil it)
    | cons d ds => exact ⟨d, ds, rfl⟩
  have hdws : jsWs d = false := by
    have := decRepr_digits it d (hd ▸ List.mem_cons_self d ds)
    exact jsWs_of_digit d this.1 this.2
  have hdnl : '\n' ∉ d :: ds := hd ▸ noNl_decRepr it
  have hkey : writeProgress ctx phase it now = joinNl (
      ["# Workflow Progress".data,
       "# Generated: ".data ++ now,
       "# Research: ".data ++ ctx.researchFile,
       "# Worktree: ".data ++ ctx.worktreePath.getD "not created".data,
       "# Branch: ".data ++ ctx.branch.getD "not created".data,
       [],
       "## Status".data,
       "current_phase: ".data ++ phase.upperStr] ++
      ("iteration:".data ++ ' ' :: d :: ds) ::
      (["started_at: ".data ++ ctx.startedAt,
        "last_update: ".data ++ now,
        [],
        "## Plans".data,
        "total: ".data ++ decRepr ctx.plans.length,
        "completed: ".data ++
          decRepr (ctx.plans.filter (fun p => p.completed)).length] ++
        (plansBlockLines ctx ++ (prLines ctx phase ++
          (signalsBlockLines ctx ++ [[]]))))) := by
    unfold writeProgress writeLines headLines
    refine congrArg joinNl ?_
    rw [show "iteration:".data ++ ' ' :: d :: ds =
      "iteration: ".data ++ decRepr it from by rw [hd]; rfl]
    simp [List.append_assoc]
  rw [hkey]
  rw [extractValue_at "iteration:".data d ds _ _ (by decide) ?hlines hdws
    hdnl (by simp)]
  · rw [← hd, trim_decRepr]
  case hlines =>
    intro l hl
    simp only [List.mem_cons] at hl
    rcases hl with rfl | rfl | rfl | rfl | rfl | rfl | rfl | rfl | hl
    · exact ⟨isPre_false_of_ne_head _ _ 'i' '#' rfl rfl (by decide), by decide⟩
    · exact ⟨isPre_false_of_ne_head _ _ 'i' '#' rfl rfl (by decide),
        not_mem_append _ _ _ (by decide) (validStr_noNl now h8)⟩
    · exact ⟨isPre_false_of_ne_head _ _ 'i' '#' rfl rfl (by decide),
        not_mem_append _ _ _ (by decide) (validStr_noNl _ h1)⟩
    · exact ⟨isPre_false_of_ne_head _ _ 'i' '#' rfl rfl (by decide),
        not_mem_append _ _ _ (by decide) hwt.1⟩
    · exact ⟨isPre_false_of_ne_head _ _ 'i' '#' rfl rfl (by decide),
        not_mem_append _ _ _ (by decide) hbr.1⟩
    · exact ⟨isPre_nil_right _ _, by simp⟩
    · exact ⟨isPre_false_of_ne_head _ _ 'i' '#' rfl rfl (by decide), by decide⟩
    · exact ⟨isPre_false_of_ne_head _ _ 'i' 'c' rfl rfl (by decide),
        not_mem_append _ _ _ (by decide) (upperStr_noNl phase)⟩
    · exact absurd hl (List.not_mem_nil l)

theorem isPre_nil_right_hd (key : Str) (k0 : Char) (hk : key.head? = some k0) :
    isPre key [] = false := by
  cases key with
  | nil => exact absurd hk (by simp)
  | cons a as => exact isPre_nil_right a as

theorem headLines_keyFacts (ctx : WorkflowContext) (phase : WorkflowPhase)
    (it : Nat) (now : Str) (hv : validCtx ctx now = true)
    (key : Str) (k0 : Char) (hk : key.head? = some k0)
    (hne : k0 ∉ ['#', 'c', 'i', 's', 'l', 't']) :
    ∀ l ∈ headLines ctx phase it now, isPre key l = false ∧ '\n' ∉ l := by
  obtain ⟨h1, h2, h3, _, _, h6, _, h8⟩ := validCtx_unpack ctx now hv
  have hwt := optVal_facts ctx.worktreePath h2
  have hbr := optVal_facts ctx.branch h3
  have hH : ¬ k0 = '#' := fun hh => hne (by rw [hh]; decide)
  have hC : ¬ k0 = 'c' := fun hh => hne (by rw [hh]; decide)
  have hI : ¬ k0 = 'i' := fun hh => hne (by rw [hh]; decide)
  have hS : ¬ k0 = 's' := fun hh => hne (by rw [hh]; decide)
  have hL : ¬ k0 = 'l' := fun hh => hne (by rw [hh]; decide)
  have hT : ¬ k0 = 't' := fun hh => hne (by rw [hh]; decide)
  intro l hl
  simp only [headLines, List.mem_cons] at hl
  rcases hl with rfl | rfl | rfl | rfl | rfl | rfl | rfl | rfl | rfl | rfl | rfl
    | rfl | rfl | rfl | rfl | hl
  · exact ⟨isPre_false_of_ne_head _ _ k0 '#' hk rfl hH, by decide⟩
  · exact ⟨isPre_false_of_ne_head _ _ k0 '#' hk rfl hH,
      not_mem_append _ _ _ (by decide) (validStr_noNl now h8)⟩
  · exact ⟨isPre_false_of_ne_head _ _ k0 '#' hk rfl hH,
      not_mem_append _ _ _ (by decide) (validStr_noNl _ h1)⟩
  · exact ⟨isPre_false_of_ne_head _ _ k0 '#' hk rfl hH,
      not_mem_append _ _ _ (by decide) hwt.1⟩
  · exact ⟨isPre_false_of_ne_head _ _ k0 '#' hk rfl hH,
      not_mem_append _ _ _ (by decide) hbr.1⟩
  · exact ⟨isPre_nil_right_hd _ k0 hk, by simp⟩
  · exact ⟨isPre_false_of_ne_head _ _ k0 '#' hk rfl hH, by decide⟩
  · exact ⟨isPre_false_of_ne_head _ _ k0 'c' hk rfl hC,
      not_mem_append _ _ _ (by decide) (upperStr_noNl phase)⟩
  · exact ⟨isPre_false_of_ne_head _ _ k0 'i' hk rfl hI,
      not_mem_append _ _ _ (by decide) (noNl_decRepr it)⟩
  · exact ⟨isPre_false_of_ne_head _ _ k0 's' hk rfl hS,
      not_mem_append _ _ _ (by decide) (validStr_noNl _ h6)⟩
  · exact ⟨isPre_false_of_ne_head _ _ k0 'l' hk rfl hL,
      not_mem_append _ _ _ (by decide) (validStr_noNl now h8)⟩
  · exact ⟨isPre_nil_right_hd _ k0 hk, by simp⟩
  · exact ⟨isPre_false_of_ne_head _ _ k0 '#' hk rfl hH, by decide⟩
  · exact ⟨isPre_false_of_ne_head _ _ k0 't' hk rfl hT,
      not_mem_append _ _ _ (by decide) (noNl_decRepr _)⟩
  · exact ⟨isPre_false_of_ne_head _ _ k0 'c' hk rfl hC,
      not_mem_append _ _ _ (by decide) (noNl_decRepr _)⟩
  · exact absurd hl (List.not_mem_nil l)

theorem numPayload_shape (o : Option Nat) :
    ∃ q qs, numberVal o = q :: qs ∧
      jsWs q = false ∧ '\n' ∉ numberVal o ∧
      trimStr (numberVal o) = numberVal o := by
  rcases o with _ | n
  · exact ⟨'n', "ull".data, rfl, by decide, by decide, by decide⟩
  · obtain ⟨d, ds, hd⟩ : ∃ d ds, decRepr n = d :: ds := by
      cases h : decRepr n with
      | nil => exact absurd h (decRepr_ne_nil n)
      | cons d ds => exact ⟨d, ds, rfl⟩
    have hws : jsWs d = false := by
      have := decRepr_digits n d (hd ▸ List.mem_cons_self d ds)
      exact jsWs_of_digit d this.1 this.2
    exact ⟨d, ds, hd, hws, noNl_decRepr n, trim_decRepr n⟩


theorem urlPayload_shape (o : Option Str)
    (hm : (match o with
      | some u => validStr u && !(u == []) && !(u == "null".data)
      | none => true) = true) :
    ∃ q qs, o.getD "null".data = q :: qs ∧ jsWs q = false ∧
      '\n' ∉ o.getD "null".data ∧
      trimStr (o.getD "null".data) = o.getD "null".data := by
  rcases o with _ | u
  · exact ⟨'n', "ull".data, rfl, by decide, by decide, by decide⟩
  · simp only [Bool.and_eq_true, Bool.not_eq_true', beq_eq_false_iff_ne,
      ne_eq] at hm
    obtain ⟨⟨hvs, hne⟩, _⟩ := hm
    obtain ⟨q, qs, hq⟩ : ∃ q qs, u = q :: qs := by
      cases hc : u with
      | nil => exact absurd hc hne
      | cons a as => exact ⟨a, as, rfl⟩
    refine ⟨q, qs, hq, head_not_ws_of_trimmed q qs (by
      rw [← hq]; exact validStr_trim u hvs), validStr_noNl u hvs,
      validStr_trim u hvs⟩

theorem extractValue_number (ctx : WorkflowContext) (phase : WorkflowPhase)
    (it : Nat) (now : Str) (hv : validCtx ctx now = true) :
    extractValue (writeProgress ctx phase it now) "number:".data =
      some (numberVal ctx.prNumber) := by
  obtain ⟨_, _, _, h4, _, _, _, _⟩ := validCtx_unpack ctx now hv
  obtain ⟨q, qs, hP, hq, hPnl, hPtrim⟩ := numPayload_shape ctx.prNumber
  have hkey : writeProgress ctx phase it now = joinNl (
      (headLines ctx phase it now ++
        (plansBlockLines ctx ++ [[], "## PR".data])) ++
      ("number:".data ++ ' ' :: q :: qs) ::
      (["url: ".data ++ ctx.prUrl.getD "null".data,
        "ci_status: ".data ++ getCiStatus ctx phase,
        "ci_attempts: ".data ++ decRepr ctx.ciAttempts,
        [],
        "## Comments".data,
        "total: 0".data,
        "resolved: 0".data,
        "pending: 0".data,
        [],
        "## Signals".data] ++
        (signalsBlockLines ctx ++ [[]]))) := by
    unfold writeProgress writeLines prLines prFrontLines
    refine congrArg joinNl ?_
    rw [show "number:".data ++ ' ' :: q :: qs =
      "number: ".data ++ numberVal ctx.prNumber from by rw [hP]; rfl]
    simp [List.append_assoc]
  rw [hkey]
  rw [extractValue_at "number:".data q qs _ _ (by decide) ?hlines hq
    (hP ▸ hPnl) (by simp)]
  · rw [← hP, hPtrim]
  case hlines =>
    refine forall_mem_append _ _
      (headLines_keyFacts ctx phase it now hv _ 'n' rfl (by decide)) ?_
    refine forall_mem_append _ _
      (plansBlock_keyFacts ctx h4 _ 'n' rfl (by decide) (by decide)) ?_
    intro l hl
    simp only [List.mem_cons] at hl
    rcases hl with rfl | rfl | hl
    · exact ⟨isPre_nil_right_hd _ 'n' rfl, by simp⟩
    · exact ⟨isPre_false_of_ne_head _ _ 'n' '#' rfl rfl (by decide), by decide⟩
    · exact absurd hl (List.not_mem_nil l)

theorem extractValue_url (ctx : WorkflowContext) (phase : WorkflowPhase)
    (it : Nat) (now : Str) (hv : validCtx ctx now = true) :
    extractValue (writeProgress ctx phase it now) "url:".data =
      some (ctx.prUrl.getD "null".data) := by
  obtain ⟨_, _, _, h4, h5, _, _, _⟩ := validCtx_unpack ctx now hv
  have hnum := numVal_facts ctx.prNumber
  obtain ⟨q, qs, hP, hq, hPnl, hPtrim⟩ := urlPayload_shape ctx.prUrl h5
  have hkey : writeProgress ctx phase it now = joinNl (
      (headLines ctx phase it now ++
        (plansBlockLines ctx ++ [[], "## PR".data,
          "number: ".data ++ numberVal ctx.prNumber])) ++
      ("url:".data ++ ' ' :: q :: qs) ::
      (["ci_status: ".data ++ getCiStatus ctx phase,
        "ci_attempts: ".data ++ decRepr ctx.ciAttempts,
        [],
        "## Comments".data,
        "total: 0".data,
        "resolved: 0".data,
        "pending: 0".data,
        [],
        "## Signals".data] ++
        (signalsBlockLines ctx ++ [[]]))) := by
    unfold writeProgress writeLines prLines prFrontLines
    refine congrArg joinNl ?_
    rw [show "url:".data ++ ' ' :: q :: qs =
      "url: ".data ++ ctx.prUrl.getD "null".data from by rw [hP]; rfl]
    simp [List.append_assoc]
  rw [hkey]
  rw [extractValue_at "url:".data q qs _ _ (by decide) ?hlines hq
    (hP ▸ hPnl) (by simp)]
  · rw [← hP, hPtrim]
  case hlines =>
    refine forall_mem_append _ _
      (headLines_keyFacts ctx phase it now hv _ 'u' rfl (by decide)) ?_
    refine forall_mem_append _ _
      (plansBlock_keyFacts ctx h4 _ 'u' rfl (by decide) (by decide)) ?_
    intro l hl
    simp only [List.mem_cons] at hl
    rcases hl with rfl | rfl | rfl | hl
    · exact ⟨isPre_nil_right_hd _ 'u' rfl, by simp⟩
    · exact ⟨isPre_false_of_ne_head _ _ 'u' '#' rfl rfl (by decide), by decide⟩
    · exact ⟨isPre_false_of_ne_head _ _ 'u' 'n' rfl rfl (by decide),
        not_mem_append _ _ _ (by decide) hnum.1⟩
    · exact absurd hl (List.not_mem_nil l)

/-! ## Header values and the line split -/

theorem extractHeaderValue_cons (l : Str) (ls : List Str) (label : Str) :
    extractHeaderValue (l :: ls) label =
      if isPre ("# ".data ++ label) l then
        some (trimStr (l.drop ("# ".data ++ label).length))
      else extractHeaderValue ls label := rfl

theorem plansBlock_noNl (ctx : WorkflowContext)
    (h4 : ∀ p ∈ ctx.plans, validPlan p = true) :
    ∀ l ∈ plansBlockLines ctx, '\n' ∉ l :=
  fun l hl => (plansBlock_keyFacts ctx h4 "u".data 'u' rfl (by decide)
    (by decide) l hl).2

theorem writeLines_noNl (ctx : WorkflowContext) (phase : WorkflowPhase)
    (it : Nat) (now : Str) (hv : validCtx ctx now = true) :
    ∀ l ∈ writeLines ctx phase it now, '\n' ∉ l := by
  obtain ⟨_, _, _, h4, _, _, h7, _⟩ := validCtx_unpack ctx now hv
  intro l hl
  unfold writeLines at hl
  simp only [List.append_assoc, List.mem_append] at hl
  rcases hl with hl | hl | hl | hl | hl
  · exact (headLines_planSkip ctx phase it now hv l hl).1
  · exact plansBlock_noNl ctx h4 l hl
  · exact (prLines_planSkip ctx phase now hv l hl).1
  · exact (signalsBlock_planSkip ctx h7 l hl).1
  · rw [List.mem_singleton] at hl
    subst hl
    simp

theorem splitNl_write (ctx : WorkflowContext) (phase : WorkflowPhase)
    (it : Nat) (now : Str) (hv : validCtx ctx now = true) :
    splitNl (writeProgress ctx phase it now) = writeLines ctx phase it now := by
  refine splitNl_joinNl _ ?_ (writeLines_noNl ctx phase it now hv)
  unfold writeLines headLines
  simp

theorem extractHeader_research (ctx : WorkflowContext) (phase : WorkflowPhase)
    (it : Nat) (now : Str) (hv : validCtx ctx now = true) :
    extractHeaderValue (writeLines ctx phase it now) "Research:".data =
      some ctx.researchFile := by
  obtain ⟨h1, _, _, _, _, _, _, _⟩ := validCtx_unpack ctx now hv
  unfold writeLines headLines
  simp only [List.cons_append, List.nil_append]
  rw [extractHeaderValue_cons, if_neg (by simp [isPre])]
  rw [extractHeaderValue_cons, if_neg (by simp [isPre])]
  rw [extractHeaderValue_cons, if_pos (by simp [isPre])]
  rw [show List.drop ("# ".data ++ "Research:".data).length
    ('#' :: ' ' :: 'R' :: 'e' :: 's' :: 'e' :: 'a' :: 'r' :: 'c' :: 'h' :: ':'
      :: ' ' :: ctx.researchFile) = ' ' :: ctx.researchFile from rfl]
  rw [trimStr_cons_ws _ _ (by decide), validStr_trim _ h1]

theorem extractHeader_worktree (ctx : WorkflowContext) (phase : WorkflowPhase)
    (it : Nat) (now : Str) (hv : validCtx ctx now = true) :
    extractHeaderValue (writeLines ctx phase it now) "Worktree:".data =
      some (ctx.worktreePath.getD "not created".data) := by
  obtain ⟨_, h2, _, _, _, _, _, _⟩ := validCtx_unpack ctx now hv
  have hwt := optVal_facts ctx.worktreePath h2
  unfold writeLines headLines
  simp only [List.cons_append, List.nil_append]
  rw [extractHeaderValue_cons, if_neg (by simp [isPre])]
  rw [extractHeaderValue_cons, if_neg (by simp [isPre])]
  rw [extractHeaderValue_cons, if_neg (by simp [isPre])]
  rw [extractHeaderValue_cons, if_pos (by simp [isPre])]
  rw [show List.drop ("# ".data ++ "Worktree:".data).length
    ('#' :: ' ' :: 'W' :: 'o' :: 'r' :: 'k' :: 't' :: 'r' :: 'e' :: 'e' :: ':'
      :: ' ' :: ctx.worktreePath.getD "not created".data) =
    ' ' :: ctx.worktreePath.getD "not created".data from rfl]
  rw [trimStr_cons_ws _ _ (by decide), hwt.2.2]

theorem extractHeader_branch (ctx : WorkflowContext) (phase : WorkflowPhase)
    (it : Nat) (now : Str) (hv : validCtx ctx now = true) :
    extractHeaderValue (writeLines ctx phase it now) "Branch:".data =
      some (ctx.branch.getD "not created".data) := by
  obtain ⟨_, _, h3, _, _, _, _, _⟩ := validCtx_unpack ctx now hv
  have hbr := optVal_facts ctx.branch h3
  unfold writeLines headLines
  simp only [List.cons_append, List.nil_append]
  rw [extractHeaderValue_cons, if_neg (by simp [isPre])]
  rw [extractHeaderValue_cons, if_neg (by simp [isPre])]
  rw [extractHeaderValue_cons, if_neg (by simp [isPre])]
  rw [extractHeaderValue_cons, if_neg (by simp [isPre])]
  rw [extractHeaderValue_cons, if_pos (by simp [isPre])]
  rw [show List.drop ("# ".data ++ "Branch:".data).length
    ('#' :: ' ' :: 'B' :: 'r' :: 'a' :: 'n' :: 'c' :: 'h' :: ':'
      :: ' ' :: ctx.branch.getD "not created".data) =
    ' ' :: ctx.branch.getD "not created".data from rfl]
  rw [trimStr_cons_ws _ _ (by decide), hbr.2.2]

set_option maxHeartbeats 2000000 in
/-- **C5** (amended).  Writing a valid `WorkflowContext` with
`ProgressWriter.write` and parsing the file back preserves
`researchFile`, `worktreePath`, `branch` (including the null cases), the
current phase (as its lowercase name), the iteration count, the PR
number and url, and the full signal history — but NOT the plan list as
claimed: the lazy `(.+?)` capture of `parsePlansList` keeps only the
first character of each plan path, and an issue suffix survives only for
one-character paths, so each parsed plan is `truncPlan` of the original
(the completed flag is preserved). -/
theorem progress_roundtrip_amended (ctx : WorkflowContext) (phase : WorkflowPhase)
    (it : Nat) (now : Str) (hv : validCtx ctx now = true) :
    (roundTrip ctx phase it now).researchFile = ctx.researchFile ∧
    (roundTrip ctx phase it now).worktreePath = ctx.worktreePath ∧
    (roundTrip ctx phase it now).branch = ctx.branch ∧
    (roundTrip ctx phase it now).currentPhase = phase.lowerStr ∧
    (roundTrip ctx phase it now).iteration = some it ∧
    (roundTrip ctx phase it now).pr.number = ctx.prNumber ∧
    (roundTrip ctx phase it now).pr.url = ctx.prUrl ∧
    (roundTrip ctx phase it now).signals = ctx.signals ∧
    (roundTrip ctx phase it now).plans.list = ctx.plans.map truncPlan := by
  obtain ⟨h1, h2, h3, h4, h5, h6, h7, h8⟩ := validCtx_unpack ctx now hv
  refine ⟨?_, ?_, ?_, ?_, ?_, ?_, ?_, ?_, ?_⟩
  · show (extractHeaderValue (splitNl (writeProgress ctx phase it now))
      "Research:".data).getD [] = ctx.researchFile
    rw [splitNl_write ctx phase it now hv,
      extractHeader_research ctx phase it now hv]
    rfl
  · show (match extractHeaderValue (splitNl (writeProgress ctx phase it now))
        "Worktree:".data with
      | some w => if w = "not created".data then none else some w
      | none => none) = ctx.worktreePath
    rw [splitNl_write ctx phase it now hv,
      extractHeader_worktree ctx phase it now hv]
    rcases hwt : ctx.worktreePath with _ | w
    · simp
    · rw [hwt] at h2
      simp only [Bool.and_eq_true, Bool.not_eq_true', beq_eq_false_iff_ne,
        ne_eq] at h2
      simp only [Option.getD_some]
      rw [if_neg h2.2]
  · show (match extractHeaderValue (splitNl (writeProgress ctx phase it now))
        "Branch:".data with
      | some b => if b = "not created".data then none else some b
      | none => none) = ctx.branch
    rw [splitNl_write ctx phase it now hv,
      extractHeader_branch ctx phase it now hv]
    rcases hbr : ctx.branch with _ | b
    · simp
    · rw [hbr] at h3
      simp only [Bool.and_eq_true, Bool.not_eq_true', beq_eq_false_iff_ne,
        ne_eq] at h3
      simp only [Option.getD_some]
      rw [if_neg h3.2]
  · show jsToLower ((extractValue (writeProgress ctx phase it now)
      "current_phase:".data).getD "idle".data) = phase.lowerStr
    rw [extractValue_currentPhase ctx phase it now hv, Option.getD_some]
    exact jsToLower_upperStr phase
  · show jsParseIntNat ((extractValue (writeProgress ctx phase it now)
      "iteration:".data).getD "0".data) = some it
    rw [extractValue_iteration ctx phase it now hv, Option.getD_some,
      jsParseIntNat_decRepr]
  · show parseNullableInt (extractValue (writeProgress ctx phase it now)
      "number:".data) = ctx.prNumber
    rw [extractValue_number ctx phase it now hv]
    rcases ctx.prNumber with _ | n
    · decide
    · show (if decRepr n = [] then none
        else if decRepr n = "null".data then none
        else jsParseIntNat (decRepr n)) = some n
      rw [if_neg (decRepr_ne_nil n), if_neg (decRepr_ne_null n),
        jsParseIntNat_decRepr]
  · show parseNullableString (extractValue (writeProgress ctx phase it now)
      "url:".data) = ctx.prUrl
    rw [extractValue_url ctx phase it now hv]
    rcases hurl : ctx.prUrl with _ | u
    · decide
    · rw [hurl] at h5
      simp only [Bool.and_eq_true, Bool.not_eq_true', beq_eq_false_iff_ne,
        ne_eq] at h5
      show (if u = [] then none else if u = "null".data then none
        else some u) = some u
      rw [if_neg h5.1.2, if_neg h5.2]
  · show parseSignalsList (writeProgress ctx phase it now) = ctx.signals
    exact parseSignalsList_write ctx phase it now hv
  · show parsePlansList (writeProgress ctx phase it now) = ctx.plans.map truncPlan
    exact parsePlansList_write ctx phase it now hv

def cex5 : WorkflowContext :=
  ⟨"r".data, none, none, [⟨"ab".data, none, false⟩], 0, none, none, 0, 0, none,
   "t".data, [], []⟩

set_option maxRecDepth 8000 in
/-- **C5** counterexample: a valid context whose single plan has the
two-character path `ab` round-trips to a plan list whose path is just
`a` — the write-then-read round-trip does not preserve plan paths. -/
theorem progress_roundtrip_loses_plan_path :
    validCtx cex5 "t".data = true ∧
    (roundTrip cex5 WorkflowPhase.idle 0 "t".data).plans.list ≠ cex5.plans := by
  have hv : validCtx cex5 "t".data = true := by decide
  refine ⟨hv, ?_⟩
  show parsePlansList (writeProgress cex5 WorkflowPhase.idle 0 "t".data) ≠
    cex5.plans
  rw [parsePlansList_write cex5 WorkflowPhase.idle 0 "t".data hv]
  decide

def cw5 : WorkflowContext :=
  ⟨"r".data, some "w".data, some "b".data, [⟨"a".data, some 7, true⟩], 0,
   some 12, some "u".data, 1, 0, none, "t".data, [],
   [⟨"CI_PASSED".data, "ts1".data⟩]⟩

set_option maxRecDepth 8000 in
/-- Witness for the amended C5 round-trip at a concrete context. -/
theorem progress_roundtrip_amended_witness :
    validCtx cw5 "t".data = true ∧
    ((roundTrip cw5 WorkflowPhase.implementing 2 "t".data).researchFile =
        cw5.researchFile ∧
      (roundTrip cw5 WorkflowPhase.implementing 2 "t".data).worktreePath =
        cw5.worktreePath ∧
      (roundTrip cw5 WorkflowPhase.implementing 2 "t".data).branch = cw5.branch ∧
      (roundTrip cw5 WorkflowPhase.implementing 2 "t".data).currentPhase =
        WorkflowPhase.implementing.lowerStr ∧
      (roundTrip cw5 WorkflowPhase.implementing 2 "t".data).iteration = some 2 ∧
      (roundTrip cw5 WorkflowPhase.implementing 2 "t".data).pr.number =
        cw5.prNumber ∧
      (roundTrip cw5 WorkflowPhase.implementing 2 "t".data).pr.url = cw5.prUrl ∧
      (roundTrip cw5 WorkflowPhase.implementing 2 "t".data).signals =
        cw5.signals ∧
      (roundTrip cw5 WorkflowPhase.implementing 2 "t".data).plans.list =
        cw5.plans.map truncPlan) :=
  ⟨by decide, progress_roundtrip_amended cw5 WorkflowPhase.implementing 2
    "t".data (by decide)⟩
